import Mathlib

set_option maxRecDepth 10000

/-!
Verification of the Priority Level Replay (PLR) serial pipeline.

The development shallowly embeds `serial_pipeline_plr` and `generate_seeds`
from `ding/entry/serial_entry_plr.py`, the priority statistic of
`_forward_learn` from `ding/policy/r2d2_gtrxl.py`, and (modelled from the
spec, since its source file is not part of the repository slice) the
`LevelSampler` component.

The orchestration loop is embedded as a fuel-indexed function that produces
a trace of events, one event per collaborator call or environment
assignment, threading the level-sampler state and the two counters
(`train_iter`, `envstep`) exactly as the Python loop does.  External
collaborators (learner, collector, evaluator, commander) are oracles: their
observable results (evaluation cadence and stop flag, counter increments,
sampling randomness, learning potentials) are unconstrained functions, and
each call may also return an error, which the Python loop would propagate
as an uncaught exception.
-/

/-- Events recording every collaborator call and environment (re)assignment
performed by the pipeline, tagged with the 0-based cycle index of the
orchestration loop where applicable. -/
inductive Ev where
  /-- the learner `before_run` hook -/
  | beforeRun : Ev
  /-- the j-th call `level_sampler.sample('sequential')` of the initial round -/
  | seqSample (j : Nat) : Ev
  /-- initial `collector_env.seed(seeds)` followed by `collector_env.reset()` -/
  | initAssign (seeds : List Int) : Ev
  /-- the `commander.step()` call opening cycle `k` -/
  | commanderStep (k : Nat) : Ev
  /-- the `evaluator.eval(...)` call of cycle `k` -/
  | evalCall (k : Nat) : Ev
  /-- the `collector.collect(..., level_seeds, ...)` call of cycle `k`;
  carries the level seeds handed to the collector -/
  | collectCall (k : Nat) (seeds : List Int) : Ev
  /-- the `learner.train(new_data, collector.envstep)` call of cycle `k` -/
  | trainCall (k : Nat) : Ev
  /-- the `level_sampler.update_with_rollouts(stacked_data, n)` call of cycle `k` -/
  | updateCall (k : Nat) : Ev
  /-- the i-th weighted `level_sampler.sample()` call of cycle `k` -/
  | weightedSample (k : Nat) (i : Nat) : Ev
  /-- per-cycle `collector_env.seed(seeds)` plus `collector_env.reset()` of cycle `k` -/
  | reseedAssign (k : Nat) (seeds : List Int) : Ev
  /-- the learner `after_run` hook -/
  | afterRun : Ev
deriving DecidableEq, Repr

/-- Errors a collaborator call can raise; an orchestration-loop call that
raises is modelled as returning `Except.error`. -/
inductive Err where
  /-- sequential sampling requested after full cold-start coverage -/
  | exhaustedPool : Err
  /-- a fatal collaborator failure (environment crash, divergence, ...) -/
  | collabCrash : Err
deriving DecidableEq, Repr

/-- Cycle index attached to an event, when it has one. -/
def Ev.cycle? : Ev → Option Nat
  | .commanderStep k => some k
  | .evalCall k => some k
  | .collectCall k _ => some k
  | .trainCall k => some k
  | .updateCall k => some k
  | .weightedSample k _ => some k
  | .reseedAssign k _ => some k
  | _ => none

/-- Modelled from the spec: the per-level scheduling state owned by the
level sampler (`ding/data/level_replay/level_sampler.py`, not part of the
repository slice).  `pool` is the fixed list of level identifiers; `score`,
`staleness` and `visit_count` are the per-level statistics, stored
positionally (index i belongs to `pool[i]`). -/
structure LevelSampler where
  pool : List Int
  score : List ℚ
  staleness : List Nat
  visit_count : List Nat
deriving DecidableEq, Repr

/-- Modelled from the spec: initial sampler state; every statistic starts
at the unseen sentinel 0. -/
def LevelSampler.init (pool : List Int) : LevelSampler :=
  { pool := pool
    score := List.replicate pool.length 0
    staleness := List.replicate pool.length 0
    visit_count := List.replicate pool.length 0 }

/-- Modelled from the spec: the side effect of sampling the level at pool
index `idx`: its staleness is reset to 0 and its visit count incremented. -/
def LevelSampler.sampleAt (s : LevelSampler) (idx : Nat) : LevelSampler :=
  { s with
    staleness := s.staleness.set idx 0
    visit_count := s.visit_count.set idx (s.visit_count.getD idx 0 + 1) }

/-- Modelled from the spec: one `sample('sequential')` call returns the next
never-yet-visited level in pool order, or fails when the pool is exhausted. -/
def LevelSampler.sequentialSample (s : LevelSampler) : Option (Int × LevelSampler) :=
  match s.visit_count.findIdx? (fun c => c == 0) with
  | none => none
  | some idx => some (s.pool.getD idx 0, s.sampleAt idx)

/-- Modelled from the spec: at the end of a full assignment round the
staleness of every level that was not just sampled increments by 1. -/
def LevelSampler.endRound (s : LevelSampler) (sampled : List Int) : LevelSampler :=
  { s with
    staleness := (List.range s.staleness.length).map fun i =>
      if s.pool.getD i 0 ∈ sampled then s.staleness.getD i 0 else s.staleness.getD i 0 + 1 }

/-- Modelled from the spec: `update_with_rollouts` overwrites the score of
each level of the current assignment with the learning potential computed
from that worker's trajectory; an identifier not in the pool is silently
ignored (`List.indexOf` then falls off the end and `List.set` is a no-op). -/
def LevelSampler.updateWithRollouts (s : LevelSampler) (assignment : List Int)
    (potentials : List ℚ) : LevelSampler :=
  (assignment.zip potentials).foldl
    (fun t p => { t with score := t.score.set (t.pool.indexOf p.1) p.2 }) s

/-- from `serial_entry_plr.py`:
`def generate_seeds(num_seeds=500, base_seed=0): return [base_seed + i for i in range(num_seeds)]` -/
def generate_seeds (num_seeds : Nat := 500) (base_seed : Int := 0) : List Int :=
  (List.range num_seeds).map fun (i : Nat) => base_seed + (i : Int)

/-- Stop-condition configuration of a pipeline run: the collector worker
count `cfg.env.collector_env_num` and the two maxima of
`serial_pipeline_plr`. -/
structure Cfg where
  workerCount : Nat
  maxEnvStep : Nat
  maxTrainIter : Nat

/-- Oracle for the external collaborators.  Each fallible call of the loop
(eval / collect / train / update_with_rollouts / weighted sample) is a
function of the cycle index returning either its observable result or the
error it raises; `shouldEval` is the evaluator cadence predicate on
`learner.train_iter`; `collectRes` and `trainRes` return the increment the
call adds to `collector.envstep` resp. `learner.train_iter`; `pick`
resolves the randomness of the i-th weighted sample of cycle `k` to a pool
position; `potentials` are the per-worker learning potentials that cycle's
rollouts yield. -/
structure Collab where
  shouldEval : Nat → Bool
  evalRes : Nat → Except Err Bool
  collectRes : Nat → Except Err Nat
  trainRes : Nat → Except Err Nat
  updateRes : Nat → Except Err Unit
  sampleRes : Nat → Nat → Except Err Unit
  pick : Nat → Nat → Nat
  potentials : Nat → List ℚ

/-- Final mutable state of the loop: sampler, the two counters, and the
level seeds most recently assigned to the collector environments. -/
structure LoopFin where
  samp : LevelSampler
  trainIter : Nat
  envstep : Nat
  seeds : List Int
deriving Repr

/-- Result of running the pipeline: normal return of the policy (`ok`),
an uncaught collaborator exception (`err`), or fuel exhaustion of the
(otherwise unbounded) `while True` loop (`fuelOut`).  Every constructor
carries the event trace produced so far. -/
inductive RunRes where
  | ok (tr : List Ev) (fin : LoopFin) : RunRes
  | err (tr : List Ev) (e : Err) : RunRes
  | fuelOut (tr : List Ev) (fin : LoopFin) : RunRes

/-- Trace of a run result. -/
def RunRes.trace : RunRes → List Ev
  | .ok tr _ => tr
  | .err tr _ => tr
  | .fuelOut tr _ => tr

/-- Final state of a run that was not cut short by an exception. -/
def RunRes.final? : RunRes → Option LoopFin
  | .ok _ fin => some fin
  | .err _ _ => none
  | .fuelOut _ fin => some fin

/-- Prepends already-produced events to the trace of a result. -/
def RunRes.prepend (l : List Ev) : RunRes → RunRes
  | .ok tr fin => .ok (l ++ tr) fin
  | .err tr e => .err (l ++ tr) e
  | .fuelOut tr fin => .fuelOut (l ++ tr) fin

/-- The initial assignment round of `serial_pipeline_plr`:
`seeds = [int(level_sampler.sample('sequential')) for _ in range(collector_env_num)]`,
`n` calls remaining, `j` the index of the next call.  Returns the events,
the sampled level identifiers in call order, and the new sampler state; on
pool exhaustion the `ExhaustedPoolError` propagates. -/
def seqRound : Nat → Nat → LevelSampler → Except (List Ev × Err) (List Ev × List Int × LevelSampler)
  | 0, _, samp => .ok ([], [], samp)
  | Nat.succ n, j, samp =>
    match samp.sequentialSample with
    | none => .error ([.seqSample j], .exhaustedPool)
    | some (lvl, samp1) =>
      match seqRound n (j + 1) samp1 with
      | .error (tr, e) => .error (Ev.seqSample j :: tr, e)
      | .ok (tr, lvls, samp2) => .ok (Ev.seqSample j :: tr, lvl :: lvls, samp2)

/-- The per-cycle reseeding of `serial_pipeline_plr`:
`seeds = [int(level_sampler.sample()) for _ in range(collector_env_num)]`
at cycle `k`, with `n` calls remaining and `i` the index of the next call.
Each weighted `sample()` may raise (oracle `sampleRes`); its random draw is
resolved by `pick` to a pool position. -/
def weightedRound (cb : Collab) (k : Nat) :
    Nat → Nat → LevelSampler → Except (List Ev × Err) (List Ev × List Int × LevelSampler)
  | 0, _, samp => .ok ([], [], samp)
  | Nat.succ n, i, samp =>
    match cb.sampleRes k i with
    | .error e => .error ([.weightedSample k i], e)
    | .ok _ =>
      let idx := cb.pick k i % samp.pool.length
      let lvl := samp.pool.getD idx 0
      match weightedRound cb k n (i + 1) (samp.sampleAt idx) with
      | .error (tr, e) => .error (Ev.weightedSample k i :: tr, e)
      | .ok (tr, lvls, samp2) => .ok (Ev.weightedSample k i :: tr, lvl :: lvls, samp2)

/-- Body of one loop cycle after the evaluation phase, mirroring lines
109-122 of `serial_entry_plr.py`: collect, train, `update_with_rollouts`,
reseed (weighted samples then `collector_env.seed`/`reset`), then the stop
check `collector.envstep >= max_env_step or learner.train_iter >= max_train_iter`;
`cont` is the continuation running the next cycle. -/
def cyclePost (cfg : Cfg) (cb : Collab) (samp : LevelSampler) (ti es : Nat)
    (seeds : List Int) (k : Nat)
    (cont : LevelSampler → Nat → Nat → List Int → RunRes) : RunRes :=
  match cb.collectRes k with
  | .error e => .err [.collectCall k seeds] e
  | .ok dEs =>
    let es1 := es + dEs
    match cb.trainRes k with
    | .error e => .err [.collectCall k seeds, .trainCall k] e
    | .ok dTi =>
      let ti1 := ti + dTi
      match cb.updateRes k with
      | .error e => .err [.collectCall k seeds, .trainCall k, .updateCall k] e
      | .ok _ =>
        let samp1 := samp.updateWithRollouts seeds (cb.potentials k)
        match weightedRound cb k cfg.workerCount 0 samp1 with
        | .error (tr, e) =>
          .err ([.collectCall k seeds, .trainCall k, .updateCall k] ++ tr) e
        | .ok (tr, lvls, samp2) =>
          let samp3 := samp2.endRound lvls
          let pre := [Ev.collectCall k seeds, Ev.trainCall k, Ev.updateCall k] ++ tr ++
            [Ev.reseedAssign k lvls]
          if cfg.maxEnvStep ≤ es1 ∨ cfg.maxTrainIter ≤ ti1 then
            .ok (pre ++ [.afterRun]) ⟨samp3, ti1, es1, lvls⟩
          else
            (cont samp3 ti1 es1 lvls).prepend pre

/-- The `while True` loop of `serial_pipeline_plr` (lines 102-122), indexed
by remaining fuel and the current cycle index `k`.  Each cycle opens with
`commander.step()`, runs the evaluator when its cadence predicate fires on
the current `train_iter` (breaking, then running `after_run`, when it
signals stop), and otherwise continues with `cyclePost`. -/
def loop (cfg : Cfg) (cb : Collab) :
    Nat → LevelSampler → Nat → Nat → List Int → Nat → RunRes
  | 0, samp, ti, es, seeds, _ => .fuelOut [] ⟨samp, ti, es, seeds⟩
  | Nat.succ fuel, samp, ti, es, seeds, k =>
    if cb.shouldEval ti then
      match cb.evalRes k with
      | .error e => .err [.commanderStep k, .evalCall k] e
      | .ok true => .ok [.commanderStep k, .evalCall k, .afterRun] ⟨samp, ti, es, seeds⟩
      | .ok false =>
        (cyclePost cfg cb samp ti es seeds k fun s t e sd =>
          loop cfg cb fuel s t e sd (k + 1)).prepend [.commanderStep k, .evalCall k]
    else
      (cyclePost cfg cb samp ti es seeds k fun s t e sd =>
        loop cfg cb fuel s t e sd (k + 1)).prepend [.commanderStep k]

/-- The `serial_pipeline_plr` entry (main-loop part): `before_run` hook,
level pool construction via `generate_seeds()` with no arguments, the
initial sequential assignment round with `collector_env.seed`/`reset`, then
the orchestration loop starting with both counters at 0. -/
def serial_pipeline_plr (cfg : Cfg) (cb : Collab) (fuel : Nat) : RunRes :=
  let samp0 := LevelSampler.init generate_seeds
  match seqRound cfg.workerCount 0 samp0 with
  | .error (tr, e) => .err (Ev.beforeRun :: tr) e
  | .ok (tr, seeds, samp1) =>
    let samp2 := samp1.endRound seeds
    (loop cfg cb fuel samp2 0 0 seeds 0).prepend
      (Ev.beforeRun :: tr ++ [Ev.initAssign seeds])

/-- Events a loop started at cycle `k` can emit: the final `after_run` hook
or a cycle event of some cycle at least `k`. -/
def Ev.isLoopEv (k : Nat) (e : Ev) : Prop :=
  e = .afterRun ∨ ∃ j, k ≤ j ∧ e.cycle? = some j

/-- Level identifiers handed out by the initial sequential round: the first
`w` pool entries in order, which for the pipeline pool are `0, ..., w - 1`. -/
def seqSeeds (w : Nat) : List Int :=
  (List.range' 0 w).map fun (i : Nat) => (i : Int)

/-- Level identifiers handed out by the weighted reseeding round of cycle
`k`: the pool entry drawn by each of the `w` weighted sample calls in call
order, with the randomness resolved by `pick`. -/
def pickSeeds (cb : Collab) (k w : Nat) : List Int :=
  (List.range' 0 w).map fun (i : Nat) =>
    (generate_seeds).getD (cb.pick k i % (generate_seeds).length) 0

/-- Error that the collaborator call recorded by an event would raise, if
any: the oracle-injected error of that call, or `ExhaustedPoolError` for a
sequential sample past the 500-entry pool. -/
def callErr (cb : Collab) : Ev → Option Err
  | .evalCall k => match cb.evalRes k with | .error e => some e | .ok _ => none
  | .collectCall k _ => match cb.collectRes k with | .error e => some e | .ok _ => none
  | .trainCall k => match cb.trainRes k with | .error e => some e | .ok _ => none
  | .updateCall k => match cb.updateRes k with | .error e => some e | .ok _ => none
  | .weightedSample k i => match cb.sampleRes k i with | .error e => some e | .ok _ => none
  | .seqSample j => if 500 ≤ j then some .exhaustedPool else none
  | _ => none

/-- Event `a` occurs in the trace strictly before event `b` (positions of
first occurrences; the traces we use list every event at most once). -/
def happensBefore (tr : List Ev) (a b : Ev) : Prop :=
  a ∈ tr ∧ b ∈ tr ∧ tr.indexOf a < tr.indexOf b

/-- The collaborator oracle raises no error on any call. -/
def Collab.NoErrors (cb : Collab) : Prop :=
  (∀ k, ∃ b, cb.evalRes k = .ok b) ∧ (∀ k, ∃ d, cb.collectRes k = .ok d) ∧
  (∀ k, ∃ d, cb.trainRes k = .ok d) ∧ (∀ k, cb.updateRes k = .ok ()) ∧
  (∀ k i, cb.sampleRes k i = .ok ())

/-- The evaluator never signals the stop condition. -/
def Collab.NeverStops (cb : Collab) : Prop := ∀ k, cb.evalRes k = .ok false

/-- Sampler state at the moment the first weighted `sample()` call of a run
is issued (the reseeding of cycle 0): the state left by the initial
sequential round and its end-of-round staleness bump, after cycle 0's
`update_with_rollouts`; `none` when the initial round itself fails. -/
def stateAtFirstWeighted (cfg : Cfg) (cb : Collab) : Option LevelSampler :=
  match seqRound cfg.workerCount 0 (LevelSampler.init generate_seeds) with
  | .error _ => none
  | .ok (_, seeds, samp1) =>
    some ((samp1.endRound seeds).updateWithRollouts seeds (cb.potentials 0))

/-- A benign concrete collaborator oracle used to exhibit concrete runs:
evaluation always fires and never stops, every call succeeds, each collect
and train call advances its counter by 1, and every weighted draw picks
pool position 0. -/
def cbStub : Collab :=
  { shouldEval := fun _ => true
    evalRes := fun _ => .ok false
    collectRes := fun _ => .ok 1
    trainRes := fun _ => .ok 1
    updateRes := fun _ => .ok ()
    sampleRes := fun _ _ => .ok ()
    pick := fun _ _ => 0
    potentials := fun _ => [] }

/-- A concrete collaborator oracle whose evaluator always signals stop. -/
def cbStop : Collab :=
  { cbStub with evalRes := fun _ => .ok true }

/-- A concrete collaborator oracle whose collect call crashes in cycle 0. -/
def cbErr : Collab :=
  { cbStub with collectRes := fun _ => .error .collabCrash }

/-- from `r2d2_gtrxl.py` line 308-309: `torch.max(torch.stack(td_error), dim=0)[0]`
for one batch column, the maximum over the timestep dimension (the stacked
list is nonempty in any run reaching this line). -/
def stackMax : List ℚ → ℚ
  | [] => 0
  | a :: rest => rest.foldl max a

/-- from `r2d2_gtrxl.py` lines 308-310, for one sequence of the batch:
`0.9 * torch.max(torch.stack(td_error), dim=0)[0] + (1 - 0.9) * (torch.sum(torch.stack(td_error), dim=0) / (len(td_error) + 1e-8))`,
with the tensor arithmetic read as exact rational arithmetic; the input
list holds the per-timestep entries `e.abs()` appended at line 304. -/
def td_error_per_sample (td_error : List ℚ) : ℚ :=
  9 / 10 * stackMax td_error +
    (1 - 9 / 10) * (td_error.sum / ((td_error.length : ℚ) + 1 / 100000000))

/-- Per-sequence priority reported by `_forward_learn`
(`'priority': td_error_per_sample.abs().tolist()`, line 329) as a function
of the raw n-step TD-errors of the sequence's timesteps. -/
def priorityOfSeq (e : List ℚ) : ℚ :=
  |td_error_per_sample (e.map (fun x => |x|))|

/-- The score statistic as claim C8 words it: 0.9 times the maximum plus
0.1 times the mean of the absolute n-step TD-errors over timesteps. -/
def specPriority (e : List ℚ) : ℚ :=
  9 / 10 * stackMax (e.map (fun x => |x|)) +
    1 / 10 * ((e.map (fun x => |x|)).sum / (e.length : ℚ))

/-- Discriminator for a normal (policy-returning) run result. -/
def RunRes.isOk : RunRes → Bool
  | .ok _ _ => true
  | _ => false

/-! ### Basic projections and preservation lemmas -/

@[simp] theorem RunRes.trace_ok (tr : List Ev) (f : LoopFin) : (RunRes.ok tr f).trace = tr := rfl

@[simp] theorem RunRes.trace_err (tr : List Ev) (e : Err) : (RunRes.err tr e).trace = tr := rfl

@[simp] theorem RunRes.trace_fuelOut (tr : List Ev) (f : LoopFin) :
    (RunRes.fuelOut tr f).trace = tr := rfl

@[simp] theorem RunRes.trace_prepend (l : List Ev) (r : RunRes) :
    (r.prepend l).trace = l ++ r.trace := by
  cases r <;> rfl

@[simp] theorem LevelSampler.sampleAt_pool (s : LevelSampler) (idx : Nat) :
    (s.sampleAt idx).pool = s.pool := rfl

@[simp] theorem LevelSampler.sampleAt_score (s : LevelSampler) (idx : Nat) :
    (s.sampleAt idx).score = s.score := rfl

@[simp] theorem LevelSampler.endRound_pool (s : LevelSampler) (l : List Int) :
    (s.endRound l).pool = s.pool := rfl

@[simp] theorem LevelSampler.endRound_visit (s : LevelSampler) (l : List Int) :
    (s.endRound l).visit_count = s.visit_count := rfl

@[simp] theorem LevelSampler.endRound_score (s : LevelSampler) (l : List Int) :
    (s.endRound l).score = s.score := rfl

@[simp] theorem LevelSampler.updateWithRollouts_pool (s : LevelSampler) (a : List Int)
    (p : List ℚ) : (s.updateWithRollouts a p).pool = s.pool := by
  unfold LevelSampler.updateWithRollouts
  generalize a.zip p = l
  induction l generalizing s with
  | nil => rfl
  | cons hd tl ih => rw [List.foldl_cons, ih]

@[simp] theorem LevelSampler.updateWithRollouts_visit (s : LevelSampler) (a : List Int)
    (p : List ℚ) : (s.updateWithRollouts a p).visit_count = s.visit_count := by
  unfold LevelSampler.updateWithRollouts
  generalize a.zip p = l
  induction l generalizing s with
  | nil => rfl
  | cons hd tl ih => rw [List.foldl_cons, ih]

/-! ### Shape of the two sampling rounds -/

/-- A successful weighted reseeding round emits exactly one `weightedSample`
event per worker in call order, returns the level at pool position
`pick k j % pool.length` for the j-th call, and leaves the pool unchanged. -/
theorem weightedRound_ok_shape (cb : Collab) (k : Nat) :
    ∀ n i samp tr lvls samp2, weightedRound cb k n i samp = .ok (tr, lvls, samp2) →
      tr = (List.range' i n).map (Ev.weightedSample k) ∧
      lvls = (List.range' i n).map (fun j => samp.pool.getD (cb.pick k j % samp.pool.length) 0) ∧
      samp2.pool = samp.pool := by
  intro n
  induction n with
  | zero =>
    intro i samp tr lvls samp2 h
    simp only [weightedRound, Except.ok.injEq, Prod.mk.injEq] at h
    obtain ⟨h1, h2, h3⟩ := h
    subst h1 h2 h3
    simp
  | succ n ih =>
    intro i samp tr lvls samp2 h
    cases hs : cb.sampleRes k i with
    | error e => simp only [weightedRound, hs] at h; exact Except.noConfusion h
    | ok u =>
      simp only [weightedRound, hs] at h
      cases hr : weightedRound cb k n (i + 1)
          (samp.sampleAt (cb.pick k i % samp.pool.length)) with
      | error p => obtain ⟨tr1, e1⟩ := p; rw [hr] at h; exact Except.noConfusion h
      | ok q =>
        obtain ⟨tr1, lvls1, samp3⟩ := q
        rw [hr] at h
        simp only [Except.ok.injEq, Prod.mk.injEq] at h
        obtain ⟨htr, hlvls, hsamp⟩ := h
        obtain ⟨h1, h2, h3⟩ := ih (i + 1) _ _ _ _ hr
        subst htr hlvls hsamp
        refine ⟨?_, ?_, ?_⟩
        · rw [List.range'_succ, List.map_cons, h1]
        · rw [List.range'_succ, List.map_cons, h2]
          simp [LevelSampler.sampleAt]
        · rw [h3]
          rfl

/-- A failing weighted reseeding round fails at some call `i + m`, emits
exactly the events of the calls attempted so far, and propagates the very
error that call returned. -/
theorem weightedRound_err_shape (cb : Collab) (k : Nat) :
    ∀ n i samp tr e, weightedRound cb k n i samp = .error (tr, e) →
      ∃ m, m < n ∧ tr = (List.range' i (m + 1)).map (Ev.weightedSample k) ∧
        cb.sampleRes k (i + m) = .error e := by
  intro n
  induction n with
  | zero =>
    intro i samp tr e h
    simp only [weightedRound] at h
    exact Except.noConfusion h
  | succ n ih =>
    intro i samp tr e h
    cases hs : cb.sampleRes k i with
    | error e1 =>
      simp only [weightedRound, hs, Except.error.injEq, Prod.mk.injEq] at h
      obtain ⟨htr, he⟩ := h
      subst htr he
      exact ⟨0, Nat.succ_pos n, rfl, hs⟩
    | ok u =>
      simp only [weightedRound, hs] at h
      cases hr : weightedRound cb k n (i + 1)
          (samp.sampleAt (cb.pick k i % samp.pool.length)) with
      | error p =>
        obtain ⟨tr1, e1⟩ := p
        rw [hr] at h
        simp only [Except.error.injEq, Prod.mk.injEq] at h
        obtain ⟨htr, he⟩ := h
        subst htr he
        obtain ⟨m, hm, h1, h2⟩ := ih (i + 1) _ _ _ hr
        refine ⟨m + 1, by omega, ?_, ?_⟩
        · subst h1
          simp [List.range'_succ]
        · rw [← h2]
          congr 1
          omega
      | ok q => obtain ⟨a, b, c⟩ := q; rw [hr] at h; exact Except.noConfusion h

/-- A successful sequential round emits exactly one `seqSample` event per
worker in call order and leaves the pool unchanged. -/
theorem seqRound_ok_shape :
    ∀ n j samp tr lvls samp2, seqRound n j samp = .ok (tr, lvls, samp2) →
      tr = (List.range' j n).map Ev.seqSample ∧ lvls.length = n ∧
      samp2.pool = samp.pool := by
  intro n
  induction n with
  | zero =>
    intro j samp tr lvls samp2 h
    simp only [seqRound, Except.ok.injEq, Prod.mk.injEq] at h
    obtain ⟨h1, h2, h3⟩ := h
    subst h1 h2 h3
    simp
  | succ n ih =>
    intro j samp tr lvls samp2 h
    cases hs : samp.sequentialSample with
    | none => simp only [seqRound, hs] at h; exact Except.noConfusion h
    | some p =>
      obtain ⟨lvl, samp1⟩ := p
      simp only [seqRound, hs] at h
      cases hr : seqRound n (j + 1) samp1 with
      | error q => obtain ⟨tr1, e1⟩ := q; rw [hr] at h; exact Except.noConfusion h
      | ok q =>
        obtain ⟨tr1, lvls1, samp3⟩ := q
        rw [hr] at h
        simp only [Except.ok.injEq, Prod.mk.injEq] at h
        obtain ⟨htr, hlvls, hsamp⟩ := h
        obtain ⟨h1, h2, h3⟩ := ih (j + 1) _ _ _ _ hr
        subst htr hlvls hsamp
        refine ⟨?_, ?_, ?_⟩
        · rw [List.range'_succ, List.map_cons, h1]
        · simp [h2]
        · rw [h3]
          unfold LevelSampler.sequentialSample at hs
          cases hf : samp.visit_count.findIdx? (fun c => c == 0) with
          | none => rw [hf] at hs; exact Option.noConfusion hs
          | some idx =>
            rw [hf] at hs
            simp only [Option.some.injEq, Prod.mk.injEq] at hs
            obtain ⟨hl, hsmp⟩ := hs
            rw [← hsmp]
            rfl

/-- A failing sequential round fails with `ExhaustedPoolError` at some call
`j + m`, after emitting the events of the calls attempted so far. -/
theorem seqRound_err_shape :
    ∀ n j samp tr e, seqRound n j samp = .error (tr, e) →
      ∃ m, m < n ∧ tr = (List.range' j (m + 1)).map Ev.seqSample ∧ e = .exhaustedPool := by
  intro n
  induction n with
  | zero =>
    intro j samp tr e h
    simp only [seqRound] at h
    exact Except.noConfusion h
  | succ n ih =>
    intro j samp tr e h
    cases hs : samp.sequentialSample with
    | none =>
      simp only [seqRound, hs, Except.error.injEq, Prod.mk.injEq] at h
      obtain ⟨htr, he⟩ := h
      subst htr he
      exact ⟨0, Nat.succ_pos n, rfl, rfl⟩
    | some p =>
      obtain ⟨lvl, samp1⟩ := p
      simp only [seqRound, hs] at h
      cases hr : seqRound n (j + 1) samp1 with
      | error q =>
        obtain ⟨tr1, e1⟩ := q
        rw [hr] at h
        simp only [Except.error.injEq, Prod.mk.injEq] at h
        obtain ⟨htr, he⟩ := h
        subst htr he
        obtain ⟨m, hm, h1, h2⟩ := ih (j + 1) _ _ _ hr
        refine ⟨m + 1, by omega, ?_, h2⟩
        subst h1
        simp [List.range'_succ]
      | ok q => obtain ⟨a, b, c⟩ := q; rw [hr] at h; exact Except.noConfusion h

/-! ### Cold-start behaviour of sequential sampling -/

/-- In a visit-count list of the shape visited-prefix then unvisited-rest,
the next never-visited index is exactly the prefix length. -/
theorem findIdx?_prefix_visited (a b : Nat) :
    (List.replicate a 1 ++ List.replicate (b + 1) 0).findIdx? (fun c => c == 0) = some a := by
  induction a with
  | zero => simp [List.replicate_succ]
  | succ a ih =>
    rw [List.replicate_succ, List.cons_append, List.findIdx?_cons]
    simp [List.findIdx?_start_succ, ih]

/-- When every level has been visited there is no never-visited index. -/
theorem findIdx?_all_visited (a : Nat) :
    (List.replicate a (1 : Nat)).findIdx? (fun c => c == 0) = none := by
  induction a with
  | zero => simp
  | succ a ih =>
    rw [List.replicate_succ, List.findIdx?_cons]
    simp [List.findIdx?_start_succ, ih]

/-- A successful sequential round started with `a` visited levels followed
by `b ≥ n` unvisited ones visits the next `n` levels in pool order: it
returns the pool entries at positions `a, ..., a + n - 1` and marks exactly
those visited. -/
theorem seqRound_from_visited :
    ∀ n a b j (s : LevelSampler),
      s.visit_count = List.replicate a 1 ++ List.replicate b 0 → n ≤ b →
      ∃ tr s2, seqRound n j s =
          .ok (tr, (List.range' a n).map (fun idx => s.pool.getD idx 0), s2) ∧
        s2.visit_count = List.replicate (a + n) 1 ++ List.replicate (b - n) 0 ∧
        s2.pool = s.pool := by
  intro n
  induction n with
  | zero =>
    intro a b j s hv _
    exact ⟨[], s, by simp [seqRound], by simpa using hv, rfl⟩
  | succ n ih =>
    intro a b j s hv hn
    obtain ⟨b1, rfl⟩ : ∃ b1, b = b1 + 1 := ⟨b - 1, by omega⟩
    have hfind : s.visit_count.findIdx? (fun c => c == 0) = some a := by
      rw [hv]; exact findIdx?_prefix_visited a b1
    have hseq : s.sequentialSample = some (s.pool.getD a 0, s.sampleAt a) := by
      unfold LevelSampler.sequentialSample
      rw [hfind]
    have hgetD : s.visit_count.getD a 0 = 0 := by
      rw [hv]
      simp [List.getElem?_append_right (by simp : (List.replicate a (1:Nat)).length ≤ a)]
    have hvisit1 : (s.sampleAt a).visit_count =
        List.replicate (a + 1) 1 ++ List.replicate b1 0 := by
      show s.visit_count.set a (s.visit_count.getD a 0 + 1) =
        List.replicate (a + 1) 1 ++ List.replicate b1 0
      rw [hgetD, hv]
      rw [List.set_append_right _ _ (by simp), List.length_replicate, Nat.sub_self,
        List.replicate_succ, List.set_cons_zero, List.replicate_succ']
      simp [List.append_assoc]
    obtain ⟨tr1, s2, h1, h2, h3⟩ := ih (a + 1) b1 (j + 1) (s.sampleAt a) hvisit1 (by omega)
    refine ⟨Ev.seqSample j :: tr1, s2, ?_, ?_, ?_⟩
    · simp only [seqRound, hseq, h1]
      rw [List.range'_succ, List.map_cons]
      rfl
    · rw [h2]
      have e1 : a + 1 + n = a + (n + 1) := by omega
      have e2 : b1 - n = b1 + 1 - (n + 1) := by omega
      rw [e1, e2]
    · rw [h3]; rfl

/-- Once every level is visited, any further sequential call fails at once
with `ExhaustedPoolError`. -/
theorem seqRound_exhausted (n j a : Nat) (s : LevelSampler)
    (hv : s.visit_count = List.replicate a 1) (hn : 1 ≤ n) :
    seqRound n j s = .error ([.seqSample j], .exhaustedPool) := by
  obtain ⟨n1, rfl⟩ : ∃ n1, n = n1 + 1 := ⟨n - 1, by omega⟩
  have hseq : s.sequentialSample = none := by
    unfold LevelSampler.sequentialSample
    rw [hv, findIdx?_all_visited]
  simp [seqRound, hseq]

/-- A sequential round of `n1 + n2` calls whose first `n1` calls succeed
and whose remaining calls fail propagates the failure, keeping the events
of all calls made. -/
theorem seqRound_split_err (n2 : Nat) :
    ∀ n1 j s tr lvls s2 tr2 e, seqRound n1 j s = .ok (tr, lvls, s2) →
      seqRound n2 (j + n1) s2 = .error (tr2, e) →
      seqRound (n1 + n2) j s = .error (tr ++ tr2, e) := by
  intro n1
  induction n1 with
  | zero =>
    intro j s tr lvls s2 tr2 e h1 h2
    simp only [seqRound, Except.ok.injEq, Prod.mk.injEq] at h1
    obtain ⟨rfl, _, rfl⟩ := h1
    simpa using h2
  | succ n1 ih =>
    intro j s tr lvls s2 tr2 e h1 h2
    cases hs : s.sequentialSample with
    | none => simp only [seqRound, hs] at h1; exact Except.noConfusion h1
    | some p =>
      obtain ⟨lvl, s1⟩ := p
      simp only [seqRound, hs] at h1
      cases hr : seqRound n1 (j + 1) s1 with
      | error q => obtain ⟨a, b⟩ := q; rw [hr] at h1; exact Except.noConfusion h1
      | ok q =>
        obtain ⟨tr1, lvls1, s3⟩ := q
        rw [hr] at h1
        simp only [Except.ok.injEq, Prod.mk.injEq] at h1
        obtain ⟨rfl, rfl, hss⟩ := h1
        have h2a : seqRound n2 (j + 1 + n1) s3 = .error (tr2, e) := by
          rw [show j + 1 + n1 = j + (n1 + 1) from by omega, hss]
          exact h2
        have hrec := ih (j + 1) s1 tr1 lvls1 s3 tr2 e hr h2a
        have harith : n1 + 1 + n2 = (n1 + n2) + 1 := by omega
        rw [harith]
        simp only [seqRound, hs, hrec, List.cons_append]

/-! ### Classification of loop-trace events -/

theorem Ev.isLoopEv_mono {k k1 : Nat} {e : Ev} (hk : k ≤ k1) (h : e.isLoopEv k1) :
    e.isLoopEv k := by
  rcases h with h | ⟨j, hj, hcy⟩
  · exact Or.inl h
  · exact Or.inr ⟨j, Nat.le_trans hk hj, hcy⟩

/-- Every event emitted by `cyclePost` at cycle `k` is an `after_run` or a
cycle event of cycle at least `k`, provided the continuation only emits
such events for cycle `k + 1`. -/
theorem cyclePost_events (cfg : Cfg) (cb : Collab) (samp : LevelSampler) (ti es : Nat)
    (seeds : List Int) (k : Nat) (cont : LevelSampler → Nat → Nat → List Int → RunRes)
    (hcont : ∀ s t e1 sd, ∀ x ∈ (cont s t e1 sd).trace, x.isLoopEv (k + 1)) :
    ∀ x ∈ (cyclePost cfg cb samp ti es seeds k cont).trace, x.isLoopEv k := by
  intro x hx
  simp only [cyclePost] at hx
  cases hc : cb.collectRes k with
  | error e =>
    rw [hc] at hx
    simp only [RunRes.trace_err, List.mem_cons, List.not_mem_nil, or_false] at hx
    exact Or.inr ⟨k, Nat.le_refl k, by rw [hx]; rfl⟩
  | ok dEs =>
    rw [hc] at hx
    cases ht : cb.trainRes k with
    | error e =>
      rw [ht] at hx
      simp only [RunRes.trace_err, List.mem_cons, List.not_mem_nil, or_false] at hx
      rcases hx with rfl | rfl
      · exact Or.inr ⟨k, Nat.le_refl k, rfl⟩
      · exact Or.inr ⟨k, Nat.le_refl k, rfl⟩
    | ok dTi =>
      rw [ht] at hx
      cases hu : cb.updateRes k with
      | error e =>
        rw [hu] at hx
        simp only [RunRes.trace_err, List.mem_cons, List.not_mem_nil, or_false] at hx
        rcases hx with rfl | rfl | rfl <;> exact Or.inr ⟨k, Nat.le_refl k, rfl⟩
      | ok u =>
        rw [hu] at hx
        cases hw : weightedRound cb k cfg.workerCount 0
            (samp.updateWithRollouts seeds (cb.potentials k)) with
        | error p =>
          obtain ⟨tr1, e1⟩ := p
          rw [hw] at hx
          simp only [RunRes.trace_err, List.mem_append, List.mem_cons,
            List.not_mem_nil, or_false] at hx
          rcases hx with (rfl | rfl | rfl) | hx
          · exact Or.inr ⟨k, Nat.le_refl k, rfl⟩
          · exact Or.inr ⟨k, Nat.le_refl k, rfl⟩
          · exact Or.inr ⟨k, Nat.le_refl k, rfl⟩
          · obtain ⟨m, _, htr, _⟩ := weightedRound_err_shape cb k _ _ _ _ _ hw
            subst htr
            obtain ⟨j, _, rfl⟩ := List.mem_map.1 hx
            exact Or.inr ⟨k, Nat.le_refl k, rfl⟩
        | ok q =>
          obtain ⟨tr1, lvls, samp2⟩ := q
          obtain ⟨htr, _, _⟩ := weightedRound_ok_shape cb k _ _ _ _ _ _ hw
          subst htr
          by_cases hstop : cfg.maxEnvStep ≤ es + dEs ∨ cfg.maxTrainIter ≤ ti + dTi
          · simp only [hw, if_pos hstop, RunRes.trace_ok, List.append_assoc, List.mem_append,
              List.mem_cons, List.not_mem_nil, or_false] at hx
            rcases hx with (rfl | rfl | rfl) | hx | rfl | rfl
            · exact Or.inr ⟨k, Nat.le_refl k, rfl⟩
            · exact Or.inr ⟨k, Nat.le_refl k, rfl⟩
            · exact Or.inr ⟨k, Nat.le_refl k, rfl⟩
            · obtain ⟨j, _, rfl⟩ := List.mem_map.1 hx
              exact Or.inr ⟨k, Nat.le_refl k, rfl⟩
            · exact Or.inr ⟨k, Nat.le_refl k, rfl⟩
            · exact Or.inl rfl
          · simp only [hw, if_neg hstop, RunRes.trace_prepend, List.append_assoc,
              List.mem_append, List.mem_cons, List.not_mem_nil, or_false] at hx
            rcases hx with (rfl | rfl | rfl) | hx | rfl | hx
            · exact Or.inr ⟨k, Nat.le_refl k, rfl⟩
            · exact Or.inr ⟨k, Nat.le_refl k, rfl⟩
            · exact Or.inr ⟨k, Nat.le_refl k, rfl⟩
            · obtain ⟨j, _, rfl⟩ := List.mem_map.1 hx
              exact Or.inr ⟨k, Nat.le_refl k, rfl⟩
            · exact Or.inr ⟨k, Nat.le_refl k, rfl⟩
            · exact Ev.isLoopEv_mono (Nat.le_succ k) (hcont _ _ _ _ x hx)

/-- Every event emitted by the loop started at cycle `k` is the final
`after_run` or a cycle event of cycle at least `k`. -/
theorem loop_events (cfg : Cfg) (cb : Collab) :
    ∀ fuel samp ti es seeds k, ∀ x ∈ (loop cfg cb fuel samp ti es seeds k).trace,
      x.isLoopEv k := by
  intro fuel
  induction fuel with
  | zero => intro samp ti es seeds k x hx; simp [loop] at hx
  | succ fuel ih =>
    intro samp ti es seeds k x hx
    simp only [loop] at hx
    by_cases he : cb.shouldEval ti
    · simp only [if_pos he] at hx
      cases hev : cb.evalRes k with
      | error e =>
        simp only [hev, RunRes.trace_err, List.mem_cons, List.not_mem_nil, or_false] at hx
        rcases hx with rfl | rfl <;> exact Or.inr ⟨k, Nat.le_refl k, rfl⟩
      | ok b =>
        cases b with
        | true =>
          simp only [hev, RunRes.trace_ok, List.mem_cons, List.not_mem_nil, or_false] at hx
          rcases hx with rfl | rfl | rfl
          · exact Or.inr ⟨k, Nat.le_refl k, rfl⟩
          · exact Or.inr ⟨k, Nat.le_refl k, rfl⟩
          · exact Or.inl rfl
        | false =>
          simp only [hev, RunRes.trace_prepend, List.mem_append, List.mem_cons,
            List.not_mem_nil, or_false] at hx
          rcases hx with (rfl | rfl) | hx
          · exact Or.inr ⟨k, Nat.le_refl k, rfl⟩
          · exact Or.inr ⟨k, Nat.le_refl k, rfl⟩
          · exact cyclePost_events cfg cb samp ti es seeds k _
              (fun s t e1 sd => ih s t e1 sd (k + 1)) x hx
    · simp only [if_neg he, RunRes.trace_prepend, List.mem_append, List.mem_cons,
        List.not_mem_nil, or_false] at hx
      rcases hx with rfl | hx
      · exact Or.inr ⟨k, Nat.le_refl k, rfl⟩
      · exact cyclePost_events cfg cb samp ti es seeds k _
          (fun s t e1 sd => ih s t e1 sd (k + 1)) x hx

/-- Basic facts about the level pool generator. -/
theorem generate_seeds_getD (n : Nat) (b : Int) (i : Nat) (h : i < n) :
    (generate_seeds n b).getD i 0 = b + i := by
  unfold generate_seeds
  rw [List.getD_eq_getElem?_getD, List.getElem?_map, List.getElem?_range h]
  rfl

theorem generate_seeds_length (n : Nat) (b : Int) : (generate_seeds n b).length = n := by
  unfold generate_seeds
  rw [List.length_map, List.length_range]

/-- The initial sequential round of the pipeline succeeds whenever
`workerCount ≤ 500` and assigns the first `workerCount` pool levels
`0, ..., workerCount - 1` in order, leaving a sampler whose visit counts
mark exactly those levels. -/
theorem pipeline_seqRound (w : Nat) (hw : w ≤ 500) :
    ∃ s2, seqRound w 0 (LevelSampler.init generate_seeds) =
        .ok ((List.range' 0 w).map Ev.seqSample, seqSeeds w, s2) ∧
      s2.visit_count = List.replicate w 1 ++ List.replicate (500 - w) 0 ∧
      s2.pool = generate_seeds := by
  have hvc : (LevelSampler.init generate_seeds).visit_count =
      List.replicate 0 1 ++ List.replicate 500 0 := by
    show List.replicate (generate_seeds).length 0 = _
    rw [generate_seeds_length]
    rfl
  obtain ⟨tr, s2, h1, h2, h3⟩ := seqRound_from_visited w 0 500 0 _ hvc hw
  obtain ⟨htr, _, _⟩ := seqRound_ok_shape _ _ _ _ _ _ h1
  refine ⟨s2, ?_, by simpa using h2, h3⟩
  rw [htr] at h1
  have hseeds : (List.range' 0 w).map
      (fun idx => (LevelSampler.init generate_seeds).pool.getD idx 0) = seqSeeds w := by
    unfold seqSeeds
    apply List.map_congr_left
    intro a ha
    have halt : a < w := by
      have := List.mem_range'_1.1 ha
      omega
    show (generate_seeds).getD a 0 = (a : Int)
    rw [generate_seeds_getD 500 0 a (by omega)]
    simp
  rw [hseeds] at h1
  exact h1

/-- Decomposition of a pipeline run with `workerCount ≤ 500`: the fixed
initialization prefix followed by the loop started at cycle 0 on the
assignment `0, ..., workerCount - 1`, with a sampler whose pool is the
`generate_seeds()` pool and whose visit counts mark the first
`workerCount` levels. -/
theorem pipeline_decomp (cfg : Cfg) (cb : Collab) (fuel : Nat)
    (hw : cfg.workerCount ≤ 500) :
    ∃ sampI, serial_pipeline_plr cfg cb fuel =
        (loop cfg cb fuel sampI 0 0 (seqSeeds cfg.workerCount) 0).prepend
          (Ev.beforeRun :: (List.range' 0 cfg.workerCount).map Ev.seqSample ++
            [Ev.initAssign (seqSeeds cfg.workerCount)]) ∧
      sampI.pool = generate_seeds ∧
      sampI.visit_count =
        List.replicate cfg.workerCount 1 ++ List.replicate (500 - cfg.workerCount) 0 := by
  obtain ⟨s2, h1, h2, h3⟩ := pipeline_seqRound cfg.workerCount hw
  refine ⟨s2.endRound (seqSeeds cfg.workerCount), ?_, by simpa using h3, by simpa using h2⟩
  simp only [serial_pipeline_plr]
  rw [h1]

/-- A pipeline run with `workerCount > 500` dies in the initial sequential
round: the 501st sequential call hits the exhausted pool and the
`ExhaustedPoolError` propagates out of the pipeline. -/
theorem pipeline_exhausted (cfg : Cfg) (cb : Collab) (fuel : Nat)
    (hw : 500 < cfg.workerCount) :
    serial_pipeline_plr cfg cb fuel =
      .err (Ev.beforeRun :: (List.range' 0 501).map Ev.seqSample) .exhaustedPool := by
  obtain ⟨s2, h1, h2, h3⟩ := pipeline_seqRound 500 (Nat.le_refl 500)
  have hvfull : s2.visit_count = List.replicate 500 1 := by
    rw [h2, Nat.sub_self]
    simp
  have herr : seqRound (cfg.workerCount - 500) (0 + 500) s2 =
      .error ([.seqSample 500], .exhaustedPool) :=
    seqRound_exhausted _ _ 500 s2 hvfull (by omega)
  have hsplit := seqRound_split_err (cfg.workerCount - 500) 500 0
    (LevelSampler.init generate_seeds) _ _ _ _ _ h1 herr
  rw [show 500 + (cfg.workerCount - 500) = cfg.workerCount from by omega] at hsplit
  simp only [serial_pipeline_plr]
  rw [hsplit]
  congr 1

/-- Injectivity of the weighted-sample event in its call index. -/
theorem weightedSample_inj (k : Nat) : Function.Injective (Ev.weightedSample k) := by
  intro a b h
  injection h

theorem wsMap_nodup (k i n : Nat) :
    ((List.range' i n).map (Ev.weightedSample k)).Nodup :=
  List.Nodup.map (weightedSample_inj k) (List.nodup_range' i n)

/-- Complete case analysis of one `cyclePost` call: the five ways it can
abort or stop, and the continuation case, each with the exact trace. -/
theorem cyclePost_cases (cfg : Cfg) (cb : Collab) (samp : LevelSampler) (ti es : Nat)
    (seeds : List Int) (k : Nat) (cont : LevelSampler → Nat → Nat → List Int → RunRes) :
    (∃ e, cb.collectRes k = .error e ∧
      cyclePost cfg cb samp ti es seeds k cont = .err [.collectCall k seeds] e) ∨
    (∃ dEs e, cb.collectRes k = .ok dEs ∧ cb.trainRes k = .error e ∧
      cyclePost cfg cb samp ti es seeds k cont =
        .err [.collectCall k seeds, .trainCall k] e) ∨
    (∃ dEs dTi e, cb.collectRes k = .ok dEs ∧ cb.trainRes k = .ok dTi ∧
      cb.updateRes k = .error e ∧
      cyclePost cfg cb samp ti es seeds k cont =
        .err [.collectCall k seeds, .trainCall k, .updateCall k] e) ∨
    (∃ dEs dTi wsTr e, cb.collectRes k = .ok dEs ∧ cb.trainRes k = .ok dTi ∧
      cb.updateRes k = .ok () ∧
      weightedRound cb k cfg.workerCount 0
        (samp.updateWithRollouts seeds (cb.potentials k)) = .error (wsTr, e) ∧
      cyclePost cfg cb samp ti es seeds k cont =
        .err ([.collectCall k seeds, .trainCall k, .updateCall k] ++ wsTr) e) ∨
    (∃ dEs dTi wsTr lvls samp2, cb.collectRes k = .ok dEs ∧ cb.trainRes k = .ok dTi ∧
      cb.updateRes k = .ok () ∧
      weightedRound cb k cfg.workerCount 0
        (samp.updateWithRollouts seeds (cb.potentials k)) = .ok (wsTr, lvls, samp2) ∧
      (cfg.maxEnvStep ≤ es + dEs ∨ cfg.maxTrainIter ≤ ti + dTi) ∧
      cyclePost cfg cb samp ti es seeds k cont =
        .ok (([.collectCall k seeds, .trainCall k, .updateCall k] ++ wsTr ++
          [.reseedAssign k lvls]) ++ [.afterRun])
          ⟨samp2.endRound lvls, ti + dTi, es + dEs, lvls⟩) ∨
    (∃ dEs dTi wsTr lvls samp2, cb.collectRes k = .ok dEs ∧ cb.trainRes k = .ok dTi ∧
      cb.updateRes k = .ok () ∧
      weightedRound cb k cfg.workerCount 0
        (samp.updateWithRollouts seeds (cb.potentials k)) = .ok (wsTr, lvls, samp2) ∧
      ¬(cfg.maxEnvStep ≤ es + dEs ∨ cfg.maxTrainIter ≤ ti + dTi) ∧
      cyclePost cfg cb samp ti es seeds k cont =
        (cont (samp2.endRound lvls) (ti + dTi) (es + dEs) lvls).prepend
          ([.collectCall k seeds, .trainCall k, .updateCall k] ++ wsTr ++
            [.reseedAssign k lvls])) := by
  cases hc : cb.collectRes k with
  | error e => exact Or.inl ⟨e, rfl, by simp only [cyclePost, hc]⟩
  | ok dEs =>
    cases ht : cb.trainRes k with
    | error e => exact Or.inr (Or.inl ⟨dEs, e, rfl, rfl, by simp only [cyclePost, hc, ht]⟩)
    | ok dTi =>
      cases hu : cb.updateRes k with
      | error e =>
        exact Or.inr (Or.inr (Or.inl ⟨dEs, dTi, e, rfl, rfl, rfl,
          by simp only [cyclePost, hc, ht, hu]⟩))
      | ok u =>
        cases hw : weightedRound cb k cfg.workerCount 0
            (samp.updateWithRollouts seeds (cb.potentials k)) with
        | error p =>
          obtain ⟨wsTr, e⟩ := p
          exact Or.inr (Or.inr (Or.inr (Or.inl ⟨dEs, dTi, wsTr, e, rfl, rfl, rfl, rfl,
            by simp only [cyclePost, hc, ht, hu, hw]⟩)))
        | ok q =>
          obtain ⟨wsTr, lvls, samp2⟩ := q
          by_cases hstop : cfg.maxEnvStep ≤ es + dEs ∨ cfg.maxTrainIter ≤ ti + dTi
          · exact Or.inr (Or.inr (Or.inr (Or.inr (Or.inl ⟨dEs, dTi, wsTr, lvls, samp2,
              rfl, rfl, rfl, rfl, hstop,
              by simp only [cyclePost, hc, ht, hu, hw, if_pos hstop]⟩))))
          · exact Or.inr (Or.inr (Or.inr (Or.inr (Or.inr ⟨dEs, dTi, wsTr, lvls, samp2,
              rfl, rfl, rfl, rfl, hstop,
              by simp only [cyclePost, hc, ht, hu, hw, if_neg hstop]⟩))))

theorem count_le_one_of_nodup {l : List Ev} (h : l.Nodup) (x : Ev) : l.count x ≤ 1 :=
  List.nodup_iff_count_le_one.1 h x

theorem count_append_le_one {l1 l2 : List Ev} (h1 : ∀ x, l1.count x ≤ 1)
    (h2 : ∀ x, l2.count x ≤ 1) (hd : ∀ x, x ∈ l1 → x ∈ l2 → False) (x : Ev) :
    (l1 ++ l2).count x ≤ 1 := by
  rw [List.count_append]
  by_cases hx1 : x ∈ l1
  · have hz : l2.count x = 0 := List.count_eq_zero.2 (fun hx2 => hd x hx1 hx2)
    have := h1 x
    omega
  · have hz : l1.count x = 0 := List.count_eq_zero.2 hx1
    have := h2 x
    omega

/-- Nodup of a block of pairwise-distinct events around a weighted-sample
run. -/
theorem nodup_around_ws (k n : Nat) (l1 l2 : List Ev)
    (h1 : l1.Nodup) (h2 : l2.Nodup) (h12 : ∀ x ∈ l1, x ∉ l2)
    (hws1 : ∀ j, Ev.weightedSample k j ∉ l1) (hws2 : ∀ j, Ev.weightedSample k j ∉ l2) :
    (l1 ++ ((List.range' 0 n).map (Ev.weightedSample k) ++ l2)).Nodup := by
  rw [List.nodup_append, List.nodup_append]
  refine ⟨h1, ⟨wsMap_nodup k 0 n, h2, ?_⟩, ?_⟩
  · intro x hx1 hx2
    obtain ⟨j, _, rfl⟩ := List.mem_map.1 hx1
    exact hws2 j hx2
  · intro x hx1 hx2
    rcases List.mem_append.1 hx2 with h | h
    · obtain ⟨j, _, rfl⟩ := List.mem_map.1 h
      exact hws1 j hx1
    · exact h12 x hx1 h

/-- No event is recorded twice in a loop trace: every collaborator call
happens at most once. -/
theorem loop_count (cfg : Cfg) (cb : Collab) :
    ∀ fuel samp ti es seeds k x,
      ((loop cfg cb fuel samp ti es seeds k).trace).count x ≤ 1 := by
  intro fuel
  induction fuel with
  | zero => intro samp ti es seeds k x; simp [loop]
  | succ fuel ih =>
    intro samp ti es seeds k x
    have hcont : ∀ s t e1 sd, ∀ y ∈ (loop cfg cb fuel s t e1 sd (k + 1)).trace,
        y.isLoopEv (k + 1) := fun s t e1 sd => loop_events cfg cb fuel s t e1 sd (k + 1)
    have hdisj : ∀ (l1 : List Ev), (∀ y ∈ l1, y.cycle? = some k) →
        ∀ s t e1 sd y, y ∈ l1 → y ∈ (loop cfg cb fuel s t e1 sd (k + 1)).trace → False := by
      intro l1 hl1 s t e1 sd y hy1 hy2
      rcases hcont s t e1 sd y hy2 with hAf | ⟨j, hj, hcy⟩
      · rw [hAf] at hy1
        have := hl1 _ hy1
        simp [Ev.cycle?] at this
      · have := hl1 _ hy1
        rw [this] at hcy
        have : j = k := by injection hcy with h; omega
        omega
    simp only [loop]
    by_cases he : cb.shouldEval ti
    · simp only [if_pos he]
      cases hev : cb.evalRes k with
      | error e =>
        exact count_le_one_of_nodup (by simp) x
      | ok b =>
        cases b with
        | true => exact count_le_one_of_nodup (by simp) x
        | false =>
          rcases cyclePost_cases cfg cb samp ti es seeds k
              (fun s t e1 sd => loop cfg cb fuel s t e1 sd (k + 1)) with
            ⟨e, _, hres⟩ | ⟨dEs, e, _, _, hres⟩ | ⟨dEs, dTi, e, _, _, _, hres⟩ |
            ⟨dEs, dTi, wsTr, e, _, _, _, hw, hres⟩ |
            ⟨dEs, dTi, wsTr, lvls, samp2, _, _, _, hw, _, hres⟩ |
            ⟨dEs, dTi, wsTr, lvls, samp2, _, _, _, hw, _, hres⟩
          · rw [hres]; exact count_le_one_of_nodup (by simp) x
          · rw [hres]; exact count_le_one_of_nodup (by simp) x
          · rw [hres]; exact count_le_one_of_nodup (by simp) x
          · rw [hres]
            obtain ⟨m, _, htr, _⟩ := weightedRound_err_shape cb k _ _ _ _ _ hw
            subst htr
            refine count_le_one_of_nodup ?_ x
            have hsh : (Ev.commanderStep k :: Ev.evalCall k ::
                ([Ev.collectCall k seeds, Ev.trainCall k, Ev.updateCall k] ++
                  (List.range' 0 (m + 1)).map (Ev.weightedSample k))) =
                ([Ev.commanderStep k, Ev.evalCall k, Ev.collectCall k seeds,
                  Ev.trainCall k, Ev.updateCall k] ++
                  ((List.range' 0 (m + 1)).map (Ev.weightedSample k) ++ [])) := by
              simp
            show (Ev.commanderStep k :: Ev.evalCall k ::
                ([Ev.collectCall k seeds, Ev.trainCall k, Ev.updateCall k] ++
                  (List.range' 0 (m + 1)).map (Ev.weightedSample k))).Nodup
            rw [hsh]
            refine nodup_around_ws k (m + 1) _ _ (by simp) (by simp) (by simp) ?_ (by simp)
            intro j
            simp
          · rw [hres]
            obtain ⟨htr, _, _⟩ := weightedRound_ok_shape cb k _ _ _ _ _ _ hw
            subst htr
            refine count_le_one_of_nodup ?_ x
            have hsh : (Ev.commanderStep k :: Ev.evalCall k ::
                (([Ev.collectCall k seeds, Ev.trainCall k, Ev.updateCall k] ++
                  (List.range' 0 cfg.workerCount).map (Ev.weightedSample k) ++
                  [Ev.reseedAssign k lvls]) ++ [Ev.afterRun])) =
                ([Ev.commanderStep k, Ev.evalCall k, Ev.collectCall k seeds,
                  Ev.trainCall k, Ev.updateCall k] ++
                  ((List.range' 0 cfg.workerCount).map (Ev.weightedSample k) ++
                    [Ev.reseedAssign k lvls, Ev.afterRun])) := by
              simp
            show (Ev.commanderStep k :: Ev.evalCall k ::
                (([Ev.collectCall k seeds, Ev.trainCall k, Ev.updateCall k] ++
                  (List.range' 0 cfg.workerCount).map (Ev.weightedSample k) ++
                  [Ev.reseedAssign k lvls]) ++ [Ev.afterRun])).Nodup
            rw [hsh]
            refine nodup_around_ws k cfg.workerCount _ _ (by simp) (by simp) (by simp) ?_ (by simp)
            intro j
            simp
          · rw [hres]
            obtain ⟨htr, _, _⟩ := weightedRound_ok_shape cb k _ _ _ _ _ _ hw
            subst htr
            simp only [RunRes.trace_prepend]
            have hsh : (Ev.commanderStep k :: Ev.evalCall k ::
                (([Ev.collectCall k seeds, Ev.trainCall k, Ev.updateCall k] ++
                  (List.range' 0 cfg.workerCount).map (Ev.weightedSample k) ++
                  [Ev.reseedAssign k lvls]) ++
                  (loop cfg cb fuel (samp2.endRound lvls) (ti + dTi) (es + dEs) lvls
                    (k + 1)).trace)) =
                ([Ev.commanderStep k, Ev.evalCall k, Ev.collectCall k seeds,
                  Ev.trainCall k, Ev.updateCall k] ++
                  ((List.range' 0 cfg.workerCount).map (Ev.weightedSample k) ++
                    [Ev.reseedAssign k lvls])) ++
                  (loop cfg cb fuel (samp2.endRound lvls) (ti + dTi) (es + dEs) lvls
                    (k + 1)).trace := by
              simp
            show ((Ev.commanderStep k :: Ev.evalCall k ::
                (([Ev.collectCall k seeds, Ev.trainCall k, Ev.updateCall k] ++
                  (List.range' 0 cfg.workerCount).map (Ev.weightedSample k) ++
                  [Ev.reseedAssign k lvls]) ++
                  (loop cfg cb fuel (samp2.endRound lvls) (ti + dTi) (es + dEs) lvls
                    (k + 1)).trace)).count x) ≤ 1
            rw [hsh]
            refine count_append_le_one ?_ (fun y => ih _ _ _ _ _ y) ?_ x
            · intro y
              refine count_le_one_of_nodup ?_ y
              refine nodup_around_ws k cfg.workerCount _ _ (by simp) (by simp) (by simp) ?_ (by simp)
              intro j
              simp
            · intro y hy1 hy2
              refine hdisj _ ?_ _ _ _ _ y hy1 hy2
              intro z hz
              simp only [List.mem_append, List.mem_cons, List.not_mem_nil, or_false] at hz
              rcases hz with (rfl | rfl | rfl | rfl | rfl) | hz | rfl
              · rfl
              · rfl
              · rfl
              · rfl
              · rfl
              · obtain ⟨j, _, rfl⟩ := List.mem_map.1 hz
                rfl
              · rfl
    · simp only [if_neg he]
      rcases cyclePost_cases cfg cb samp ti es seeds k
          (fun s t e1 sd => loop cfg cb fuel s t e1 sd (k + 1)) with
        ⟨e, _, hres⟩ | ⟨dEs, e, _, _, hres⟩ | ⟨dEs, dTi, e, _, _, _, hres⟩ |
        ⟨dEs, dTi, wsTr, e, _, _, _, hw, hres⟩ |
        ⟨dEs, dTi, wsTr, lvls, samp2, _, _, _, hw, _, hres⟩ |
        ⟨dEs, dTi, wsTr, lvls, samp2, _, _, _, hw, _, hres⟩
      · rw [hres]; exact count_le_one_of_nodup (by simp) x
      · rw [hres]; exact count_le_one_of_nodup (by simp) x
      · rw [hres]; exact count_le_one_of_nodup (by simp) x
      · rw [hres]
        obtain ⟨m, _, htr, _⟩ := weightedRound_err_shape cb k _ _ _ _ _ hw
        subst htr
        refine count_le_one_of_nodup ?_ x
        have hsh : (Ev.commanderStep k ::
            ([Ev.collectCall k seeds, Ev.trainCall k, Ev.updateCall k] ++
              (List.range' 0 (m + 1)).map (Ev.weightedSample k))) =
            ([Ev.commanderStep k, Ev.collectCall k seeds,
              Ev.trainCall k, Ev.updateCall k] ++
              ((List.range' 0 (m + 1)).map (Ev.weightedSample k) ++ [])) := by
          simp
        show (Ev.commanderStep k ::
            ([Ev.collectCall k seeds, Ev.trainCall k, Ev.updateCall k] ++
              (List.range' 0 (m + 1)).map (Ev.weightedSample k))).Nodup
        rw [hsh]
        refine nodup_around_ws k (m + 1) _ _ (by simp) (by simp) (by simp) ?_ (by simp)
        intro j
        simp
      · rw [hres]
        obtain ⟨htr, _, _⟩ := weightedRound_ok_shape cb k _ _ _ _ _ _ hw
        subst htr
        refine count_le_one_of_nodup ?_ x
        have hsh : (Ev.commanderStep k ::
            (([Ev.collectCall k seeds, Ev.trainCall k, Ev.updateCall k] ++
              (List.range' 0 cfg.workerCount).map (Ev.weightedSample k) ++
              [Ev.reseedAssign k lvls]) ++ [Ev.afterRun])) =
            ([Ev.commanderStep k, Ev.collectCall k seeds,
              Ev.trainCall k, Ev.updateCall k] ++
              ((List.range' 0 cfg.workerCount).map (Ev.weightedSample k) ++
                [Ev.reseedAssign k lvls, Ev.afterRun])) := by
          simp
        show (Ev.commanderStep k ::
            (([Ev.collectCall k seeds, Ev.trainCall k, Ev.updateCall k] ++
              (List.range' 0 cfg.workerCount).map (Ev.weightedSample k) ++
              [Ev.reseedAssign k lvls]) ++ [Ev.afterRun])).Nodup
        rw [hsh]
        refine nodup_around_ws k cfg.workerCount _ _ (by simp) (by simp) (by simp) ?_ (by simp)
        intro j
        simp
      · rw [hres]
        obtain ⟨htr, _, _⟩ := weightedRound_ok_shape cb k _ _ _ _ _ _ hw
        subst htr
        simp only [RunRes.trace_prepend]
        have hsh : (Ev.commanderStep k ::
            (([Ev.collectCall k seeds, Ev.trainCall k, Ev.updateCall k] ++
              (List.range' 0 cfg.workerCount).map (Ev.weightedSample k) ++
              [Ev.reseedAssign k lvls]) ++
              (loop cfg cb fuel (samp2.endRound lvls) (ti + dTi) (es + dEs) lvls
                (k + 1)).trace)) =
            ([Ev.commanderStep k, Ev.collectCall k seeds,
              Ev.trainCall k, Ev.updateCall k] ++
              ((List.range' 0 cfg.workerCount).map (Ev.weightedSample k) ++
                [Ev.reseedAssign k lvls])) ++
              (loop cfg cb fuel (samp2.endRound lvls) (ti + dTi) (es + dEs) lvls
                (k + 1)).trace := by
          simp
        show ((Ev.commanderStep k ::
            (([Ev.collectCall k seeds, Ev.trainCall k, Ev.updateCall k] ++
              (List.range' 0 cfg.workerCount).map (Ev.weightedSample k) ++
              [Ev.reseedAssign k lvls]) ++
              (loop cfg cb fuel (samp2.endRound lvls) (ti + dTi) (es + dEs) lvls
                (k + 1)).trace)).count x) ≤ 1
        rw [hsh]
        refine count_append_le_one ?_ (fun y => ih _ _ _ _ _ y) ?_ x
        · intro y
          refine count_le_one_of_nodup ?_ y
          refine nodup_around_ws k cfg.workerCount _ _ (by simp) (by simp) (by simp) ?_ (by simp)
          intro j
          simp
        · intro y hy1 hy2
          refine hdisj _ ?_ _ _ _ _ y hy1 hy2
          intro z hz
          simp only [List.mem_append, List.mem_cons, List.not_mem_nil, or_false] at hz
          rcases hz with (rfl | rfl | rfl | rfl) | hz | rfl
          · rfl
          · rfl
          · rfl
          · rfl
          · obtain ⟨j, _, rfl⟩ := List.mem_map.1 hz
            rfl
          · rfl

@[simp] theorem RunRes.prepend_err (l tr : List Ev) (e : Err) :
    (RunRes.err tr e).prepend l = .err (l ++ tr) e := rfl

@[simp] theorem RunRes.prepend_okC (l tr : List Ev) (f : LoopFin) :
    (RunRes.ok tr f).prepend l = .ok (l ++ tr) f := rfl

@[simp] theorem RunRes.prepend_fuelOut (l tr : List Ev) (f : LoopFin) :
    (RunRes.fuelOut tr f).prepend l = .fuelOut (l ++ tr) f := rfl

/-- A loop run that ends in an uncaught collaborator error stops at the
failing call: the trace ends with the event of the very call whose error is
propagated, and the `after_run` hook never runs. -/
theorem loop_err_shape (cfg : Cfg) (cb : Collab) :
    ∀ fuel samp ti es seeds k tr e,
      loop cfg cb fuel samp ti es seeds k = .err tr e →
      Ev.afterRun ∉ tr ∧ ∃ l last, tr = l ++ [last] ∧ callErr cb last = some e := by
  intro fuel
  induction fuel with
  | zero => intro samp ti es seeds k tr e h; exact RunRes.noConfusion h
  | succ fuel ih =>
    intro samp ti es seeds k tr e h
    simp only [loop] at h
    by_cases he : cb.shouldEval ti
    · simp only [if_pos he] at h
      cases hev : cb.evalRes k with
      | error e1 =>
        rw [hev] at h
        obtain ⟨htr, he1⟩ := RunRes.err.inj h
        subst htr he1
        refine ⟨by simp, [Ev.commanderStep k], Ev.evalCall k, rfl, ?_⟩
        simp [callErr, hev]
      | ok b =>
        cases b with
        | true => rw [hev] at h; exact RunRes.noConfusion h
        | false =>
          rw [hev] at h
          rcases cyclePost_cases cfg cb samp ti es seeds k
              (fun s t e1 sd => loop cfg cb fuel s t e1 sd (k + 1)) with
            ⟨e1, hc, hres⟩ | ⟨dEs, e1, hc, ht, hres⟩ | ⟨dEs, dTi, e1, hc, ht, hu, hres⟩ |
            ⟨dEs, dTi, wsTr, e1, hc, ht, hu, hw, hres⟩ |
            ⟨dEs, dTi, wsTr, lvls, samp2, hc, ht, hu, hw, hstop, hres⟩ |
            ⟨dEs, dTi, wsTr, lvls, samp2, hc, ht, hu, hw, hstop, hres⟩
          · rw [hres] at h
            simp only [RunRes.prepend_err] at h
            obtain ⟨htr, he1⟩ := RunRes.err.inj h
            subst htr he1
            refine ⟨by simp, [Ev.commanderStep k, Ev.evalCall k], Ev.collectCall k seeds,
              by simp, ?_⟩
            simp [callErr, hc]
          · rw [hres] at h
            simp only [RunRes.prepend_err] at h
            obtain ⟨htr, he1⟩ := RunRes.err.inj h
            subst htr he1
            refine ⟨by simp, [Ev.commanderStep k, Ev.evalCall k, Ev.collectCall k seeds],
              Ev.trainCall k, by simp, ?_⟩
            simp [callErr, ht]
          · rw [hres] at h
            simp only [RunRes.prepend_err] at h
            obtain ⟨htr, he1⟩ := RunRes.err.inj h
            subst htr he1
            refine ⟨by simp,
              [Ev.commanderStep k, Ev.evalCall k, Ev.collectCall k seeds, Ev.trainCall k],
              Ev.updateCall k, by simp, ?_⟩
            simp [callErr, hu]
          · rw [hres] at h
            simp only [RunRes.prepend_err] at h
            obtain ⟨htr, he1⟩ := RunRes.err.inj h
            subst htr he1
            obtain ⟨m, _, htr1, hsr⟩ := weightedRound_err_shape cb k _ _ _ _ _ hw
            subst htr1
            rw [Nat.zero_add] at hsr
            refine ⟨?_, [Ev.commanderStep k, Ev.evalCall k, Ev.collectCall k seeds,
              Ev.trainCall k, Ev.updateCall k] ++
              (List.range' 0 m).map (Ev.weightedSample k), Ev.weightedSample k m, ?_, ?_⟩
            · simp
            · rw [List.range'_1_concat, List.map_append]
              simp
            · simp [callErr, hsr]
          · rw [hres] at h; exact RunRes.noConfusion h
          · rw [hres] at h
            cases hrec : loop cfg cb fuel (samp2.endRound lvls) (ti + dTi) (es + dEs) lvls
                (k + 1) with
            | ok tr1 f1 => rw [hrec] at h; exact RunRes.noConfusion h
            | fuelOut tr1 f1 => rw [hrec] at h; exact RunRes.noConfusion h
            | err tr1 e1 =>
              rw [hrec] at h
              simp only [RunRes.prepend_err] at h
              obtain ⟨htr, he1⟩ := RunRes.err.inj h
              subst htr he1
              obtain ⟨hnaf, l1, last1, htr1, hcall⟩ := ih _ _ _ _ _ _ _ hrec
              obtain ⟨htrW, _, _⟩ := weightedRound_ok_shape cb k _ _ _ _ _ _ hw
              subst htrW
              refine ⟨?_, Ev.commanderStep k :: Ev.evalCall k ::
                (([Ev.collectCall k seeds, Ev.trainCall k, Ev.updateCall k] ++
                  (List.range' 0 cfg.workerCount).map (Ev.weightedSample k) ++
                  [Ev.reseedAssign k lvls]) ++ l1), last1, ?_, hcall⟩
              · intro haf
                simp at haf
                exact hnaf haf
              · rw [htr1]
                simp
    · simp only [if_neg he] at h
      rcases cyclePost_cases cfg cb samp ti es seeds k
          (fun s t e1 sd => loop cfg cb fuel s t e1 sd (k + 1)) with
        ⟨e1, hc, hres⟩ | ⟨dEs, e1, hc, ht, hres⟩ | ⟨dEs, dTi, e1, hc, ht, hu, hres⟩ |
        ⟨dEs, dTi, wsTr, e1, hc, ht, hu, hw, hres⟩ |
        ⟨dEs, dTi, wsTr, lvls, samp2, hc, ht, hu, hw, hstop, hres⟩ |
        ⟨dEs, dTi, wsTr, lvls, samp2, hc, ht, hu, hw, hstop, hres⟩
      · rw [hres] at h
        simp only [RunRes.prepend_err] at h
        obtain ⟨htr, he1⟩ := RunRes.err.inj h
        subst htr he1
        refine ⟨by simp, [Ev.commanderStep k], Ev.collectCall k seeds, by simp, ?_⟩
        simp [callErr, hc]
      · rw [hres] at h
        simp only [RunRes.prepend_err] at h
        obtain ⟨htr, he1⟩ := RunRes.err.inj h
        subst htr he1
        refine ⟨by simp, [Ev.commanderStep k, Ev.collectCall k seeds],
          Ev.trainCall k, by simp, ?_⟩
        simp [callErr, ht]
      · rw [hres] at h
        simp only [RunRes.prepend_err] at h
        obtain ⟨htr, he1⟩ := RunRes.err.inj h
        subst htr he1
        refine ⟨by simp,
          [Ev.commanderStep k, Ev.collectCall k seeds, Ev.trainCall k],
          Ev.updateCall k, by simp, ?_⟩
        simp [callErr, hu]
      · rw [hres] at h
        simp only [RunRes.prepend_err] at h
        obtain ⟨htr, he1⟩ := RunRes.err.inj h
        subst htr he1
        obtain ⟨m, _, htr1, hsr⟩ := weightedRound_err_shape cb k _ _ _ _ _ hw
        subst htr1
        rw [Nat.zero_add] at hsr
        refine ⟨?_, [Ev.commanderStep k, Ev.collectCall k seeds,
          Ev.trainCall k, Ev.updateCall k] ++
          (List.range' 0 m).map (Ev.weightedSample k), Ev.weightedSample k m, ?_, ?_⟩
        · simp
        · rw [List.range'_1_concat, List.map_append]
          simp
        · simp [callErr, hsr]
      · rw [hres] at h; exact RunRes.noConfusion h
      · rw [hres] at h
        cases hrec : loop cfg cb fuel (samp2.endRound lvls) (ti + dTi) (es + dEs) lvls
            (k + 1) with
        | ok tr1 f1 => rw [hrec] at h; exact RunRes.noConfusion h
        | fuelOut tr1 f1 => rw [hrec] at h; exact RunRes.noConfusion h
        | err tr1 e1 =>
          rw [hrec] at h
          simp only [RunRes.prepend_err] at h
          obtain ⟨htr, he1⟩ := RunRes.err.inj h
          subst htr he1
          obtain ⟨hnaf, l1, last1, htr1, hcall⟩ := ih _ _ _ _ _ _ _ hrec
          obtain ⟨htrW, _, _⟩ := weightedRound_ok_shape cb k _ _ _ _ _ _ hw
          subst htrW
          refine ⟨?_, Ev.commanderStep k ::
            (([Ev.collectCall k seeds, Ev.trainCall k, Ev.updateCall k] ++
              (List.range' 0 cfg.workerCount).map (Ev.weightedSample k) ++
              [Ev.reseedAssign k lvls]) ++ l1), last1, ?_, hcall⟩
          · intro haf
            simp at haf
            exact hnaf haf
          · rw [htr1]
            simp

theorem seqSample_inj : Function.Injective Ev.seqSample := by
  intro a b h
  injection h

/-- Nodup of the pipeline initialization prefix. -/
theorem init_prefix_nodup (w : Nat) (s : List Int) :
    ((Ev.beforeRun :: (List.range' 0 w).map Ev.seqSample) ++ [Ev.initAssign s]).Nodup := by
  rw [List.nodup_append]
  refine ⟨List.nodup_cons.2 ⟨by simp, List.Nodup.map seqSample_inj (List.nodup_range' 0 w)⟩,
    by simp, ?_⟩
  intro y hy1 hy2
  simp only [List.mem_cons, List.not_mem_nil, or_false] at hy2
  subst hy2
  simp only [List.mem_cons, List.mem_map] at hy1
  rcases hy1 with h | ⟨j, _, hj⟩
  · exact Ev.noConfusion h
  · exact Ev.noConfusion hj

/-- Claim C7 (error propagation without retry): if a run of
`serial_pipeline_plr` ends in an uncaught collaborator error, then the
propagated error is exactly the error returned by the trace's final
recorded call, that failing call (like every call) appears at most once in
the trace (no retry), and no phase ran after it; in particular the
`after_run` hook never ran. -/
theorem serial_plr_error_propagation (cfg : Cfg) (cb : Collab) (fuel : Nat)
    (tr : List Ev) (e : Err) (h : serial_pipeline_plr cfg cb fuel = .err tr e) :
    Ev.afterRun ∉ tr ∧ (∀ x, tr.count x ≤ 1) ∧
    ∃ l last, tr = l ++ [last] ∧ callErr cb last = some e := by
  by_cases hw : cfg.workerCount ≤ 500
  · obtain ⟨sampI, hdecomp, _, _⟩ := pipeline_decomp cfg cb fuel hw
    rw [hdecomp] at h
    cases hrec : loop cfg cb fuel sampI 0 0 (seqSeeds cfg.workerCount) 0 with
    | ok tr1 f1 => rw [hrec] at h; exact RunRes.noConfusion h
    | fuelOut tr1 f1 => rw [hrec] at h; exact RunRes.noConfusion h
    | err tr1 e1 =>
      rw [hrec] at h
      simp only [RunRes.prepend_err] at h
      obtain ⟨htr, he1⟩ := RunRes.err.inj h
      subst htr he1
      obtain ⟨hnaf, l1, last1, htr1, hcall⟩ := loop_err_shape cfg cb _ _ _ _ _ _ _ _ hrec
      have hloopEv := loop_events cfg cb fuel sampI 0 0 (seqSeeds cfg.workerCount) 0
      refine ⟨?_, ?_, ?_⟩
      · intro haf
        simp at haf
        exact hnaf haf
      · intro x
        have hcnt1 : ∀ y, tr1.count y ≤ 1 := by
          intro y
          have hq := loop_count cfg cb fuel sampI 0 0 (seqSeeds cfg.workerCount) 0 y
          rw [hrec] at hq
          simpa using hq
        refine count_append_le_one
          (count_le_one_of_nodup (init_prefix_nodup cfg.workerCount _)) hcnt1 ?_ x
        intro y hy1 hy2
        rcases hloopEv y (by rw [hrec]; exact hy2) with hAf | ⟨j, _, hcy⟩
        · subst hAf
          simp at hy1
        · simp only [List.mem_append, List.mem_cons, List.mem_map, List.not_mem_nil,
            or_false] at hy1
          rcases hy1 with (rfl | ⟨j1, _, rfl⟩) | rfl
          · exact Option.noConfusion hcy
          · exact Option.noConfusion hcy
          · exact Option.noConfusion hcy
      · refine ⟨(Ev.beforeRun :: (List.range' 0 cfg.workerCount).map Ev.seqSample ++
          [Ev.initAssign (seqSeeds cfg.workerCount)]) ++ l1, last1, ?_, hcall⟩
        rw [htr1]
        simp [List.append_assoc]
  · rw [pipeline_exhausted cfg cb fuel (by omega)] at h
    obtain ⟨htr, he1⟩ := RunRes.err.inj h
    subst htr he1
    refine ⟨?_, ?_, ?_⟩
    · intro haf
      simp only [List.mem_cons] at haf
      rcases haf with h1 | h1
      · exact Ev.noConfusion h1
      · obtain ⟨j, _, hj⟩ := List.mem_map.1 h1
        exact Ev.noConfusion hj
    · intro x
      refine count_le_one_of_nodup ?_ x
      refine List.nodup_cons.2 ⟨?_, List.Nodup.map seqSample_inj (List.nodup_range' 0 501)⟩
      simp
    · refine ⟨Ev.beforeRun :: (List.range' 0 500).map Ev.seqSample, Ev.seqSample 500, ?_, ?_⟩
      · rw [show (501 : Nat) = 500 + 1 from rfl, List.range'_1_concat, List.map_append]
        simp
      · simp [callErr]

/-- Witness for C7: a run whose collect call crashes in cycle 0. -/
theorem serial_plr_error_propagation_witness :
    Ev.afterRun ∉ [Ev.beforeRun, Ev.seqSample 0, Ev.seqSample 1, Ev.initAssign [0, 1],
      Ev.commanderStep 0, Ev.evalCall 0, Ev.collectCall 0 [0, 1]] ∧
    ([Ev.beforeRun, Ev.seqSample 0, Ev.seqSample 1, Ev.initAssign [0, 1],
      Ev.commanderStep 0, Ev.evalCall 0, Ev.collectCall 0 [0, 1]].count
        (Ev.collectCall 0 [0, 1]) ≤ 1) ∧
    callErr cbErr (Ev.collectCall 0 [0, 1]) = some .collabCrash := by
  have h := serial_plr_error_propagation ⟨2, 0, 0⟩ cbErr 1
    [Ev.beforeRun, Ev.seqSample 0, Ev.seqSample 1, Ev.initAssign [0, 1],
      Ev.commanderStep 0, Ev.evalCall 0, Ev.collectCall 0 [0, 1]] .collabCrash rfl
  exact ⟨h.1, h.2.1 _, by decide⟩

/-! ### Ordering of events inside a trace -/

theorem hb_here {p q : List Ev} {a b : Ev} (ha : a ∈ p) (hb1 : b ∉ p) (hb2 : b ∈ q) :
    happensBefore (p ++ q) a b := by
  refine ⟨List.mem_append.2 (Or.inl ha), List.mem_append.2 (Or.inr hb2), ?_⟩
  rw [List.indexOf_append_of_mem ha, List.indexOf_append_of_not_mem hb1]
  have h1 : p.indexOf a < p.length := List.indexOf_lt_length.2 ha
  omega

theorem hb_append_right {p q : List Ev} {a b : Ev} (h : happensBefore q a b)
    (ha : a ∉ p) (hb1 : b ∉ p) : happensBefore (p ++ q) a b := by
  obtain ⟨ha2, hb2, hlt⟩ := h
  refine ⟨List.mem_append.2 (Or.inr ha2), List.mem_append.2 (Or.inr hb2), ?_⟩
  rw [List.indexOf_append_of_not_mem ha, List.indexOf_append_of_not_mem hb1]
  omega

/-- In any trace of the orchestration loop, when cycle `k` both evaluated
and collected, the evaluation call of cycle `k` happened strictly before
the collect call of cycle `k`. -/
theorem loop_eval_before_collect (cfg : Cfg) (cb : Collab) :
    ∀ fuel samp ti es seeds k0 k s,
      Ev.collectCall k s ∈ (loop cfg cb fuel samp ti es seeds k0).trace →
      Ev.evalCall k ∈ (loop cfg cb fuel samp ti es seeds k0).trace →
      happensBefore ((loop cfg cb fuel samp ti es seeds k0).trace)
        (Ev.evalCall k) (Ev.collectCall k s) := by
  intro fuel
  induction fuel with
  | zero => intro samp ti es seeds k0 k s hcc _; simp [loop] at hcc
  | succ fuel ih =>
    intro samp ti es seeds k0 k s hcc hev
    have hRev : ∀ s1 t1 e1 sd1 y,
        y ∈ (loop cfg cb fuel s1 t1 e1 sd1 (k0 + 1)).trace →
        ∀ j, y.cycle? = some j → k0 + 1 ≤ j := by
      intro s1 t1 e1 sd1 y hy j hj
      rcases loop_events cfg cb fuel s1 t1 e1 sd1 (k0 + 1) y hy with hAf | ⟨j1, hj1, hcy⟩
      · subst hAf; exact Option.noConfusion hj
      · rw [hj] at hcy; injection hcy with h; omega
    simp only [loop] at hcc hev ⊢
    by_cases he : cb.shouldEval ti
    · simp only [if_pos he] at hcc hev ⊢
      cases hev1 : cb.evalRes k0 with
      | error e =>
        simp only [hev1] at hcc
        simp at hcc
      | ok b =>
        cases b with
        | true =>
          simp only [hev1] at hcc
          simp at hcc
        | false =>
          rcases cyclePost_cases cfg cb samp ti es seeds k0
              (fun s1 t1 e1 sd1 => loop cfg cb fuel s1 t1 e1 sd1 (k0 + 1)) with
            ⟨e, hc, hres⟩ | ⟨dEs, e, hc, ht, hres⟩ | ⟨dEs, dTi, e, hc, ht, hu, hres⟩ |
            ⟨dEs, dTi, wsTr, e, hc, ht, hu, hw, hres⟩ |
            ⟨dEs, dTi, wsTr, lvls, samp2, hc, ht, hu, hw, hstop, hres⟩ |
            ⟨dEs, dTi, wsTr, lvls, samp2, hc, ht, hu, hw, hstop, hres⟩ <;>
            simp only [hev1, hres, RunRes.prepend_err, RunRes.prepend_okC,
              RunRes.trace_err, RunRes.trace_ok, RunRes.trace_prepend] at hcc hev ⊢
          · -- collect call crashed: trace [cs, ev, cc]
            simp only [List.cons_append, List.nil_append, List.mem_cons,
              List.not_mem_nil, or_false] at hcc
            rcases hcc with h | h | h
            · exact Ev.noConfusion h
            · exact Ev.noConfusion h
            · obtain ⟨rfl, rfl⟩ := Ev.collectCall.inj h
              exact hb_here (q := [Ev.collectCall k s]) (by simp) (by simp) (by simp)
          · simp only [List.cons_append, List.nil_append, List.mem_cons,
              List.not_mem_nil, or_false] at hcc
            rcases hcc with h | h | h | h
            · exact Ev.noConfusion h
            · exact Ev.noConfusion h
            · obtain ⟨rfl, rfl⟩ := Ev.collectCall.inj h
              exact hb_here (q := [Ev.collectCall k s, Ev.trainCall k]) (by simp)
                (by simp) (by simp)
            · exact Ev.noConfusion h
          · simp only [List.cons_append, List.nil_append, List.mem_cons,
              List.not_mem_nil, or_false] at hcc
            rcases hcc with h | h | h | h | h
            · exact Ev.noConfusion h
            · exact Ev.noConfusion h
            · obtain ⟨rfl, rfl⟩ := Ev.collectCall.inj h
              exact hb_here (q := [Ev.collectCall k s, Ev.trainCall k, Ev.updateCall k])
                (by simp) (by simp) (by simp)
            · exact Ev.noConfusion h
            · exact Ev.noConfusion h
          · -- weighted round crashed: trace [cs, ev] ++ ([cc, tc, uc] ++ wsTr)
            obtain ⟨m, _, htr1, _⟩ := weightedRound_err_shape cb k0 _ _ _ _ _ hw
            subst htr1
            simp only [List.cons_append, List.nil_append, List.mem_cons, List.mem_append,
              List.mem_map, List.not_mem_nil, or_false] at hcc
            rcases hcc with h | h | h | h | h | ⟨j, _, h⟩
            · exact Ev.noConfusion h
            · exact Ev.noConfusion h
            · obtain ⟨rfl, rfl⟩ := Ev.collectCall.inj h
              refine hb_here (p := [Ev.commanderStep k, Ev.evalCall k]) (by simp)
                (by simp) ?_
              simp
            · exact Ev.noConfusion h
            · exact Ev.noConfusion h
            · exact Ev.noConfusion h
          · -- stop after this cycle
            obtain ⟨htr1, _, _⟩ := weightedRound_ok_shape cb k0 _ _ _ _ _ _ hw
            subst htr1
            simp only [List.cons_append, List.nil_append, List.append_assoc, List.mem_cons,
              List.mem_append, List.mem_map, List.not_mem_nil, or_false] at hcc
            rcases hcc with h | h | h | h | h | ⟨j, _, h⟩ | h | h
            · exact Ev.noConfusion h
            · exact Ev.noConfusion h
            · obtain ⟨rfl, rfl⟩ := Ev.collectCall.inj h
              refine hb_here (p := [Ev.commanderStep k, Ev.evalCall k]) (by simp)
                (by simp) ?_
              simp
            · exact Ev.noConfusion h
            · exact Ev.noConfusion h
            · exact Ev.noConfusion h
            · exact Ev.noConfusion h
            · exact Ev.noConfusion h
          · -- continue to the next cycle
            obtain ⟨htr1, _, _⟩ := weightedRound_ok_shape cb k0 _ _ _ _ _ _ hw
            subst htr1
            by_cases hk : k = k0
            · subst hk
              have hccH : Ev.collectCall k s ∉
                  (loop cfg cb fuel (samp2.endRound lvls) (ti + dTi) (es + dEs) lvls
                    (k + 1)).trace := by
                intro hmem
                have := hRev _ _ _ _ _ hmem k rfl
                omega
              simp only [List.cons_append, List.nil_append, List.append_assoc,
                List.mem_cons, List.mem_append, List.mem_map, List.not_mem_nil,
                or_false] at hcc
              rcases hcc with h | h | h | h | h | ⟨j, _, h⟩ | h | h
              · exact Ev.noConfusion h
              · exact Ev.noConfusion h
              · obtain ⟨_, rfl⟩ := Ev.collectCall.inj h
                refine hb_here (p := [Ev.commanderStep k, Ev.evalCall k]) (by simp)
                  (by simp) ?_
                simp
              · exact Ev.noConfusion h
              · exact Ev.noConfusion h
              · exact Ev.noConfusion h
              · exact Ev.noConfusion h
              · exact absurd h hccH
            · -- both events live in the recursive tail
              have hccR : Ev.collectCall k s ∈
                  (loop cfg cb fuel (samp2.endRound lvls) (ti + dTi) (es + dEs) lvls
                    (k0 + 1)).trace := by
                simp only [List.cons_append, List.nil_append, List.append_assoc,
                  List.mem_cons, List.mem_append, List.mem_map, List.not_mem_nil,
                  or_false] at hcc
                rcases hcc with h | h | h | h | h | ⟨j, _, h⟩ | h | h
                · exact Ev.noConfusion h
                · exact Ev.noConfusion h
                · exact absurd (Ev.collectCall.inj h).1 hk
                · exact Ev.noConfusion h
                · exact Ev.noConfusion h
                · exact Ev.noConfusion h
                · exact Ev.noConfusion h
                · exact h
              have hevR : Ev.evalCall k ∈
                  (loop cfg cb fuel (samp2.endRound lvls) (ti + dTi) (es + dEs) lvls
                    (k0 + 1)).trace := by
                simp only [List.cons_append, List.nil_append, List.append_assoc,
                  List.mem_cons, List.mem_append, List.mem_map, List.not_mem_nil,
                  or_false] at hev
                rcases hev with h | h | h | h | h | ⟨j, _, h⟩ | h | h
                · exact Ev.noConfusion h
                · exact absurd (Ev.evalCall.inj h) hk
                · exact Ev.noConfusion h
                · exact Ev.noConfusion h
                · exact Ev.noConfusion h
                · exact Ev.noConfusion h
                · exact Ev.noConfusion h
                · exact h
              have hrec := ih _ _ _ _ (k0 + 1) k s hccR hevR
              refine hb_append_right (p := [Ev.commanderStep k0, Ev.evalCall k0])
                (hb_append_right hrec ?_ ?_) ?_ ?_
              · intro hmem
                simp only [List.mem_append, List.mem_cons, List.mem_map,
                  List.not_mem_nil, or_false] at hmem
                rcases hmem with ((h | h | h) | ⟨j, _, h⟩) | h
                · exact Ev.noConfusion h
                · exact Ev.noConfusion h
                · exact Ev.noConfusion h
                · exact Ev.noConfusion h
                · exact Ev.noConfusion h
              · intro hmem
                simp only [List.mem_append, List.mem_cons, List.mem_map,
                  List.not_mem_nil, or_false] at hmem
                rcases hmem with ((h | h | h) | ⟨j, _, h⟩) | h
                · exact absurd (Ev.collectCall.inj h).1 hk
                · exact Ev.noConfusion h
                · exact Ev.noConfusion h
                · exact Ev.noConfusion h
                · exact Ev.noConfusion h
              · intro hmem
                simp only [List.mem_cons, List.not_mem_nil, or_false] at hmem
                rcases hmem with h | h
                · exact Ev.noConfusion h
                · exact absurd (Ev.evalCall.inj h) hk
              · intro hmem
                simp only [List.mem_cons, List.not_mem_nil, or_false] at hmem
                rcases hmem with h | h
                · exact Ev.noConfusion h
                · exact Ev.noConfusion h
    · -- evaluation did not fire this cycle: the eval call must be in the tail
      simp only [if_neg he] at hcc hev ⊢
      rcases cyclePost_cases cfg cb samp ti es seeds k0
          (fun s1 t1 e1 sd1 => loop cfg cb fuel s1 t1 e1 sd1 (k0 + 1)) with
        ⟨e, hc, hres⟩ | ⟨dEs, e, hc, ht, hres⟩ | ⟨dEs, dTi, e, hc, ht, hu, hres⟩ |
        ⟨dEs, dTi, wsTr, e, hc, ht, hu, hw, hres⟩ |
        ⟨dEs, dTi, wsTr, lvls, samp2, hc, ht, hu, hw, hstop, hres⟩ |
        ⟨dEs, dTi, wsTr, lvls, samp2, hc, ht, hu, hw, hstop, hres⟩ <;>
        simp only [hres, RunRes.prepend_err, RunRes.prepend_okC,
          RunRes.trace_err, RunRes.trace_ok, RunRes.trace_prepend] at hcc hev ⊢
      · simp at hev
      · simp at hev
      · simp at hev
      · obtain ⟨m, _, htr1, _⟩ := weightedRound_err_shape cb k0 _ _ _ _ _ hw
        subst htr1
        simp at hev
      · obtain ⟨htr1, _, _⟩ := weightedRound_ok_shape cb k0 _ _ _ _ _ _ hw
        subst htr1
        simp at hev
      · obtain ⟨htr1, _, _⟩ := weightedRound_ok_shape cb k0 _ _ _ _ _ _ hw
        subst htr1
        have hevR : Ev.evalCall k ∈
            (loop cfg cb fuel (samp2.endRound lvls) (ti + dTi) (es + dEs) lvls
              (k0 + 1)).trace := by
          simp only [List.cons_append, List.nil_append, List.append_assoc, List.mem_cons,
            List.mem_append, List.mem_map, List.not_mem_nil, or_false] at hev
          rcases hev with h | h | h | h | ⟨j, _, h⟩ | h | h
          · exact Ev.noConfusion h
          · exact Ev.noConfusion h
          · exact Ev.noConfusion h
          · exact Ev.noConfusion h
          · exact Ev.noConfusion h
          · exact Ev.noConfusion h
          · exact h
        have hk1 : k0 + 1 ≤ k := hRev _ _ _ _ _ hevR k rfl
        have hccR : Ev.collectCall k s ∈
            (loop cfg cb fuel (samp2.endRound lvls) (ti + dTi) (es + dEs) lvls
              (k0 + 1)).trace := by
          simp only [List.cons_append, List.nil_append, List.append_assoc, List.mem_cons,
            List.mem_append, List.mem_map, List.not_mem_nil, or_false] at hcc
          rcases hcc with h | h | h | h | ⟨j, _, h⟩ | h | h
          · exact Ev.noConfusion h
          · have := (Ev.collectCall.inj h).1
            omega
          · exact Ev.noConfusion h
          · exact Ev.noConfusion h
          · exact Ev.noConfusion h
          · exact Ev.noConfusion h
          · exact h
        have hrec := ih _ _ _ _ (k0 + 1) k s hccR hevR
        refine hb_append_right (p := [Ev.commanderStep k0])
          (hb_append_right hrec ?_ ?_) ?_ ?_
        · intro hmem
          simp only [List.mem_append, List.mem_cons, List.mem_map,
            List.not_mem_nil, or_false] at hmem
          rcases hmem with ((h | h | h) | ⟨j, _, h⟩) | h
          · exact Ev.noConfusion h
          · exact Ev.noConfusion h
          · exact Ev.noConfusion h
          · exact Ev.noConfusion h
          · exact Ev.noConfusion h
        · intro hmem
          simp only [List.mem_append, List.mem_cons, List.mem_map,
            List.not_mem_nil, or_false] at hmem
          rcases hmem with ((h | h | h) | ⟨j, _, h⟩) | h
          · have := (Ev.collectCall.inj h).1
            omega
          · exact Ev.noConfusion h
          · exact Ev.noConfusion h
          · exact Ev.noConfusion h
          · exact Ev.noConfusion h
        · intro hmem
          simp at hmem
        · intro hmem
          simp at hmem

theorem hb_append_left {p q : List Ev} {a b : Ev} (h : happensBefore p a b) :
    happensBefore (p ++ q) a b := by
  obtain ⟨ha, hb1, hlt⟩ := h
  refine ⟨List.mem_append.2 (Or.inl ha), List.mem_append.2 (Or.inl hb1), ?_⟩
  rw [List.indexOf_append_of_mem ha, List.indexOf_append_of_mem hb1]
  exact hlt

/-- In any trace of the orchestration loop, every weighted sample call of
cycle `k` is preceded by cycle `k`'s `update_with_rollouts` call. -/
theorem loop_update_before_ws (cfg : Cfg) (cb : Collab) :
    ∀ fuel samp ti es seeds k0 k i,
      Ev.weightedSample k i ∈ (loop cfg cb fuel samp ti es seeds k0).trace →
      Ev.updateCall k ∈ (loop cfg cb fuel samp ti es seeds k0).trace ∧
      happensBefore ((loop cfg cb fuel samp ti es seeds k0).trace)
        (Ev.updateCall k) (Ev.weightedSample k i) := by
  intro fuel
  induction fuel with
  | zero => intro samp ti es seeds k0 k i hws; simp [loop] at hws
  | succ fuel ih =>
    intro samp ti es seeds k0 k i hws
    have hRev : ∀ s1 t1 e1 sd1 y,
        y ∈ (loop cfg cb fuel s1 t1 e1 sd1 (k0 + 1)).trace →
        ∀ j, y.cycle? = some j → k0 + 1 ≤ j := by
      intro s1 t1 e1 sd1 y hy j hj
      rcases loop_events cfg cb fuel s1 t1 e1 sd1 (k0 + 1) y hy with hAf | ⟨j1, hj1, hcy⟩
      · subst hAf; exact Option.noConfusion hj
      · rw [hj] at hcy; injection hcy with h; omega
    simp only [loop] at hws ⊢
    by_cases he : cb.shouldEval ti <;>
      [simp only [if_pos he] at hws ⊢; simp only [if_neg he] at hws ⊢]
    case pos =>
      cases hev1 : cb.evalRes k0 with
      | error e => simp only [hev1] at hws; simp at hws
      | ok b =>
        cases b with
        | true => simp only [hev1] at hws; simp at hws
        | false =>
          rcases cyclePost_cases cfg cb samp ti es seeds k0
              (fun s1 t1 e1 sd1 => loop cfg cb fuel s1 t1 e1 sd1 (k0 + 1)) with
            ⟨e, hc, hres⟩ | ⟨dEs, e, hc, ht, hres⟩ | ⟨dEs, dTi, e, hc, ht, hu, hres⟩ |
            ⟨dEs, dTi, wsTr, e, hc, ht, hu, hw, hres⟩ |
            ⟨dEs, dTi, wsTr, lvls, samp2, hc, ht, hu, hw, hstop, hres⟩ |
            ⟨dEs, dTi, wsTr, lvls, samp2, hc, ht, hu, hw, hstop, hres⟩ <;>
            simp only [hev1, hres, RunRes.prepend_err, RunRes.prepend_okC,
              RunRes.trace_err, RunRes.trace_ok, RunRes.trace_prepend] at hws ⊢
          · simp at hws
          · simp at hws
          · simp at hws
          · -- weighted round crashed after some samples
            obtain ⟨m, _, htr1, _⟩ := weightedRound_err_shape cb k0 _ _ _ _ _ hw
            subst htr1
            simp only [List.mem_append, List.mem_cons, List.mem_map, List.not_mem_nil,
              or_false] at hws
            rcases hws with (h | h) | (h | h | h) | ⟨j, hj, h⟩
            · exact Ev.noConfusion h
            · exact Ev.noConfusion h
            · exact Ev.noConfusion h
            · exact Ev.noConfusion h
            · exact Ev.noConfusion h
            · obtain ⟨rfl, rfl⟩ := Ev.weightedSample.inj h
              constructor
              · simp
              · refine hb_append_right (p := [Ev.commanderStep k0, Ev.evalCall k0])
                  (hb_here (a := Ev.updateCall k0) (b := Ev.weightedSample k0 j)
                    (p := [Ev.collectCall k0 seeds, Ev.trainCall k0, Ev.updateCall k0])
                    (by simp) (by simp) (List.mem_map.2 ⟨j, hj, rfl⟩))
                  (by simp) (by simp)
          · -- stop branch
            obtain ⟨htr1, _, _⟩ := weightedRound_ok_shape cb k0 _ _ _ _ _ _ hw
            subst htr1
            simp only [List.append_assoc, List.mem_append, List.mem_cons, List.mem_map,
              List.not_mem_nil, or_false] at hws
            rcases hws with (h | h) | (h | h | h) | ⟨j, hj, h⟩ | h | h
            · exact Ev.noConfusion h
            · exact Ev.noConfusion h
            · exact Ev.noConfusion h
            · exact Ev.noConfusion h
            · exact Ev.noConfusion h
            · obtain ⟨rfl, rfl⟩ := Ev.weightedSample.inj h
              constructor
              · simp
              · refine hb_append_right (p := [Ev.commanderStep k0, Ev.evalCall k0])
                  (hb_append_left (hb_append_left
                    (hb_here (a := Ev.updateCall k0) (b := Ev.weightedSample k0 j)
                      (p := [Ev.collectCall k0 seeds, Ev.trainCall k0, Ev.updateCall k0])
                      (by simp) (by simp) (List.mem_map.2 ⟨j, hj, rfl⟩))))
                  (by simp) (by simp)
            · exact Ev.noConfusion h
            · exact Ev.noConfusion h
          · -- continue branch
            obtain ⟨htr1, _, _⟩ := weightedRound_ok_shape cb k0 _ _ _ _ _ _ hw
            subst htr1
            rw [List.append_assoc, List.append_assoc] at hws
            rcases List.mem_append.1 hws with hH | hws1
            · simp only [List.mem_cons, List.not_mem_nil, or_false] at hH
              rcases hH with h | h
              · exact Ev.noConfusion h
              · exact Ev.noConfusion h
            · rw [← List.append_assoc] at hws1
              rcases List.mem_append.1 hws1 with hH | hws2
              · simp only [List.mem_append, List.mem_cons, List.mem_map,
                  List.not_mem_nil, or_false] at hH
                rcases hH with (h | h | h) | ⟨j, hj, h⟩
                · exact Ev.noConfusion h
                · exact Ev.noConfusion h
                · exact Ev.noConfusion h
                · obtain ⟨rfl, rfl⟩ := Ev.weightedSample.inj h
                  constructor
                  · simp
                  · refine hb_append_right (p := [Ev.commanderStep k0, Ev.evalCall k0])
                      (hb_append_left (hb_append_left
                        (hb_here (a := Ev.updateCall k0) (b := Ev.weightedSample k0 j)
                          (p := [Ev.collectCall k0 seeds, Ev.trainCall k0,
                            Ev.updateCall k0])
                          (by simp) (by simp) (List.mem_map.2 ⟨j, hj, rfl⟩))))
                      (by simp) (by simp)
              · rcases List.mem_append.1 hws2 with hH | hR
                · simp only [List.mem_cons, List.not_mem_nil, or_false] at hH
                  exact Ev.noConfusion hH
                · have hk1 : k0 + 1 ≤ k := hRev _ _ _ _ _ hR k rfl
                  obtain ⟨hmemR, hbR⟩ := ih _ _ _ _ (k0 + 1) k i hR
                  constructor
                  · exact List.mem_append.2 (Or.inr (List.mem_append.2 (Or.inr hmemR)))
                  · refine hb_append_right (p := [Ev.commanderStep k0, Ev.evalCall k0])
                      (hb_append_right
                        (p := [Ev.collectCall k0 seeds, Ev.trainCall k0,
                          Ev.updateCall k0] ++
                          (List.range' 0 cfg.workerCount).map (Ev.weightedSample k0) ++
                          [Ev.reseedAssign k0 lvls]) hbR ?_ ?_) (by simp) (by simp)
                    · intro hmem
                      simp only [List.mem_append, List.mem_cons, List.mem_map,
                        List.not_mem_nil, or_false] at hmem
                      rcases hmem with ((h | h | h) | ⟨j, _, h⟩) | h
                      · exact Ev.noConfusion h
                      · exact Ev.noConfusion h
                      · have := Ev.updateCall.inj h
                        omega
                      · exact Ev.noConfusion h
                      · exact Ev.noConfusion h
                    · intro hmem
                      simp only [List.mem_append, List.mem_cons, List.mem_map,
                        List.not_mem_nil, or_false] at hmem
                      rcases hmem with ((h | h | h) | ⟨j, _, h⟩) | h
                      · exact Ev.noConfusion h
                      · exact Ev.noConfusion h
                      · exact Ev.noConfusion h
                      · have := (Ev.weightedSample.inj h).1
                        omega
                      · exact Ev.noConfusion h
    case neg =>
      rcases cyclePost_cases cfg cb samp ti es seeds k0
          (fun s1 t1 e1 sd1 => loop cfg cb fuel s1 t1 e1 sd1 (k0 + 1)) with
        ⟨e, hc, hres⟩ | ⟨dEs, e, hc, ht, hres⟩ | ⟨dEs, dTi, e, hc, ht, hu, hres⟩ |
        ⟨dEs, dTi, wsTr, e, hc, ht, hu, hw, hres⟩ |
        ⟨dEs, dTi, wsTr, lvls, samp2, hc, ht, hu, hw, hstop, hres⟩ |
        ⟨dEs, dTi, wsTr, lvls, samp2, hc, ht, hu, hw, hstop, hres⟩ <;>
        simp only [hres, RunRes.prepend_err, RunRes.prepend_okC,
          RunRes.trace_err, RunRes.trace_ok, RunRes.trace_prepend] at hws ⊢
      · simp at hws
      · simp at hws
      · simp at hws
      · obtain ⟨m, _, htr1, _⟩ := weightedRound_err_shape cb k0 _ _ _ _ _ hw
        subst htr1
        simp only [List.mem_append, List.mem_cons, List.mem_map, List.not_mem_nil,
          or_false] at hws
        rcases hws with h | (h | h | h) | ⟨j, hj, h⟩
        · exact Ev.noConfusion h
        · exact Ev.noConfusion h
        · exact Ev.noConfusion h
        · exact Ev.noConfusion h
        · obtain ⟨rfl, rfl⟩ := Ev.weightedSample.inj h
          constructor
          · simp
          · refine hb_append_right (p := [Ev.commanderStep k0])
              (hb_here (a := Ev.updateCall k0) (b := Ev.weightedSample k0 j)
                (p := [Ev.collectCall k0 seeds, Ev.trainCall k0, Ev.updateCall k0])
                (by simp) (by simp) (List.mem_map.2 ⟨j, hj, rfl⟩))
              (by simp) (by simp)
      · obtain ⟨htr1, _, _⟩ := weightedRound_ok_shape cb k0 _ _ _ _ _ _ hw
        subst htr1
        simp only [List.append_assoc, List.mem_append, List.mem_cons, List.mem_map,
          List.not_mem_nil, or_false] at hws
        rcases hws with h | (h | h | h) | ⟨j, hj, h⟩ | h | h
        · exact Ev.noConfusion h
        · exact Ev.noConfusion h
        · exact Ev.noConfusion h
        · exact Ev.noConfusion h
        · obtain ⟨rfl, rfl⟩ := Ev.weightedSample.inj h
          constructor
          · simp
          · refine hb_append_right (p := [Ev.commanderStep k0])
              (hb_append_left (hb_append_left
                (hb_here (a := Ev.updateCall k0) (b := Ev.weightedSample k0 j)
                  (p := [Ev.collectCall k0 seeds, Ev.trainCall k0, Ev.updateCall k0])
                  (by simp) (by simp) (List.mem_map.2 ⟨j, hj, rfl⟩))))
              (by simp) (by simp)
        · exact Ev.noConfusion h
        · exact Ev.noConfusion h
      · obtain ⟨htr1, _, _⟩ := weightedRound_ok_shape cb k0 _ _ _ _ _ _ hw
        subst htr1
        rw [List.append_assoc, List.append_assoc] at hws
        rcases List.mem_append.1 hws with hH | hws1
        · simp only [List.mem_cons, List.not_mem_nil, or_false] at hH
          exact Ev.noConfusion hH
        · rw [← List.append_assoc] at hws1
          rcases List.mem_append.1 hws1 with hH | hws2
          · simp only [List.mem_append, List.mem_cons, List.mem_map,
              List.not_mem_nil, or_false] at hH
            rcases hH with (h | h | h) | ⟨j, hj, h⟩
            · exact Ev.noConfusion h
            · exact Ev.noConfusion h
            · exact Ev.noConfusion h
            · obtain ⟨rfl, rfl⟩ := Ev.weightedSample.inj h
              constructor
              · simp
              · refine hb_append_right (p := [Ev.commanderStep k0])
                  (hb_append_left (hb_append_left
                    (hb_here (a := Ev.updateCall k0) (b := Ev.weightedSample k0 j)
                      (p := [Ev.collectCall k0 seeds, Ev.trainCall k0,
                        Ev.updateCall k0])
                      (by simp) (by simp) (List.mem_map.2 ⟨j, hj, rfl⟩))))
                  (by simp) (by simp)
          · rcases List.mem_append.1 hws2 with hH | hR
            · simp only [List.mem_cons, List.not_mem_nil, or_false] at hH
              exact Ev.noConfusion hH
            · have hk1 : k0 + 1 ≤ k := hRev _ _ _ _ _ hR k rfl
              obtain ⟨hmemR, hbR⟩ := ih _ _ _ _ (k0 + 1) k i hR
              constructor
              · exact List.mem_append.2 (Or.inr (List.mem_append.2 (Or.inr hmemR)))
              · refine hb_append_right (p := [Ev.commanderStep k0])
                  (hb_append_right
                    (p := [Ev.collectCall k0 seeds, Ev.trainCall k0,
                      Ev.updateCall k0] ++
                      (List.range' 0 cfg.workerCount).map (Ev.weightedSample k0) ++
                      [Ev.reseedAssign k0 lvls]) hbR ?_ ?_) (by simp) (by simp)
                · intro hmem
                  simp only [List.mem_append, List.mem_cons, List.mem_map,
                    List.not_mem_nil, or_false] at hmem
                  rcases hmem with ((h | h | h) | ⟨j, _, h⟩) | h
                  · exact Ev.noConfusion h
                  · exact Ev.noConfusion h
                  · have := Ev.updateCall.inj h
                    omega
                  · exact Ev.noConfusion h
                  · exact Ev.noConfusion h
                · intro hmem
                  simp only [List.mem_append, List.mem_cons, List.mem_map,
                    List.not_mem_nil, or_false] at hmem
                  rcases hmem with ((h | h | h) | ⟨j, _, h⟩) | h
                  · exact Ev.noConfusion h
                  · exact Ev.noConfusion h
                  · exact Ev.noConfusion h
                  · have := (Ev.weightedSample.inj h).1
                    omega
                  · exact Ev.noConfusion h

/-- Claim C2 (cycle ordering guarantee): in every run of
`serial_pipeline_plr` and every cycle `k`, when cycle `k` both evaluated
and collected, the evaluation call happened before that cycle's collect
call; and every weighted reseeding sample call of cycle `k` happened after
cycle `k`'s own `update_with_rollouts` call. -/
theorem serial_plr_cycle_ordering (cfg : Cfg) (cb : Collab) (fuel : Nat) (k : Nat) :
    (∀ s, Ev.collectCall k s ∈ (serial_pipeline_plr cfg cb fuel).trace →
      Ev.evalCall k ∈ (serial_pipeline_plr cfg cb fuel).trace →
      happensBefore ((serial_pipeline_plr cfg cb fuel).trace)
        (Ev.evalCall k) (Ev.collectCall k s)) ∧
    (∀ i, Ev.weightedSample k i ∈ (serial_pipeline_plr cfg cb fuel).trace →
      Ev.updateCall k ∈ (serial_pipeline_plr cfg cb fuel).trace ∧
      happensBefore ((serial_pipeline_plr cfg cb fuel).trace)
        (Ev.updateCall k) (Ev.weightedSample k i)) := by
  by_cases hw : cfg.workerCount ≤ 500
  · obtain ⟨sampI, hdecomp, _, _⟩ := pipeline_decomp cfg cb fuel hw
    rw [hdecomp]
    simp only [RunRes.trace_prepend]
    constructor
    · intro s hcc hev
      have hccL : Ev.collectCall k s ∈
          (loop cfg cb fuel sampI 0 0 (seqSeeds cfg.workerCount) 0).trace := by
        rcases List.mem_append.1 hcc with hP | h
        · simp at hP
        · exact h
      have hevL : Ev.evalCall k ∈
          (loop cfg cb fuel sampI 0 0 (seqSeeds cfg.workerCount) 0).trace := by
        rcases List.mem_append.1 hev with hP | h
        · simp at hP
        · exact h
      refine hb_append_right
        (loop_eval_before_collect cfg cb fuel sampI 0 0 (seqSeeds cfg.workerCount) 0 k s
          hccL hevL) ?_ ?_
      · intro hmem; simp at hmem
      · intro hmem; simp at hmem
    · intro i hws
      have hwsL : Ev.weightedSample k i ∈
          (loop cfg cb fuel sampI 0 0 (seqSeeds cfg.workerCount) 0).trace := by
        rcases List.mem_append.1 hws with hP | h
        · simp at hP
        · exact h
      obtain ⟨hmemL, hbL⟩ :=
        loop_update_before_ws cfg cb fuel sampI 0 0 (seqSeeds cfg.workerCount) 0 k i hwsL
      refine ⟨List.mem_append.2 (Or.inr hmemL), hb_append_right hbL ?_ ?_⟩
      · intro hmem; simp at hmem
      · intro hmem; simp at hmem
  · rw [pipeline_exhausted cfg cb fuel (by omega)]
    constructor
    · intro s hcc _
      simp at hcc
    · intro i hws
      simp at hws

/-- Witness for C2: the single-cycle stub run, cycle 0. -/
theorem serial_plr_cycle_ordering_witness :
    happensBefore ((serial_pipeline_plr ⟨2, 0, 0⟩ cbStub 1).trace)
      (Ev.evalCall 0) (Ev.collectCall 0 [0, 1]) ∧
    Ev.updateCall 0 ∈ (serial_pipeline_plr ⟨2, 0, 0⟩ cbStub 1).trace ∧
    happensBefore ((serial_pipeline_plr ⟨2, 0, 0⟩ cbStub 1).trace)
      (Ev.updateCall 0) (Ev.weightedSample 0 1) :=
  ⟨(serial_plr_cycle_ordering ⟨2, 0, 0⟩ cbStub 1 0).1 [0, 1] (by decide) (by decide),
   ((serial_plr_cycle_ordering ⟨2, 0, 0⟩ cbStub 1 0).2 1 (by decide)).1,
   ((serial_plr_cycle_ordering ⟨2, 0, 0⟩ cbStub 1 0).2 1 (by decide)).2⟩

/-- When the evaluator of cycle `k` signals stop, the loop trace ends right
at that evaluation call followed only by the `after_run` hook, and the
part before it contains no collect or train call of cycle `k` or later. -/
theorem loop_eval_stop (cfg : Cfg) (cb : Collab) :
    ∀ fuel samp ti es seeds k0 k,
      cb.evalRes k = .ok true →
      Ev.evalCall k ∈ (loop cfg cb fuel samp ti es seeds k0).trace →
      ∃ l, (loop cfg cb fuel samp ti es seeds k0).trace = l ++ [Ev.evalCall k, Ev.afterRun] ∧
        ∀ j, k ≤ j → (∀ s, Ev.collectCall j s ∉ l) ∧ Ev.trainCall j ∉ l := by
  intro fuel
  induction fuel with
  | zero => intro samp ti es seeds k0 k _ hev; simp [loop] at hev
  | succ fuel ih =>
    intro samp ti es seeds k0 k hstop hev
    simp only [loop] at hev ⊢
    by_cases he : cb.shouldEval ti <;>
      [simp only [if_pos he] at hev ⊢; simp only [if_neg he] at hev ⊢]
    case pos =>
      cases hev1 : cb.evalRes k0 with
      | error e =>
        simp only [hev1, RunRes.trace_err] at hev
        simp only [List.mem_cons, List.not_mem_nil, or_false] at hev
        rcases hev with h | h
        · exact Ev.noConfusion h
        · obtain rfl := Ev.evalCall.inj h
          rw [hev1] at hstop
          exact Except.noConfusion hstop
      | ok b =>
        cases b with
        | true =>
          simp only [hev1, RunRes.trace_ok] at hev ⊢
          simp only [List.mem_cons, List.not_mem_nil, or_false] at hev
          rcases hev with h | h | h
          · exact Ev.noConfusion h
          · obtain rfl := Ev.evalCall.inj h
            refine ⟨[Ev.commanderStep k], rfl, ?_⟩
            intro j _
            exact ⟨fun s hmem => by simp at hmem, by simp⟩
          · exact Ev.noConfusion h
        | false =>
          rcases cyclePost_cases cfg cb samp ti es seeds k0
              (fun s1 t1 e1 sd1 => loop cfg cb fuel s1 t1 e1 sd1 (k0 + 1)) with
            ⟨e, hc, hres⟩ | ⟨dEs, e, hc, ht, hres⟩ | ⟨dEs, dTi, e, hc, ht, hu, hres⟩ |
            ⟨dEs, dTi, wsTr, e, hc, ht, hu, hw, hres⟩ |
            ⟨dEs, dTi, wsTr, lvls, samp2, hc, ht, hu, hw, hstop1, hres⟩ |
            ⟨dEs, dTi, wsTr, lvls, samp2, hc, ht, hu, hw, hstop1, hres⟩ <;>
            simp only [hev1, hres, RunRes.prepend_err, RunRes.prepend_okC,
              RunRes.trace_err, RunRes.trace_ok, RunRes.trace_prepend] at hev ⊢ <;>
            [skip; skip; skip;
              (obtain ⟨m, _, htr1, _⟩ := weightedRound_err_shape cb k0 _ _ _ _ _ hw;
                subst htr1);
              (obtain ⟨htr1, _, _⟩ := weightedRound_ok_shape cb k0 _ _ _ _ _ _ hw;
                subst htr1);
              (obtain ⟨htr1, _, _⟩ := weightedRound_ok_shape cb k0 _ _ _ _ _ _ hw;
                subst htr1)]
          · simp only [List.mem_append, List.mem_cons, List.not_mem_nil, or_false] at hev
            rcases hev with (h | h) | h
            · exact Ev.noConfusion h
            · obtain rfl := Ev.evalCall.inj h
              rw [hev1] at hstop
              exact absurd (Except.ok.inj hstop) (by simp)
            · exact Ev.noConfusion h
          · simp only [List.mem_append, List.mem_cons, List.not_mem_nil, or_false] at hev
            rcases hev with (h | h) | h | h
            · exact Ev.noConfusion h
            · obtain rfl := Ev.evalCall.inj h
              rw [hev1] at hstop
              exact absurd (Except.ok.inj hstop) (by simp)
            · exact Ev.noConfusion h
            · exact Ev.noConfusion h
          · simp only [List.mem_append, List.mem_cons, List.not_mem_nil, or_false] at hev
            rcases hev with (h | h) | h | h | h
            · exact Ev.noConfusion h
            · obtain rfl := Ev.evalCall.inj h
              rw [hev1] at hstop
              exact absurd (Except.ok.inj hstop) (by simp)
            · exact Ev.noConfusion h
            · exact Ev.noConfusion h
            · exact Ev.noConfusion h
          · simp only [List.mem_append, List.mem_cons, List.mem_map, List.not_mem_nil,
              or_false] at hev
            rcases hev with (h | h) | (h | h | h) | ⟨j, _, h⟩
            · exact Ev.noConfusion h
            · obtain rfl := Ev.evalCall.inj h
              rw [hev1] at hstop
              exact absurd (Except.ok.inj hstop) (by simp)
            · exact Ev.noConfusion h
            · exact Ev.noConfusion h
            · exact Ev.noConfusion h
            · exact Ev.noConfusion h
          · simp only [List.append_assoc, List.mem_append, List.mem_cons, List.mem_map,
              List.not_mem_nil, or_false] at hev
            rcases hev with (h | h) | (h | h | h) | ⟨j, _, h⟩ | h | h
            · exact Ev.noConfusion h
            · obtain rfl := Ev.evalCall.inj h
              rw [hev1] at hstop
              exact absurd (Except.ok.inj hstop) (by simp)
            · exact Ev.noConfusion h
            · exact Ev.noConfusion h
            · exact Ev.noConfusion h
            · exact Ev.noConfusion h
            · exact Ev.noConfusion h
            · exact Ev.noConfusion h
          · -- continue: the stopping evaluation is in the recursive tail
            have hevR : Ev.evalCall k ∈
                (loop cfg cb fuel (samp2.endRound lvls) (ti + dTi) (es + dEs) lvls
                  (k0 + 1)).trace := by
              rcases List.mem_append.1 hev with hH | h1
              · simp only [List.mem_cons, List.not_mem_nil, or_false] at hH
                rcases hH with h | h
                · exact Ev.noConfusion h
                · obtain rfl := Ev.evalCall.inj h
                  rw [hev1] at hstop
                  exact absurd (Except.ok.inj hstop) (by simp)
              · rcases List.mem_append.1 h1 with hH | h2
                · simp only [List.mem_append, List.mem_cons, List.mem_map,
                    List.not_mem_nil, or_false] at hH
                  rcases hH with ((h | h | h) | ⟨j, _, h⟩) | h
                  · exact Ev.noConfusion h
                  · exact Ev.noConfusion h
                  · exact Ev.noConfusion h
                  · exact Ev.noConfusion h
                  · exact Ev.noConfusion h
                · exact h2
            have hk1 : k0 + 1 ≤ k := by
              rcases loop_events cfg cb fuel _ _ _ _ (k0 + 1) _ hevR with hAf | ⟨j, hj, hcy⟩
              · exact Ev.noConfusion hAf
              · injection hcy with h2; omega
            obtain ⟨l1, hl1, hprop⟩ := ih _ _ _ _ (k0 + 1) k hstop hevR
            refine ⟨[Ev.commanderStep k0, Ev.evalCall k0] ++
              (([Ev.collectCall k0 seeds, Ev.trainCall k0, Ev.updateCall k0] ++
                (List.range' 0 cfg.workerCount).map (Ev.weightedSample k0) ++
                [Ev.reseedAssign k0 lvls]) ++ l1), ?_, ?_⟩
            · rw [hl1]
              simp [List.append_assoc]
            · intro j hj
              obtain ⟨hprop1, hprop2⟩ := hprop j hj
              constructor
              · intro s hmem
                simp only [List.mem_append, List.mem_cons, List.mem_map,
                  List.not_mem_nil, or_false] at hmem
                rcases hmem with (h | h) | (((h | h | h) | ⟨j1, _, h⟩) | h) | h
                · exact Ev.noConfusion h
                · exact Ev.noConfusion h
                · have := (Ev.collectCall.inj h).1
                  omega
                · exact Ev.noConfusion h
                · exact Ev.noConfusion h
                · exact Ev.noConfusion h
                · exact Ev.noConfusion h
                · exact hprop1 s h
              · intro hmem
                simp only [List.mem_append, List.mem_cons, List.mem_map,
                  List.not_mem_nil, or_false] at hmem
                rcases hmem with (h | h) | (((h | h | h) | ⟨j1, _, h⟩) | h) | h
                · exact Ev.noConfusion h
                · exact Ev.noConfusion h
                · exact Ev.noConfusion h
                · have := Ev.trainCall.inj h
                  omega
                · exact Ev.noConfusion h
                · exact Ev.noConfusion h
                · exact Ev.noConfusion h
                · exact hprop2 h
    case neg =>
      rcases cyclePost_cases cfg cb samp ti es seeds k0
          (fun s1 t1 e1 sd1 => loop cfg cb fuel s1 t1 e1 sd1 (k0 + 1)) with
        ⟨e, hc, hres⟩ | ⟨dEs, e, hc, ht, hres⟩ | ⟨dEs, dTi, e, hc, ht, hu, hres⟩ |
        ⟨dEs, dTi, wsTr, e, hc, ht, hu, hw, hres⟩ |
        ⟨dEs, dTi, wsTr, lvls, samp2, hc, ht, hu, hw, hstop1, hres⟩ |
        ⟨dEs, dTi, wsTr, lvls, samp2, hc, ht, hu, hw, hstop1, hres⟩ <;>
        simp only [hres, RunRes.prepend_err, RunRes.prepend_okC,
          RunRes.trace_err, RunRes.trace_ok, RunRes.trace_prepend] at hev ⊢
      · simp at hev
      · simp at hev
      · simp at hev
      · obtain ⟨m, _, htr1, _⟩ := weightedRound_err_shape cb k0 _ _ _ _ _ hw
        subst htr1
        simp at hev
      · obtain ⟨htr1, _, _⟩ := weightedRound_ok_shape cb k0 _ _ _ _ _ _ hw
        subst htr1
        simp at hev
      · obtain ⟨htr1, _, _⟩ := weightedRound_ok_shape cb k0 _ _ _ _ _ _ hw
        subst htr1
        have hevR : Ev.evalCall k ∈
            (loop cfg cb fuel (samp2.endRound lvls) (ti + dTi) (es + dEs) lvls
              (k0 + 1)).trace := by
          rcases List.mem_append.1 hev with hH | h1
          · simp at hH
          · rcases List.mem_append.1 h1 with hH | h2
            · simp only [List.mem_append, List.mem_cons, List.mem_map,
                List.not_mem_nil, or_false] at hH
              rcases hH with ((h | h | h) | ⟨j, _, h⟩) | h
              · exact Ev.noConfusion h
              · exact Ev.noConfusion h
              · exact Ev.noConfusion h
              · exact Ev.noConfusion h
              · exact Ev.noConfusion h
            · exact h2
        have hk1 : k0 + 1 ≤ k := by
          rcases loop_events cfg cb fuel _ _ _ _ (k0 + 1) _ hevR with hAf | ⟨j, hj, hcy⟩
          · exact Ev.noConfusion hAf
          · injection hcy with h2; omega
        obtain ⟨l1, hl1, hprop⟩ := ih _ _ _ _ (k0 + 1) k hstop hevR
        refine ⟨[Ev.commanderStep k0] ++
          (([Ev.collectCall k0 seeds, Ev.trainCall k0, Ev.updateCall k0] ++
            (List.range' 0 cfg.workerCount).map (Ev.weightedSample k0) ++
            [Ev.reseedAssign k0 lvls]) ++ l1), ?_, ?_⟩
        · rw [hl1]
          simp [List.append_assoc]
        · intro j hj
          obtain ⟨hprop1, hprop2⟩ := hprop j hj
          constructor
          · intro s hmem
            simp only [List.mem_append, List.mem_cons, List.mem_map,
              List.not_mem_nil, or_false] at hmem
            rcases hmem with h | (((h | h | h) | ⟨j1, _, h⟩) | h) | h
            · exact Ev.noConfusion h
            · have := (Ev.collectCall.inj h).1
              omega
            · exact Ev.noConfusion h
            · exact Ev.noConfusion h
            · exact Ev.noConfusion h
            · exact Ev.noConfusion h
            · exact hprop1 s h
          · intro hmem
            simp only [List.mem_append, List.mem_cons, List.mem_map,
              List.not_mem_nil, or_false] at hmem
            rcases hmem with h | (((h | h | h) | ⟨j1, _, h⟩) | h) | h
            · exact Ev.noConfusion h
            · exact Ev.noConfusion h
            · have := Ev.trainCall.inj h
              omega
            · exact Ev.noConfusion h
            · exact Ev.noConfusion h
            · exact Ev.noConfusion h
            · exact hprop2 h

/-- Claim C4 (evaluator stop cuts the cycle short): in every run of
`serial_pipeline_plr`, if the evaluator of some cycle `k` returns
`stop = True` and it was called, the trace ends immediately after that
evaluation call (followed only by the `after_run` hook), and no
`collector.collect` and no `learner.train` call of cycle `k` or any later
cycle occurs anywhere in the run. -/
theorem serial_plr_evaluator_stop (cfg : Cfg) (cb : Collab) (fuel : Nat) (k : Nat)
    (hstop : cb.evalRes k = .ok true)
    (hev : Ev.evalCall k ∈ (serial_pipeline_plr cfg cb fuel).trace) :
    (∃ l, (serial_pipeline_plr cfg cb fuel).trace = l ++ [Ev.evalCall k, Ev.afterRun]) ∧
    ∀ j, k ≤ j →
      (∀ s, Ev.collectCall j s ∉ (serial_pipeline_plr cfg cb fuel).trace) ∧
      Ev.trainCall j ∉ (serial_pipeline_plr cfg cb fuel).trace := by
  by_cases hw : cfg.workerCount ≤ 500
  · obtain ⟨sampI, hdecomp, _, _⟩ := pipeline_decomp cfg cb fuel hw
    rw [hdecomp] at hev ⊢
    simp only [RunRes.trace_prepend] at hev ⊢
    have hevL : Ev.evalCall k ∈
        (loop cfg cb fuel sampI 0 0 (seqSeeds cfg.workerCount) 0).trace := by
      rcases List.mem_append.1 hev with hP | h
      · simp at hP
      · exact h
    obtain ⟨l1, hl1, hprop⟩ :=
      loop_eval_stop cfg cb fuel sampI 0 0 (seqSeeds cfg.workerCount) 0 k hstop hevL
    constructor
    · refine ⟨(Ev.beforeRun :: (List.range' 0 cfg.workerCount).map Ev.seqSample ++
        [Ev.initAssign (seqSeeds cfg.workerCount)]) ++ l1, ?_⟩
      rw [hl1]
      simp [List.append_assoc]
    · intro j hj
      obtain ⟨hprop1, hprop2⟩ := hprop j hj
      constructor
      · intro s hmem
        rcases List.mem_append.1 hmem with hP | hL
        · simp at hP
        · rw [hl1] at hL
          rcases List.mem_append.1 hL with h1 | h1
          · exact hprop1 s h1
          · simp at h1
      · intro hmem
        rcases List.mem_append.1 hmem with hP | hL
        · simp at hP
        · rw [hl1] at hL
          rcases List.mem_append.1 hL with h1 | h1
          · exact hprop2 h1
          · simp at h1
  · rw [pipeline_exhausted cfg cb fuel (by omega)] at hev
    simp at hev

/-- Witness for C4: a run whose evaluator stops in cycle 0. -/
theorem serial_plr_evaluator_stop_witness :
    (∃ l, (serial_pipeline_plr ⟨2, 0, 0⟩ cbStop 1).trace =
      l ++ [Ev.evalCall 0, Ev.afterRun]) ∧
    Ev.collectCall 0 [0, 1] ∉ (serial_pipeline_plr ⟨2, 0, 0⟩ cbStop 1).trace ∧
    Ev.trainCall 3 ∉ (serial_pipeline_plr ⟨2, 0, 0⟩ cbStop 1).trace := by
  have h := serial_plr_evaluator_stop ⟨2, 0, 0⟩ cbStop 1 0 rfl (by decide)
  exact ⟨h.1, (h.2 0 (by decide)).1 [0, 1], (h.2 3 (by decide)).2⟩

/-- A weighted round whose sample calls all succeed returns successfully. -/
theorem weightedRound_noerr (cb : Collab) (k : Nat)
    (hok : ∀ i, cb.sampleRes k i = .ok ()) :
    ∀ n i samp, ∃ tr lvls s2, weightedRound cb k n i samp = .ok (tr, lvls, s2) := by
  intro n
  induction n with
  | zero => intro i samp; exact ⟨[], [], samp, rfl⟩
  | succ n ih =>
    intro i samp
    obtain ⟨tr, lvls, s2, hrec⟩ := ih (i + 1) (samp.sampleAt (cb.pick k i % samp.pool.length))
    refine ⟨Ev.weightedSample k i :: tr,
      samp.pool.getD (cb.pick k i % samp.pool.length) 0 :: lvls, s2, ?_⟩
    simp only [weightedRound, hok i, hrec]

/-- No event is recorded twice in any pipeline trace. -/
theorem pipeline_count (cfg : Cfg) (cb : Collab) (fuel : Nat) (x : Ev) :
    ((serial_pipeline_plr cfg cb fuel).trace).count x ≤ 1 := by
  by_cases hw : cfg.workerCount ≤ 500
  · obtain ⟨sampI, hdecomp, _, _⟩ := pipeline_decomp cfg cb fuel hw
    rw [hdecomp]
    simp only [RunRes.trace_prepend]
    refine count_append_le_one
      (count_le_one_of_nodup (init_prefix_nodup cfg.workerCount _))
      (fun y => loop_count cfg cb fuel _ _ _ _ _ y) ?_ x
    intro y hy1 hy2
    rcases loop_events cfg cb fuel _ _ _ _ 0 y hy2 with hAf | ⟨j, _, hcy⟩
    · subst hAf
      simp at hy1
    · simp only [List.mem_append, List.mem_cons, List.mem_map, List.not_mem_nil,
        or_false] at hy1
      rcases hy1 with (rfl | ⟨j1, _, rfl⟩) | rfl
      · exact Option.noConfusion hcy
      · exact Option.noConfusion hcy
      · exact Option.noConfusion hcy
  · rw [pipeline_exhausted cfg cb fuel (by omega)]
    refine count_le_one_of_nodup ?_ x
    refine List.nodup_cons.2 ⟨?_, List.Nodup.map seqSample_inj (List.nodup_range' 0 501)⟩
    simp

/-- Claim C3 (termination on the train-iteration limit): in a run with
`max_train_iter = 1` whose evaluator never signals stop and whose
collaborators raise no error (and whose worker count fits the pool), the
loop performs the Learn phase (`learner.train` and
`level_sampler.update_with_rollouts`) exactly once, in cycle 0, then exits
at the following stop-condition check regardless of `max_env_step`, runs
the learner's `after_run` hook last, and returns the policy normally. -/
theorem serial_plr_train_iter_limit (cfg : Cfg) (cb : Collab) (fuel : Nat)
    (hmt : cfg.maxTrainIter = 1) (hne : cb.NoErrors) (hns : cb.NeverStops)
    (htInc : ∀ k d, cb.trainRes k = .ok d → 1 ≤ d)
    (hfuel : 1 ≤ fuel) (hw : cfg.workerCount ≤ 500) :
    ∃ tr fin, serial_pipeline_plr cfg cb fuel = .ok tr fin ∧
      tr.count (Ev.trainCall 0) = 1 ∧ tr.count (Ev.updateCall 0) = 1 ∧
      (∀ k, 1 ≤ k → Ev.trainCall k ∉ tr ∧ Ev.updateCall k ∉ tr) ∧
      tr.getLast? = some Ev.afterRun := by
  obtain ⟨sampI, hdecomp, hpool, _⟩ := pipeline_decomp cfg cb fuel hw
  obtain ⟨f, rfl⟩ : ∃ f, fuel = f + 1 := ⟨fuel - 1, by omega⟩
  obtain ⟨dE, hc⟩ := hne.2.1 0
  obtain ⟨dT, ht⟩ := hne.2.2.1 0
  have hu := hne.2.2.2.1 0
  have hev0 := hns 0
  obtain ⟨wtr, lvls, s2, hwr⟩ := weightedRound_noerr cb 0 (fun i => hne.2.2.2.2 0 i)
    cfg.workerCount 0 (sampI.updateWithRollouts (seqSeeds cfg.workerCount) (cb.potentials 0))
  obtain ⟨hwtr, _, _⟩ := weightedRound_ok_shape cb 0 _ _ _ _ _ _ hwr
  subst hwtr
  have hstop : cfg.maxEnvStep ≤ 0 + dE ∨ cfg.maxTrainIter ≤ 0 + dT :=
    Or.inr (by have := htInc 0 dT ht; rw [hmt]; omega)
  have hcp : cyclePost cfg cb sampI 0 0 (seqSeeds cfg.workerCount) 0
      (fun s1 t1 e1 sd1 => loop cfg cb f s1 t1 e1 sd1 1) =
      .ok (([Ev.collectCall 0 (seqSeeds cfg.workerCount), Ev.trainCall 0,
        Ev.updateCall 0] ++ (List.range' 0 cfg.workerCount).map (Ev.weightedSample 0) ++
        [Ev.reseedAssign 0 lvls]) ++ [Ev.afterRun])
        ⟨s2.endRound lvls, 0 + dT, 0 + dE, lvls⟩ := by
    simp only [cyclePost, hc, ht, hu, hwr, if_pos hstop]
  by_cases hse : cb.shouldEval 0
  · have hloop : loop cfg cb (f + 1) sampI 0 0 (seqSeeds cfg.workerCount) 0 =
        .ok ([Ev.commanderStep 0, Ev.evalCall 0] ++
          (([Ev.collectCall 0 (seqSeeds cfg.workerCount), Ev.trainCall 0,
            Ev.updateCall 0] ++
            (List.range' 0 cfg.workerCount).map (Ev.weightedSample 0) ++
            [Ev.reseedAssign 0 lvls]) ++ [Ev.afterRun]))
          ⟨s2.endRound lvls, 0 + dT, 0 + dE, lvls⟩ := by
      simp only [loop, if_pos hse, hev0, hcp, RunRes.prepend_okC]
    refine ⟨_, _, by rw [hdecomp, hloop]; rfl, ?_, ?_, ?_, ?_⟩
    · have hmem : Ev.trainCall 0 ∈ ((Ev.beforeRun ::
          (List.range' 0 cfg.workerCount).map Ev.seqSample ++
          [Ev.initAssign (seqSeeds cfg.workerCount)]) ++
          ([Ev.commanderStep 0, Ev.evalCall 0] ++
          (([Ev.collectCall 0 (seqSeeds cfg.workerCount), Ev.trainCall 0,
            Ev.updateCall 0] ++
            (List.range' 0 cfg.workerCount).map (Ev.weightedSample 0) ++
            [Ev.reseedAssign 0 lvls]) ++ [Ev.afterRun]))) := by simp
      have hle := pipeline_count cfg cb (f + 1) (Ev.trainCall 0)
      rw [hdecomp, hloop] at hle
      simp only [RunRes.trace_prepend, RunRes.trace_ok] at hle
      have hpos := List.count_pos_iff.2 hmem
      omega
    · have hmem : Ev.updateCall 0 ∈ ((Ev.beforeRun ::
          (List.range' 0 cfg.workerCount).map Ev.seqSample ++
          [Ev.initAssign (seqSeeds cfg.workerCount)]) ++
          ([Ev.commanderStep 0, Ev.evalCall 0] ++
          (([Ev.collectCall 0 (seqSeeds cfg.workerCount), Ev.trainCall 0,
            Ev.updateCall 0] ++
            (List.range' 0 cfg.workerCount).map (Ev.weightedSample 0) ++
            [Ev.reseedAssign 0 lvls]) ++ [Ev.afterRun]))) := by simp
      have hle := pipeline_count cfg cb (f + 1) (Ev.updateCall 0)
      rw [hdecomp, hloop] at hle
      simp only [RunRes.trace_prepend, RunRes.trace_ok] at hle
      have hpos := List.count_pos_iff.2 hmem
      omega
    · intro k hk
      constructor
      · intro hmem
        simp at hmem
        omega
      · intro hmem
        simp at hmem
        omega
    · have hre : ((Ev.beforeRun ::
          (List.range' 0 cfg.workerCount).map Ev.seqSample ++
          [Ev.initAssign (seqSeeds cfg.workerCount)]) ++
          ([Ev.commanderStep 0, Ev.evalCall 0] ++
          (([Ev.collectCall 0 (seqSeeds cfg.workerCount), Ev.trainCall 0,
            Ev.updateCall 0] ++
            (List.range' 0 cfg.workerCount).map (Ev.weightedSample 0) ++
            [Ev.reseedAssign 0 lvls]) ++ [Ev.afterRun]))) =
          (((Ev.beforeRun :: (List.range' 0 cfg.workerCount).map Ev.seqSample ++
          [Ev.initAssign (seqSeeds cfg.workerCount)]) ++
          ([Ev.commanderStep 0, Ev.evalCall 0] ++
          ([Ev.collectCall 0 (seqSeeds cfg.workerCount), Ev.trainCall 0,
            Ev.updateCall 0] ++
            (List.range' 0 cfg.workerCount).map (Ev.weightedSample 0) ++
            [Ev.reseedAssign 0 lvls]))) ++ [Ev.afterRun]) := by
        simp
      rw [hre, List.getLast?_concat]
  · have hloop : loop cfg cb (f + 1) sampI 0 0 (seqSeeds cfg.workerCount) 0 =
        .ok ([Ev.commanderStep 0] ++
          (([Ev.collectCall 0 (seqSeeds cfg.workerCount), Ev.trainCall 0,
            Ev.updateCall 0] ++
            (List.range' 0 cfg.workerCount).map (Ev.weightedSample 0) ++
            [Ev.reseedAssign 0 lvls]) ++ [Ev.afterRun]))
          ⟨s2.endRound lvls, 0 + dT, 0 + dE, lvls⟩ := by
      simp only [loop, if_neg hse, hcp, RunRes.prepend_okC]
    refine ⟨_, _, by rw [hdecomp, hloop]; rfl, ?_, ?_, ?_, ?_⟩
    · have hmem : Ev.trainCall 0 ∈ ((Ev.beforeRun ::
          (List.range' 0 cfg.workerCount).map Ev.seqSample ++
          [Ev.initAssign (seqSeeds cfg.workerCount)]) ++
          ([Ev.commanderStep 0] ++
          (([Ev.collectCall 0 (seqSeeds cfg.workerCount), Ev.trainCall 0,
            Ev.updateCall 0] ++
            (List.range' 0 cfg.workerCount).map (Ev.weightedSample 0) ++
            [Ev.reseedAssign 0 lvls]) ++ [Ev.afterRun]))) := by simp
      have hle := pipeline_count cfg cb (f + 1) (Ev.trainCall 0)
      rw [hdecomp, hloop] at hle
      simp only [RunRes.trace_prepend, RunRes.trace_ok] at hle
      have hpos := List.count_pos_iff.2 hmem
      omega
    · have hmem : Ev.updateCall 0 ∈ ((Ev.beforeRun ::
          (List.range' 0 cfg.workerCount).map Ev.seqSample ++
          [Ev.initAssign (seqSeeds cfg.workerCount)]) ++
          ([Ev.commanderStep 0] ++
          (([Ev.collectCall 0 (seqSeeds cfg.workerCount), Ev.trainCall 0,
            Ev.updateCall 0] ++
            (List.range' 0 cfg.workerCount).map (Ev.weightedSample 0) ++
            [Ev.reseedAssign 0 lvls]) ++ [Ev.afterRun]))) := by simp
      have hle := pipeline_count cfg cb (f + 1) (Ev.updateCall 0)
      rw [hdecomp, hloop] at hle
      simp only [RunRes.trace_prepend, RunRes.trace_ok] at hle
      have hpos := List.count_pos_iff.2 hmem
      omega
    · intro k hk
      constructor
      · intro hmem
        simp at hmem
        omega
      · intro hmem
        simp at hmem
        omega
    · have hre : ((Ev.beforeRun ::
          (List.range' 0 cfg.workerCount).map Ev.seqSample ++
          [Ev.initAssign (seqSeeds cfg.workerCount)]) ++
          ([Ev.commanderStep 0] ++
          (([Ev.collectCall 0 (seqSeeds cfg.workerCount), Ev.trainCall 0,
            Ev.updateCall 0] ++
            (List.range' 0 cfg.workerCount).map (Ev.weightedSample 0) ++
            [Ev.reseedAssign 0 lvls]) ++ [Ev.afterRun]))) =
          (((Ev.beforeRun :: (List.range' 0 cfg.workerCount).map Ev.seqSample ++
          [Ev.initAssign (seqSeeds cfg.workerCount)]) ++
          ([Ev.commanderStep 0] ++
          ([Ev.collectCall 0 (seqSeeds cfg.workerCount), Ev.trainCall 0,
            Ev.updateCall 0] ++
            (List.range' 0 cfg.workerCount).map (Ev.weightedSample 0) ++
            [Ev.reseedAssign 0 lvls]))) ++ [Ev.afterRun]) := by
        simp
      rw [hre, List.getLast?_concat]

/-- Witness for C3: a concrete run with `max_train_iter = 1` and a large
`max_env_step`. -/
theorem serial_plr_train_iter_limit_witness :
    ∃ tr fin, serial_pipeline_plr ⟨2, 1000000, 1⟩ cbStub 5 = .ok tr fin ∧
      tr.count (Ev.trainCall 0) = 1 ∧ tr.count (Ev.updateCall 0) = 1 ∧
      (∀ k, 1 ≤ k → Ev.trainCall k ∉ tr ∧ Ev.updateCall k ∉ tr) ∧
      tr.getLast? = some Ev.afterRun :=
  serial_plr_train_iter_limit ⟨2, 1000000, 1⟩ cbStub 5 rfl
    ⟨fun _ => ⟨false, rfl⟩, fun _ => ⟨1, rfl⟩, fun _ => ⟨1, rfl⟩, fun _ => rfl,
      fun _ _ => rfl⟩
    (fun _ => rfl)
    (fun _ d h => by injection h with h1; omega)
    (by omega) (by decide)

/-- Claim C9 (stop limits cannot prevent the first cycle): the counter stop
condition is only checked at the end of a cycle, so for every
configuration, in particular `max_train_iter = 0` and `max_env_step = 0`,
a full Collect and Learn phase of cycle 0 executes whenever the evaluator
does not signal stop in cycle 0 and no collaborator errors. -/
theorem serial_plr_first_cycle_always_runs (cfg : Cfg) (cb : Collab) (fuel : Nat)
    (hne : cb.NoErrors)
    (hfirst : cb.shouldEval 0 = true → cb.evalRes 0 = .ok false)
    (hfuel : 1 ≤ fuel) (hw : cfg.workerCount ≤ 500) :
    ∃ s, Ev.collectCall 0 s ∈ (serial_pipeline_plr cfg cb fuel).trace ∧
      Ev.trainCall 0 ∈ (serial_pipeline_plr cfg cb fuel).trace ∧
      Ev.updateCall 0 ∈ (serial_pipeline_plr cfg cb fuel).trace := by
  obtain ⟨sampI, hdecomp, _, _⟩ := pipeline_decomp cfg cb fuel hw
  obtain ⟨f, rfl⟩ : ∃ f, fuel = f + 1 := ⟨fuel - 1, by omega⟩
  rw [hdecomp]
  simp only [RunRes.trace_prepend]
  refine ⟨seqSeeds cfg.workerCount, ?_⟩
  have hsuff : Ev.collectCall 0 (seqSeeds cfg.workerCount) ∈
      (loop cfg cb (f + 1) sampI 0 0 (seqSeeds cfg.workerCount) 0).trace ∧
      Ev.trainCall 0 ∈
        (loop cfg cb (f + 1) sampI 0 0 (seqSeeds cfg.workerCount) 0).trace ∧
      Ev.updateCall 0 ∈
        (loop cfg cb (f + 1) sampI 0 0 (seqSeeds cfg.workerCount) 0).trace := by
    simp only [loop]
    by_cases hse : cb.shouldEval 0 <;>
      [simp only [if_pos hse, hfirst hse]; simp only [if_neg hse]] <;>
      rcases cyclePost_cases cfg cb sampI 0 0 (seqSeeds cfg.workerCount) 0
        (fun s1 t1 e1 sd1 => loop cfg cb f s1 t1 e1 sd1 1) with
      ⟨e, hc, hres⟩ | ⟨dEs, e, hc, ht, hres⟩ | ⟨dEs, dTi, e, hc, ht, hu, hres⟩ |
      ⟨dEs, dTi, wsTr, e, hc, ht, hu, hw1, hres⟩ |
      ⟨dEs, dTi, wsTr, lvls, samp2, hc, ht, hu, hw1, hstop1, hres⟩ |
      ⟨dEs, dTi, wsTr, lvls, samp2, hc, ht, hu, hw1, hstop1, hres⟩
    · obtain ⟨d, hd⟩ := hne.2.1 0; rw [hd] at hc; exact Except.noConfusion hc
    · obtain ⟨d, hd⟩ := hne.2.2.1 0; rw [hd] at ht; exact Except.noConfusion ht
    · have hd := hne.2.2.2.1 0; rw [hd] at hu; exact Except.noConfusion hu
    · obtain ⟨tr1, lvls1, s21, hd⟩ := weightedRound_noerr cb 0 (fun i => hne.2.2.2.2 0 i)
        cfg.workerCount 0 (sampI.updateWithRollouts (seqSeeds cfg.workerCount)
          (cb.potentials 0))
      rw [hd] at hw1
      exact Except.noConfusion hw1
    · rw [hres]
      refine ⟨by simp, by simp, by simp⟩
    · rw [hres]
      refine ⟨by simp, by simp, by simp⟩
    · obtain ⟨d, hd⟩ := hne.2.1 0; rw [hd] at hc; exact Except.noConfusion hc
    · obtain ⟨d, hd⟩ := hne.2.2.1 0; rw [hd] at ht; exact Except.noConfusion ht
    · have hd := hne.2.2.2.1 0; rw [hd] at hu; exact Except.noConfusion hu
    · obtain ⟨tr1, lvls1, s21, hd⟩ := weightedRound_noerr cb 0 (fun i => hne.2.2.2.2 0 i)
        cfg.workerCount 0 (sampI.updateWithRollouts (seqSeeds cfg.workerCount)
          (cb.potentials 0))
      rw [hd] at hw1
      exact Except.noConfusion hw1
    · rw [hres]
      refine ⟨by simp, by simp, by simp⟩
    · rw [hres]
      refine ⟨by simp, by simp, by simp⟩
  exact ⟨List.mem_append.2 (Or.inr hsuff.1), List.mem_append.2 (Or.inr hsuff.2.1),
    List.mem_append.2 (Or.inr hsuff.2.2)⟩

/-- Witness for C9: the stub run with both maxima set to 0. -/
theorem serial_plr_first_cycle_always_runs_witness :
    ∃ s, Ev.collectCall 0 s ∈ (serial_pipeline_plr ⟨2, 0, 0⟩ cbStub 1).trace ∧
      Ev.trainCall 0 ∈ (serial_pipeline_plr ⟨2, 0, 0⟩ cbStub 1).trace ∧
      Ev.updateCall 0 ∈ (serial_pipeline_plr ⟨2, 0, 0⟩ cbStub 1).trace :=
  serial_plr_first_cycle_always_runs ⟨2, 0, 0⟩ cbStub 1
    ⟨fun _ => ⟨false, rfl⟩, fun _ => ⟨1, rfl⟩, fun _ => ⟨1, rfl⟩, fun _ => rfl,
      fun _ _ => rfl⟩
    (fun _ => rfl) (by omega) (by decide)

/-- A loop run that terminates normally with an evaluator that never
signals stop terminated through the counter check, and its trace ends with
a complete final cycle: collect, train, score update, a full weighted
reseeding round, the environment reassignment carrying the final
assignment, and only the `after_run` hook after it. -/
theorem loop_counter_stop_shape (cfg : Cfg) (cb : Collab)
    (hne : cb.NoErrors) (hns : cb.NeverStops) :
    ∀ fuel samp ti es seeds k tr fin,
      loop cfg cb fuel samp ti es seeds k = .ok tr fin →
      ∃ k1 s1 l, tr = l ++
        (([Ev.collectCall k1 s1, Ev.trainCall k1, Ev.updateCall k1] ++
          (List.range' 0 cfg.workerCount).map (Ev.weightedSample k1) ++
          [Ev.reseedAssign k1 fin.seeds]) ++ [Ev.afterRun]) := by
  intro fuel
  induction fuel with
  | zero => intro samp ti es seeds k tr fin h; exact RunRes.noConfusion h
  | succ fuel ih =>
    intro samp ti es seeds k tr fin h
    simp only [loop] at h
    by_cases hse : cb.shouldEval ti <;>
      [simp only [if_pos hse, hns k] at h; simp only [if_neg hse] at h] <;>
      rcases cyclePost_cases cfg cb samp ti es seeds k
        (fun s1 t1 e1 sd1 => loop cfg cb fuel s1 t1 e1 sd1 (k + 1)) with
      ⟨e, hc, hres⟩ | ⟨dEs, e, hc, ht, hres⟩ | ⟨dEs, dTi, e, hc, ht, hu, hres⟩ |
      ⟨dEs, dTi, wsTr, e, hc, ht, hu, hw1, hres⟩ |
      ⟨dEs, dTi, wsTr, lvls, samp2, hc, ht, hu, hw1, hstop1, hres⟩ |
      ⟨dEs, dTi, wsTr, lvls, samp2, hc, ht, hu, hw1, hstop1, hres⟩ <;>
      rw [hres] at h
    · exact RunRes.noConfusion h
    · exact RunRes.noConfusion h
    · exact RunRes.noConfusion h
    · exact RunRes.noConfusion h
    · simp only [RunRes.prepend_okC] at h
      obtain ⟨htr, hfin⟩ := RunRes.ok.inj h
      subst htr hfin
      obtain ⟨htr1, _, _⟩ := weightedRound_ok_shape cb k _ _ _ _ _ _ hw1
      subst htr1
      exact ⟨k, seeds, [Ev.commanderStep k, Ev.evalCall k], by simp⟩
    · cases hrec : loop cfg cb fuel (samp2.endRound lvls) (ti + dTi) (es + dEs) lvls
          (k + 1) with
      | err tr1 e1 => rw [hrec] at h; exact RunRes.noConfusion h
      | fuelOut tr1 f1 => rw [hrec] at h; exact RunRes.noConfusion h
      | ok tr1 f1 =>
        rw [hrec] at h
        simp only [RunRes.prepend_okC] at h
        obtain ⟨htr, hfin⟩ := RunRes.ok.inj h
        subst htr hfin
        obtain ⟨k1, s1, l1, hl1⟩ := ih _ _ _ _ _ _ _ hrec
        obtain ⟨htr1, _, _⟩ := weightedRound_ok_shape cb k _ _ _ _ _ _ hw1
        subst htr1
        refine ⟨k1, s1, [Ev.commanderStep k, Ev.evalCall k] ++
          (([Ev.collectCall k seeds, Ev.trainCall k, Ev.updateCall k] ++
            (List.range' 0 cfg.workerCount).map (Ev.weightedSample k) ++
            [Ev.reseedAssign k lvls]) ++ l1), ?_⟩
        rw [hl1]
        simp [List.append_assoc]
    · exact RunRes.noConfusion h
    · exact RunRes.noConfusion h
    · exact RunRes.noConfusion h
    · exact RunRes.noConfusion h
    · simp only [RunRes.prepend_okC] at h
      obtain ⟨htr, hfin⟩ := RunRes.ok.inj h
      subst htr hfin
      obtain ⟨htr1, _, _⟩ := weightedRound_ok_shape cb k _ _ _ _ _ _ hw1
      subst htr1
      exact ⟨k, seeds, [Ev.commanderStep k], by simp⟩
    · cases hrec : loop cfg cb fuel (samp2.endRound lvls) (ti + dTi) (es + dEs) lvls
          (k + 1) with
      | err tr1 e1 => rw [hrec] at h; exact RunRes.noConfusion h
      | fuelOut tr1 f1 => rw [hrec] at h; exact RunRes.noConfusion h
      | ok tr1 f1 =>
        rw [hrec] at h
        simp only [RunRes.prepend_okC] at h
        obtain ⟨htr, hfin⟩ := RunRes.ok.inj h
        subst htr hfin
        obtain ⟨k1, s1, l1, hl1⟩ := ih _ _ _ _ _ _ _ hrec
        obtain ⟨htr1, _, _⟩ := weightedRound_ok_shape cb k _ _ _ _ _ _ hw1
        subst htr1
        refine ⟨k1, s1, [Ev.commanderStep k] ++
          (([Ev.collectCall k seeds, Ev.trainCall k, Ev.updateCall k] ++
            (List.range' 0 cfg.workerCount).map (Ev.weightedSample k) ++
            [Ev.reseedAssign k lvls]) ++ l1), ?_⟩
        rw [hl1]
        simp [List.append_assoc]

/-- Claim C10 (a final uncollected reseed): every run of
`serial_pipeline_plr` that terminates via the counter stop condition (the
evaluator never signals stop, no collaborator errors) still executes the
Reseed phase of its last cycle after the final Learn: after the last
`update_with_rollouts` call come exactly `workerCount` more weighted
sample calls and the environment reassignment with the resulting (final)
assignment, followed only by the `after_run` hook, so no collect or score
update ever consumes that last assignment. -/
theorem serial_plr_dangling_reseed (cfg : Cfg) (cb : Collab) (fuel : Nat)
    (tr : List Ev) (fin : LoopFin) (hne : cb.NoErrors) (hns : cb.NeverStops)
    (hok : serial_pipeline_plr cfg cb fuel = .ok tr fin) :
    ∃ k s l, tr = l ++
      (([Ev.collectCall k s, Ev.trainCall k, Ev.updateCall k] ++
        (List.range' 0 cfg.workerCount).map (Ev.weightedSample k) ++
        [Ev.reseedAssign k fin.seeds]) ++ [Ev.afterRun]) := by
  by_cases hw : cfg.workerCount ≤ 500
  · obtain ⟨sampI, hdecomp, _, _⟩ := pipeline_decomp cfg cb fuel hw
    rw [hdecomp] at hok
    cases hrec : loop cfg cb fuel sampI 0 0 (seqSeeds cfg.workerCount) 0 with
    | err tr1 e1 => rw [hrec] at hok; exact RunRes.noConfusion hok
    | fuelOut tr1 f1 => rw [hrec] at hok; exact RunRes.noConfusion hok
    | ok tr1 f1 =>
      rw [hrec] at hok
      simp only [RunRes.prepend_okC] at hok
      obtain ⟨htr, hfin⟩ := RunRes.ok.inj hok
      subst htr hfin
      obtain ⟨k1, s1, l1, hl1⟩ := loop_counter_stop_shape cfg cb hne hns fuel
        sampI 0 0 (seqSeeds cfg.workerCount) 0 tr1 f1 hrec
      refine ⟨k1, s1, (Ev.beforeRun ::
        (List.range' 0 cfg.workerCount).map Ev.seqSample ++
        [Ev.initAssign (seqSeeds cfg.workerCount)]) ++ l1, ?_⟩
      rw [hl1]
      simp [List.append_assoc]
  · rw [pipeline_exhausted cfg cb fuel (by omega)] at hok
    exact RunRes.noConfusion hok

/-- Witness for C10: the single-cycle stub run stopped by its zero maxima. -/
theorem serial_plr_dangling_reseed_witness :
    ∃ tr fin k s l, serial_pipeline_plr ⟨2, 0, 0⟩ cbStub 1 = .ok tr fin ∧
      tr = l ++ (([Ev.collectCall k s, Ev.trainCall k, Ev.updateCall k] ++
        (List.range' 0 2).map (Ev.weightedSample k) ++
        [Ev.reseedAssign k fin.seeds]) ++ [Ev.afterRun]) := by
  have hisok : (serial_pipeline_plr ⟨2, 0, 0⟩ cbStub 1).isOk = true := by decide
  cases h : serial_pipeline_plr ⟨2, 0, 0⟩ cbStub 1 with
  | ok tr fin =>
    obtain ⟨k, s, l, hl⟩ := serial_plr_dangling_reseed ⟨2, 0, 0⟩ cbStub 1 tr fin
      ⟨fun _ => ⟨false, rfl⟩, fun _ => ⟨1, rfl⟩, fun _ => ⟨1, rfl⟩, fun _ => rfl,
        fun _ _ => rfl⟩ (fun _ => rfl) h
    exact ⟨tr, fin, k, s, l, rfl, hl⟩
  | err tr e => rw [h] at hisok; exact Bool.noConfusion hisok
  | fuelOut tr fin => rw [h] at hisok; exact Bool.noConfusion hisok

theorem seqSeeds_length (w : Nat) : (seqSeeds w).length = w := by
  simp [seqSeeds]

theorem pickSeeds_length (cb : Collab) (k w : Nat) : (pickSeeds cb k w).length = w := by
  simp [pickSeeds]

/-- Every reseeding assignment recorded by the loop carries exactly the
levels returned by that cycle's weighted sample calls, in call order. -/
theorem loop_reseed_payload (cfg : Cfg) (cb : Collab) :
    ∀ fuel samp ti es seeds k0, samp.pool = generate_seeds →
      ∀ k s, Ev.reseedAssign k s ∈ (loop cfg cb fuel samp ti es seeds k0).trace →
        s = pickSeeds cb k cfg.workerCount := by
  intro fuel
  induction fuel with
  | zero => intro samp ti es seeds k0 _ k s hmem; simp [loop] at hmem
  | succ fuel ih =>
    intro samp ti es seeds k0 hpool k s hmem
    simp only [loop] at hmem
    by_cases hse : cb.shouldEval ti <;>
      [simp only [if_pos hse] at hmem; simp only [if_neg hse] at hmem]
    case pos =>
      cases hev1 : cb.evalRes k0 with
      | error e => simp only [hev1] at hmem; simp at hmem
      | ok b =>
        cases b with
        | true => simp only [hev1] at hmem; simp at hmem
        | false =>
          rcases cyclePost_cases cfg cb samp ti es seeds k0
              (fun s1 t1 e1 sd1 => loop cfg cb fuel s1 t1 e1 sd1 (k0 + 1)) with
            ⟨e, hc, hres⟩ | ⟨dEs, e, hc, ht, hres⟩ | ⟨dEs, dTi, e, hc, ht, hu, hres⟩ |
            ⟨dEs, dTi, wsTr, e, hc, ht, hu, hw1, hres⟩ |
            ⟨dEs, dTi, wsTr, lvls, samp2, hc, ht, hu, hw1, hstop1, hres⟩ |
            ⟨dEs, dTi, wsTr, lvls, samp2, hc, ht, hu, hw1, hstop1, hres⟩ <;>
            simp only [hev1, hres, RunRes.prepend_err, RunRes.prepend_okC,
              RunRes.trace_err, RunRes.trace_ok, RunRes.trace_prepend] at hmem
          · simp at hmem
          · simp at hmem
          · simp at hmem
          · obtain ⟨m, _, htr1, _⟩ := weightedRound_err_shape cb k0 _ _ _ _ _ hw1
            subst htr1
            simp at hmem
          · obtain ⟨htr1, hlvls, _⟩ := weightedRound_ok_shape cb k0 _ _ _ _ _ _ hw1
            subst htr1
            simp only [List.append_assoc, List.mem_append, List.mem_cons, List.mem_map,
              List.not_mem_nil, or_false] at hmem
            rcases hmem with (h | h) | (h | h | h) | ⟨j, _, h⟩ | h | h
            · exact Ev.noConfusion h
            · exact Ev.noConfusion h
            · exact Ev.noConfusion h
            · exact Ev.noConfusion h
            · exact Ev.noConfusion h
            · exact Ev.noConfusion h
            · obtain ⟨rfl, rfl⟩ := Ev.reseedAssign.inj h
              rw [hlvls]
              unfold pickSeeds
              simp [LevelSampler.updateWithRollouts_pool, hpool]
            · exact Ev.noConfusion h
          · obtain ⟨htr1, hlvls, hpool2⟩ := weightedRound_ok_shape cb k0 _ _ _ _ _ _ hw1
            subst htr1
            rw [List.append_assoc, List.append_assoc] at hmem
            rcases List.mem_append.1 hmem with hH | hmem1
            · simp at hH
            · rw [← List.append_assoc] at hmem1
              rcases List.mem_append.1 hmem1 with hH | hmem2
              · simp only [List.mem_append, List.mem_cons, List.mem_map,
                  List.not_mem_nil, or_false] at hH
                rcases hH with (h | h | h) | ⟨j, _, h⟩
                · exact Ev.noConfusion h
                · exact Ev.noConfusion h
                · exact Ev.noConfusion h
                · exact Ev.noConfusion h
              · rcases List.mem_append.1 hmem2 with hH | hR
                · simp only [List.mem_cons, List.not_mem_nil, or_false] at hH
                  obtain ⟨rfl, rfl⟩ := Ev.reseedAssign.inj hH
                  rw [hlvls]
                  unfold pickSeeds
                  simp [LevelSampler.updateWithRollouts_pool, hpool]
                · refine ih _ _ _ _ (k0 + 1) ?_ k s hR
                  rw [LevelSampler.endRound_pool, hpool2,
                    LevelSampler.updateWithRollouts_pool, hpool]
    case neg =>
      rcases cyclePost_cases cfg cb samp ti es seeds k0
          (fun s1 t1 e1 sd1 => loop cfg cb fuel s1 t1 e1 sd1 (k0 + 1)) with
        ⟨e, hc, hres⟩ | ⟨dEs, e, hc, ht, hres⟩ | ⟨dEs, dTi, e, hc, ht, hu, hres⟩ |
        ⟨dEs, dTi, wsTr, e, hc, ht, hu, hw1, hres⟩ |
        ⟨dEs, dTi, wsTr, lvls, samp2, hc, ht, hu, hw1, hstop1, hres⟩ |
        ⟨dEs, dTi, wsTr, lvls, samp2, hc, ht, hu, hw1, hstop1, hres⟩ <;>
        simp only [hres, RunRes.prepend_err, RunRes.prepend_okC,
          RunRes.trace_err, RunRes.trace_ok, RunRes.trace_prepend] at hmem
      · simp at hmem
      · simp at hmem
      · simp at hmem
      · obtain ⟨m, _, htr1, _⟩ := weightedRound_err_shape cb k0 _ _ _ _ _ hw1
        subst htr1
        simp at hmem
      · obtain ⟨htr1, hlvls, _⟩ := weightedRound_ok_shape cb k0 _ _ _ _ _ _ hw1
        subst htr1
        simp only [List.append_assoc, List.mem_append, List.mem_cons, List.mem_map,
          List.not_mem_nil, or_false] at hmem
        rcases hmem with h | (h | h | h) | ⟨j, _, h⟩ | h | h
        · exact Ev.noConfusion h
        · exact Ev.noConfusion h
        · exact Ev.noConfusion h
        · exact Ev.noConfusion h
        · exact Ev.noConfusion h
        · obtain ⟨rfl, rfl⟩ := Ev.reseedAssign.inj h
          rw [hlvls]
          unfold pickSeeds
          simp [LevelSampler.updateWithRollouts_pool, hpool]
        · exact Ev.noConfusion h
      · obtain ⟨htr1, hlvls, hpool2⟩ := weightedRound_ok_shape cb k0 _ _ _ _ _ _ hw1
        subst htr1
        rw [List.append_assoc, List.append_assoc] at hmem
        rcases List.mem_append.1 hmem with hH | hmem1
        · simp at hH
        · rw [← List.append_assoc] at hmem1
          rcases List.mem_append.1 hmem1 with hH | hmem2
          · simp only [List.mem_append, List.mem_cons, List.mem_map,
              List.not_mem_nil, or_false] at hH
            rcases hH with (h | h | h) | ⟨j, _, h⟩
            · exact Ev.noConfusion h
            · exact Ev.noConfusion h
            · exact Ev.noConfusion h
            · exact Ev.noConfusion h
          · rcases List.mem_append.1 hmem2 with hH | hR
            · simp only [List.mem_cons, List.not_mem_nil, or_false] at hH
              obtain ⟨rfl, rfl⟩ := Ev.reseedAssign.inj hH
              rw [hlvls]
              unfold pickSeeds
              simp [LevelSampler.updateWithRollouts_pool, hpool]
            · refine ih _ _ _ _ (k0 + 1) ?_ k s hR
              rw [LevelSampler.endRound_pool, hpool2,
                LevelSampler.updateWithRollouts_pool, hpool]

/-- Each cycle's collect call carries the initial sequential seeds (cycle
equal to the starting index) or the previous cycle's weighted reseed. -/
theorem loop_collect_payload (cfg : Cfg) (cb : Collab) :
    ∀ fuel samp ti es seeds k0, samp.pool = generate_seeds →
      ∀ k s, Ev.collectCall k s ∈ (loop cfg cb fuel samp ti es seeds k0).trace →
        (k = k0 ∧ s = seeds) ∨
          (k0 + 1 ≤ k ∧ s = pickSeeds cb (k - 1) cfg.workerCount) := by
  intro fuel
  induction fuel with
  | zero => intro samp ti es seeds k0 _ k s hmem; simp [loop] at hmem
  | succ fuel ih =>
    intro samp ti es seeds k0 hpool k s hmem
    simp only [loop] at hmem
    by_cases hse : cb.shouldEval ti <;>
      [simp only [if_pos hse] at hmem; simp only [if_neg hse] at hmem]
    case pos =>
      cases hev1 : cb.evalRes k0 with
      | error e => simp only [hev1] at hmem; simp at hmem
      | ok b =>
        cases b with
        | true => simp only [hev1] at hmem; simp at hmem
        | false =>
          rcases cyclePost_cases cfg cb samp ti es seeds k0
              (fun s1 t1 e1 sd1 => loop cfg cb fuel s1 t1 e1 sd1 (k0 + 1)) with
            ⟨e, hc, hres⟩ | ⟨dEs, e, hc, ht, hres⟩ | ⟨dEs, dTi, e, hc, ht, hu, hres⟩ |
            ⟨dEs, dTi, wsTr, e, hc, ht, hu, hw1, hres⟩ |
            ⟨dEs, dTi, wsTr, lvls, samp2, hc, ht, hu, hw1, hstop1, hres⟩ |
            ⟨dEs, dTi, wsTr, lvls, samp2, hc, ht, hu, hw1, hstop1, hres⟩ <;>
            simp only [hev1, hres, RunRes.prepend_err, RunRes.prepend_okC,
              RunRes.trace_err, RunRes.trace_ok, RunRes.trace_prepend] at hmem
          · simp only [List.mem_cons, List.mem_append, List.not_mem_nil,
              or_false] at hmem
            rcases hmem with (h | h) | h
            · exact Ev.noConfusion h
            · exact Ev.noConfusion h
            · obtain ⟨rfl, rfl⟩ := Ev.collectCall.inj h
              exact Or.inl ⟨rfl, rfl⟩
          · simp only [List.mem_cons, List.mem_append, List.not_mem_nil,
              or_false] at hmem
            rcases hmem with (h | h) | h | h
            · exact Ev.noConfusion h
            · exact Ev.noConfusion h
            · obtain ⟨rfl, rfl⟩ := Ev.collectCall.inj h
              exact Or.inl ⟨rfl, rfl⟩
            · exact Ev.noConfusion h
          · simp only [List.mem_cons, List.mem_append, List.not_mem_nil,
              or_false] at hmem
            rcases hmem with (h | h) | h | h | h
            · exact Ev.noConfusion h
            · exact Ev.noConfusion h
            · obtain ⟨rfl, rfl⟩ := Ev.collectCall.inj h
              exact Or.inl ⟨rfl, rfl⟩
            · exact Ev.noConfusion h
            · exact Ev.noConfusion h
          · obtain ⟨m, _, htr1, _⟩ := weightedRound_err_shape cb k0 _ _ _ _ _ hw1
            subst htr1
            simp only [List.mem_cons, List.mem_append, List.mem_map,
              List.not_mem_nil, or_false] at hmem
            rcases hmem with (h | h) | (h | h | h) | ⟨j, _, h⟩
            · exact Ev.noConfusion h
            · exact Ev.noConfusion h
            · obtain ⟨rfl, rfl⟩ := Ev.collectCall.inj h
              exact Or.inl ⟨rfl, rfl⟩
            · exact Ev.noConfusion h
            · exact Ev.noConfusion h
            · exact Ev.noConfusion h
          · obtain ⟨htr1, hlvls, _⟩ := weightedRound_ok_shape cb k0 _ _ _ _ _ _ hw1
            subst htr1
            simp only [List.append_assoc, List.mem_append, List.mem_cons, List.mem_map,
              List.not_mem_nil, or_false] at hmem
            rcases hmem with (h | h) | (h | h | h) | ⟨j, _, h⟩ | h | h
            · exact Ev.noConfusion h
            · exact Ev.noConfusion h
            · obtain ⟨rfl, rfl⟩ := Ev.collectCall.inj h
              exact Or.inl ⟨rfl, rfl⟩
            · exact Ev.noConfusion h
            · exact Ev.noConfusion h
            · exact Ev.noConfusion h
            · exact Ev.noConfusion h
            · exact Ev.noConfusion h
          · obtain ⟨htr1, hlvls, hpool2⟩ := weightedRound_ok_shape cb k0 _ _ _ _ _ _ hw1
            subst htr1
            rw [List.append_assoc, List.append_assoc] at hmem
            rcases List.mem_append.1 hmem with hH | hmem1
            · simp only [List.mem_cons, List.not_mem_nil, or_false] at hH
              rcases hH with h | h
              · exact Ev.noConfusion h
              · exact Ev.noConfusion h
            · rw [← List.append_assoc] at hmem1
              rcases List.mem_append.1 hmem1 with hH | hmem2
              · simp only [List.mem_append, List.mem_cons, List.mem_map,
                  List.not_mem_nil, or_false] at hH
                rcases hH with (h | h | h) | ⟨j, _, h⟩
                · obtain ⟨rfl, rfl⟩ := Ev.collectCall.inj h
                  exact Or.inl ⟨rfl, rfl⟩
                · exact Ev.noConfusion h
                · exact Ev.noConfusion h
                · exact Ev.noConfusion h
              · rcases List.mem_append.1 hmem2 with hH | hR
                · simp only [List.mem_cons, List.not_mem_nil, or_false] at hH
                  exact absurd hH (fun h => Ev.noConfusion h)
                · have hpool3 : (LevelSampler.endRound samp2 lvls).pool = generate_seeds := by
                    rw [LevelSampler.endRound_pool, hpool2,
                      LevelSampler.updateWithRollouts_pool, hpool]
                  rcases ih _ _ _ lvls (k0 + 1) hpool3 k s hR with ⟨rfl, rfl⟩ | ⟨hk, hs⟩
                  · refine Or.inr ⟨Nat.le_refl _, ?_⟩
                    rw [hlvls]
                    unfold pickSeeds
                    simp [LevelSampler.updateWithRollouts_pool, hpool]
                  · exact Or.inr ⟨Nat.le_of_succ_le hk, hs⟩
    case neg =>
      rcases cyclePost_cases cfg cb samp ti es seeds k0
          (fun s1 t1 e1 sd1 => loop cfg cb fuel s1 t1 e1 sd1 (k0 + 1)) with
        ⟨e, hc, hres⟩ | ⟨dEs, e, hc, ht, hres⟩ | ⟨dEs, dTi, e, hc, ht, hu, hres⟩ |
        ⟨dEs, dTi, wsTr, e, hc, ht, hu, hw1, hres⟩ |
        ⟨dEs, dTi, wsTr, lvls, samp2, hc, ht, hu, hw1, hstop1, hres⟩ |
        ⟨dEs, dTi, wsTr, lvls, samp2, hc, ht, hu, hw1, hstop1, hres⟩ <;>
        simp only [hres, RunRes.prepend_err, RunRes.prepend_okC,
          RunRes.trace_err, RunRes.trace_ok, RunRes.trace_prepend] at hmem
      · simp only [List.mem_cons, List.mem_append, List.not_mem_nil,
          or_false] at hmem
        rcases hmem with h | h
        · exact Ev.noConfusion h
        · obtain ⟨rfl, rfl⟩ := Ev.collectCall.inj h
          exact Or.inl ⟨rfl, rfl⟩
      · simp only [List.mem_cons, List.mem_append, List.not_mem_nil,
          or_false] at hmem
        rcases hmem with h | h | h
        · exact Ev.noConfusion h
        · obtain ⟨rfl, rfl⟩ := Ev.collectCall.inj h
          exact Or.inl ⟨rfl, rfl⟩
        · exact Ev.noConfusion h
      · simp only [List.mem_cons, List.mem_append, List.not_mem_nil,
          or_false] at hmem
        rcases hmem with h | h | h | h
        · exact Ev.noConfusion h
        · obtain ⟨rfl, rfl⟩ := Ev.collectCall.inj h
          exact Or.inl ⟨rfl, rfl⟩
        · exact Ev.noConfusion h
        · exact Ev.noConfusion h
      · obtain ⟨m, _, htr1, _⟩ := weightedRound_err_shape cb k0 _ _ _ _ _ hw1
        subst htr1
        simp only [List.mem_cons, List.mem_append, List.mem_map,
          List.not_mem_nil, or_false] at hmem
        rcases hmem with h | (h | h | h) | ⟨j, _, h⟩
        · exact Ev.noConfusion h
        · obtain ⟨rfl, rfl⟩ := Ev.collectCall.inj h
          exact Or.inl ⟨rfl, rfl⟩
        · exact Ev.noConfusion h
        · exact Ev.noConfusion h
        · exact Ev.noConfusion h
      · obtain ⟨htr1, hlvls, _⟩ := weightedRound_ok_shape cb k0 _ _ _ _ _ _ hw1
        subst htr1
        simp only [List.append_assoc, List.mem_append, List.mem_cons, List.mem_map,
          List.not_mem_nil, or_false] at hmem
        rcases hmem with h | (h | h | h) | ⟨j, _, h⟩ | h | h
        · exact Ev.noConfusion h
        · obtain ⟨rfl, rfl⟩ := Ev.collectCall.inj h
          exact Or.inl ⟨rfl, rfl⟩
        · exact Ev.noConfusion h
        · exact Ev.noConfusion h
        · exact Ev.noConfusion h
        · exact Ev.noConfusion h
        · exact Ev.noConfusion h
      · obtain ⟨htr1, hlvls, hpool2⟩ := weightedRound_ok_shape cb k0 _ _ _ _ _ _ hw1
        subst htr1
        rw [List.append_assoc, List.append_assoc] at hmem
        rcases List.mem_append.1 hmem with hH | hmem1
        · simp only [List.mem_cons, List.not_mem_nil, or_false] at hH
          exact absurd hH (fun h => Ev.noConfusion h)
        · rw [← List.append_assoc] at hmem1
          rcases List.mem_append.1 hmem1 with hH | hmem2
          · simp only [List.mem_append, List.mem_cons, List.mem_map,
              List.not_mem_nil, or_false] at hH
            rcases hH with (h | h | h) | ⟨j, _, h⟩
            · obtain ⟨rfl, rfl⟩ := Ev.collectCall.inj h
              exact Or.inl ⟨rfl, rfl⟩
            · exact Ev.noConfusion h
            · exact Ev.noConfusion h
            · exact Ev.noConfusion h
          · rcases List.mem_append.1 hmem2 with hH | hR
            · simp only [List.mem_cons, List.not_mem_nil, or_false] at hH
              exact absurd hH (fun h => Ev.noConfusion h)
            · have hpool3 : (LevelSampler.endRound samp2 lvls).pool = generate_seeds := by
                rw [LevelSampler.endRound_pool, hpool2,
                  LevelSampler.updateWithRollouts_pool, hpool]
              rcases ih _ _ _ lvls (k0 + 1) hpool3 k s hR with ⟨rfl, rfl⟩ | ⟨hk, hs⟩
              · refine Or.inr ⟨Nat.le_refl _, ?_⟩
                rw [hlvls]
                unfold pickSeeds
                simp [LevelSampler.updateWithRollouts_pool, hpool]
              · exact Or.inr ⟨Nat.le_of_succ_le hk, hs⟩

/-- C5: Active-set invariant.  For every run (with a feasible worker count),
each assignment round hands the workers exactly `workerCount` levels, and
the seed list pushed to the collector environments is exactly the list of
level ids most recently returned by the sampler, in order: the initial
assignment is the sequential round's output `seqSeeds`, the cycle-`k`
reseeding assignment is that cycle's weighted-round output `pickSeeds cb k`,
and every collect call is seeded with the assignment that immediately
precedes it (the initial one for cycle 0, cycle `k`'s reseed for
cycle `k + 1`). -/
theorem serial_plr_active_set (cfg : Cfg) (cb : Collab) (fuel : Nat)
    (hw : cfg.workerCount ≤ 500) :
    (∀ s, Ev.initAssign s ∈ (serial_pipeline_plr cfg cb fuel).trace →
      s = seqSeeds cfg.workerCount ∧ s.length = cfg.workerCount) ∧
    (∀ k s, Ev.reseedAssign k s ∈ (serial_pipeline_plr cfg cb fuel).trace →
      s = pickSeeds cb k cfg.workerCount ∧ s.length = cfg.workerCount) ∧
    (∀ s, Ev.collectCall 0 s ∈ (serial_pipeline_plr cfg cb fuel).trace →
      s = seqSeeds cfg.workerCount) ∧
    (∀ k s, Ev.collectCall (k + 1) s ∈ (serial_pipeline_plr cfg cb fuel).trace →
      s = pickSeeds cb k cfg.workerCount) := by
  obtain ⟨sampI, hpipe, hpool, _⟩ := pipeline_decomp cfg cb fuel hw
  rw [hpipe]
  refine ⟨?_, ?_, ?_, ?_⟩
  · intro s hmem
    rw [RunRes.trace_prepend] at hmem
    rcases List.mem_append.1 hmem with hP | hL
    · simp only [List.mem_cons, List.mem_append, List.mem_map,
        List.not_mem_nil, or_false] at hP
      rcases hP with (h | ⟨j, _, h⟩) | h
      · exact Ev.noConfusion h
      · exact Ev.noConfusion h
      · obtain rfl := Ev.initAssign.inj h
        exact ⟨rfl, seqSeeds_length cfg.workerCount⟩
    · have := loop_events cfg cb fuel sampI 0 0 (seqSeeds cfg.workerCount) 0 _ hL
      rcases this with h | ⟨j, _, h⟩
      · exact Ev.noConfusion h
      · exact Option.noConfusion h
  · intro k s hmem
    rw [RunRes.trace_prepend] at hmem
    rcases List.mem_append.1 hmem with hP | hL
    · simp only [List.mem_cons, List.mem_append, List.mem_map,
        List.not_mem_nil, or_false] at hP
      rcases hP with (h | ⟨j, _, h⟩) | h
      · exact Ev.noConfusion h
      · exact Ev.noConfusion h
      · exact Ev.noConfusion h
    · have hs := loop_reseed_payload cfg cb fuel sampI 0 0
        (seqSeeds cfg.workerCount) 0 hpool k s hL
      exact ⟨hs, by rw [hs]; exact pickSeeds_length cb k cfg.workerCount⟩
  · intro s hmem
    rw [RunRes.trace_prepend] at hmem
    rcases List.mem_append.1 hmem with hP | hL
    · simp only [List.mem_cons, List.mem_append, List.mem_map,
        List.not_mem_nil, or_false] at hP
      rcases hP with (h | ⟨j, _, h⟩) | h
      · exact Ev.noConfusion h
      · exact Ev.noConfusion h
      · exact Ev.noConfusion h
    · rcases loop_collect_payload cfg cb fuel sampI 0 0
          (seqSeeds cfg.workerCount) 0 hpool 0 s hL with ⟨_, rfl⟩ | ⟨hk, _⟩
      · rfl
      · omega
  · intro k s hmem
    rw [RunRes.trace_prepend] at hmem
    rcases List.mem_append.1 hmem with hP | hL
    · simp only [List.mem_cons, List.mem_append, List.mem_map,
        List.not_mem_nil, or_false] at hP
      rcases hP with (h | ⟨j, _, h⟩) | h
      · exact Ev.noConfusion h
      · exact Ev.noConfusion h
      · exact Ev.noConfusion h
    · rcases loop_collect_payload cfg cb fuel sampI 0 0
          (seqSeeds cfg.workerCount) 0 hpool (k + 1) s hL with ⟨h, _⟩ | ⟨_, hs⟩
      · exact Nat.noConfusion h
      · simpa using hs

theorem serial_plr_active_set_witness :
    Ev.initAssign [0, 1] ∈ (serial_pipeline_plr ⟨2, 1000000, 1000000⟩ cbStub 2).trace ∧
    Ev.reseedAssign 0 [0, 0] ∈ (serial_pipeline_plr ⟨2, 1000000, 1000000⟩ cbStub 2).trace ∧
    Ev.collectCall 1 [0, 0] ∈ (serial_pipeline_plr ⟨2, 1000000, 1000000⟩ cbStub 2).trace ∧
    [(0 : Int), 1] = seqSeeds 2 ∧ ([(0 : Int), 1]).length = 2 ∧
    [(0 : Int), 0] = pickSeeds cbStub 0 2 ∧ ([(0 : Int), 0]).length = 2 := by
  have h := serial_plr_active_set ⟨2, 1000000, 1000000⟩ cbStub 2 (by decide)
  have h1 := h.1 [0, 1] (by decide)
  have h2 := h.2.1 0 [0, 0] (by decide)
  have h4 := h.2.2.2 0 [0, 0] (by decide)
  exact ⟨by decide, by decide, by decide, h1.1, h1.2, h4, h2.2⟩

theorem RunRes.final_prepend (l : List Ev) (r : RunRes) :
    (RunRes.prepend l r).final? = r.final? := by
  cases r <;> rfl

/-- The loop never rebuilds or mutates the level pool: the pool of the
final sampler state equals the pool it started with. -/
theorem loop_pool (cfg : Cfg) (cb : Collab) :
    ∀ fuel samp ti es seeds k fin,
      (loop cfg cb fuel samp ti es seeds k).final? = some fin →
        fin.samp.pool = samp.pool := by
  intro fuel
  induction fuel with
  | zero =>
    intro samp ti es seeds k fin h
    simp only [loop, RunRes.final?, Option.some.injEq] at h
    subst h
    rfl
  | succ fuel ih =>
    intro samp ti es seeds k fin h
    simp only [loop] at h
    by_cases hse : cb.shouldEval ti <;>
      [simp only [if_pos hse] at h; simp only [if_neg hse] at h]
    case pos =>
      cases hev1 : cb.evalRes k with
      | error e =>
        simp only [hev1, RunRes.final?] at h
        exact Option.noConfusion h
      | ok b =>
        cases b with
        | true =>
          simp only [hev1, RunRes.final?, Option.some.injEq] at h
          subst h
          rfl
        | false =>
          rcases cyclePost_cases cfg cb samp ti es seeds k
              (fun s1 t1 e1 sd1 => loop cfg cb fuel s1 t1 e1 sd1 (k + 1)) with
            ⟨e, hc, hres⟩ | ⟨dEs, e, hc, ht, hres⟩ | ⟨dEs, dTi, e, hc, ht, hu, hres⟩ |
            ⟨dEs, dTi, wsTr, e, hc, ht, hu, hw1, hres⟩ |
            ⟨dEs, dTi, wsTr, lvls, samp2, hc, ht, hu, hw1, hstop1, hres⟩ |
            ⟨dEs, dTi, wsTr, lvls, samp2, hc, ht, hu, hw1, hstop1, hres⟩ <;>
            simp only [hev1, hres, RunRes.prepend_err, RunRes.prepend_okC,
              RunRes.final_prepend] at h <;>
            simp only [RunRes.final?, Option.some.injEq] at h
          · exact absurd h (fun hf => Option.noConfusion hf)
          · exact absurd h (fun hf => Option.noConfusion hf)
          · exact absurd h (fun hf => Option.noConfusion hf)
          · exact absurd h (fun hf => Option.noConfusion hf)
          · obtain ⟨_, _, hpool2⟩ := weightedRound_ok_shape cb k _ _ _ _ _ _ hw1
            subst h
            show (samp2.endRound lvls).pool = samp.pool
            rw [LevelSampler.endRound_pool, hpool2,
              LevelSampler.updateWithRollouts_pool]
          · obtain ⟨_, _, hpool2⟩ := weightedRound_ok_shape cb k _ _ _ _ _ _ hw1
            have := ih _ _ _ lvls (k + 1) fin h
            rw [this, LevelSampler.endRound_pool, hpool2,
              LevelSampler.updateWithRollouts_pool]
    case neg =>
      rcases cyclePost_cases cfg cb samp ti es seeds k
          (fun s1 t1 e1 sd1 => loop cfg cb fuel s1 t1 e1 sd1 (k + 1)) with
        ⟨e, hc, hres⟩ | ⟨dEs, e, hc, ht, hres⟩ | ⟨dEs, dTi, e, hc, ht, hu, hres⟩ |
        ⟨dEs, dTi, wsTr, e, hc, ht, hu, hw1, hres⟩ |
        ⟨dEs, dTi, wsTr, lvls, samp2, hc, ht, hu, hw1, hstop1, hres⟩ |
        ⟨dEs, dTi, wsTr, lvls, samp2, hc, ht, hu, hw1, hstop1, hres⟩ <;>
        simp only [hres, RunRes.prepend_err, RunRes.prepend_okC,
          RunRes.final_prepend] at h <;>
        simp only [RunRes.final?, Option.some.injEq] at h
      · exact absurd h (fun hf => Option.noConfusion hf)
      · exact absurd h (fun hf => Option.noConfusion hf)
      · exact absurd h (fun hf => Option.noConfusion hf)
      · exact absurd h (fun hf => Option.noConfusion hf)
      · obtain ⟨_, _, hpool2⟩ := weightedRound_ok_shape cb k _ _ _ _ _ _ hw1
        subst h
        show (samp2.endRound lvls).pool = samp.pool
        rw [LevelSampler.endRound_pool, hpool2,
          LevelSampler.updateWithRollouts_pool]
      · obtain ⟨_, _, hpool2⟩ := weightedRound_ok_shape cb k _ _ _ _ _ _ hw1
        have := ih _ _ _ lvls (k + 1) fin h
        rw [this, LevelSampler.endRound_pool, hpool2,
          LevelSampler.updateWithRollouts_pool]

/-- C6: Level pool generation.  `generate_seeds num_seeds base_seed` is
exactly the ordered list `[base_seed + i for i in 0..num_seeds-1]`; the
pipeline invokes it with no arguments, so the default pool is the 500 level
ids `0, ..., 499`, and the pool held by the sampler at the end of every run
that returns a final state is exactly that list, independent of the
configuration passed in. -/
theorem serial_plr_level_pool :
    (∀ n b, (generate_seeds n b).length = n ∧
      ∀ i, i < n → (generate_seeds n b).getD i 0 = b + i) ∧
    generate_seeds = (List.range 500).map (fun (i : Nat) => (i : Int)) ∧
    (∀ cfg cb fuel fin, (serial_pipeline_plr cfg cb fuel).final? = some fin →
      fin.samp.pool = generate_seeds) := by
  refine ⟨fun n b => ⟨generate_seeds_length n b, fun i hi => generate_seeds_getD n b i hi⟩,
    ?_, ?_⟩
  · unfold generate_seeds
    simp
  · intro cfg cb fuel fin h
    by_cases hw : cfg.workerCount ≤ 500
    · obtain ⟨sampI, hpipe, hpool, _⟩ := pipeline_decomp cfg cb fuel hw
      rw [hpipe, RunRes.final_prepend] at h
      rw [loop_pool cfg cb fuel sampI 0 0 (seqSeeds cfg.workerCount) 0 fin h, hpool]
    · rw [pipeline_exhausted cfg cb fuel (by omega)] at h
      simp only [RunRes.final?] at h
      exact Option.noConfusion h

theorem serial_plr_level_pool_witness :
    (generate_seeds 3 7).length = 3 ∧
    ((1 : Nat) < 3 ∧ (generate_seeds 3 7).getD 1 0 = 8) ∧
    (serial_pipeline_plr ⟨2, 0, 0⟩ cbStub 0).final?.map (fun f => f.samp.pool) =
      some generate_seeds := by
  refine ⟨(serial_plr_level_pool.1 3 7).1, ⟨by decide, ?_⟩, ?_⟩
  · have h := (serial_plr_level_pool.1 3 7).2 1 (by decide)
    rw [h]
    decide
  · cases hfin : (serial_pipeline_plr ⟨2, 0, 0⟩ cbStub 0).final? with
    | none =>
      have hsome : (serial_pipeline_plr ⟨2, 0, 0⟩ cbStub 0).final?.isSome = true := by
        decide
      rw [hfin] at hsome
      exact Bool.noConfusion hsome
    | some fin =>
      simp only [Option.map_some']
      rw [serial_plr_level_pool.2.2 ⟨2, 0, 0⟩ cbStub 0 fin hfin]

theorem replicate_append_getD (w : Nat) (i : Nat) (hi : i < 500) :
    (List.replicate w (1 : Nat) ++ List.replicate (500 - w) 0).getD i 0 =
      if i < w then 1 else 0 := by
  rw [List.getD_eq_getElem?_getD, List.getElem?_append, List.getElem?_replicate,
    List.getElem?_replicate, List.length_replicate]
  by_cases h : i < w
  · simp [h]
  · have h2 : i - w < 500 - w := by omega
    simp [h, h2]

/-- Counterexample to unqualified cold-start coverage: with 8 collector
workers the run does reach a weighted sample, yet pool level 8 (of the 500
levels) has never been sampled sequentially at that moment — its visit
count when the first weighted draw happens is 0, not at least 1.  The
single initial round covers only the first `workerCount` levels. -/
theorem serial_plr_cold_start_cex :
    Ev.weightedSample 0 0 ∈ (serial_pipeline_plr ⟨8, 0, 0⟩ cbStub 1).trace ∧
    (stateAtFirstWeighted ⟨8, 0, 0⟩ cbStub).map
      (fun s => s.visit_count.getD 8 1) = some 0 := by
  exact ⟨by decide, by decide⟩

/-- C1 (amended): Cold-start coverage holds only for the first
`workerCount` pool levels.  In every run with a feasible worker count, the
sequential samples of the initial round are exactly those of indices
`0, ..., workerCount - 1`, every sequential sample happens before every
weighted sample, and at the moment the first weighted sample is drawn the
visit count of pool level `i` is 1 if `i < workerCount` and 0 otherwise —
so the original claim's guarantee of `visit_count >= 1` for every level
holds iff `workerCount` covers the whole pool. -/
theorem serial_plr_cold_start (cfg : Cfg) (cb : Collab) (fuel : Nat)
    (hw : cfg.workerCount ≤ 500) :
    (∀ j, Ev.seqSample j ∈ (serial_pipeline_plr cfg cb fuel).trace ↔
      j < cfg.workerCount) ∧
    (∀ j k i, Ev.seqSample j ∈ (serial_pipeline_plr cfg cb fuel).trace →
      Ev.weightedSample k i ∈ (serial_pipeline_plr cfg cb fuel).trace →
      happensBefore (serial_pipeline_plr cfg cb fuel).trace
        (Ev.seqSample j) (Ev.weightedSample k i)) ∧
    (∃ s, stateAtFirstWeighted cfg cb = some s ∧ ∀ i, i < 500 →
      s.visit_count.getD i 0 = if i < cfg.workerCount then 1 else 0) := by
  obtain ⟨sampI, hpipe, hpool, hvc⟩ := pipeline_decomp cfg cb fuel hw
  refine ⟨?_, ?_, ?_⟩
  · intro j
    rw [hpipe, RunRes.trace_prepend]
    constructor
    · intro hmem
      rcases List.mem_append.1 hmem with hP | hL
      · simp only [List.mem_cons, List.mem_append, List.mem_map,
          List.not_mem_nil, or_false] at hP
        rcases hP with (h | ⟨j1, hj1, h⟩) | h
        · exact absurd h (fun hf => Ev.noConfusion hf)
        · obtain rfl := Ev.seqSample.inj h
          simp only [List.mem_range'_1] at hj1
          omega
        · exact absurd h (fun hf => Ev.noConfusion hf)
      · have hle := loop_events cfg cb fuel sampI 0 0 (seqSeeds cfg.workerCount) 0 _ hL
        rcases hle with h | ⟨j1, _, h⟩
        · exact absurd h (fun hf => Ev.noConfusion hf)
        · simp only [Ev.cycle?] at h
          exact absurd h (fun hf => Option.noConfusion hf)
    · intro hj
      refine List.mem_append.2 (Or.inl (List.mem_append.2 (Or.inl ?_)))
      refine List.mem_cons.2 (Or.inr ?_)
      exact List.mem_map.2 ⟨j, by simp only [List.mem_range'_1]; omega, rfl⟩
  · intro j k i hj hwk
    rw [hpipe, RunRes.trace_prepend] at hj hwk ⊢
    have hbnotP : Ev.weightedSample k i ∉
        Ev.beforeRun :: (List.range' 0 cfg.workerCount).map Ev.seqSample ++
          [Ev.initAssign (seqSeeds cfg.workerCount)] := by
      intro hmem
      simp only [List.mem_cons, List.mem_append, List.mem_map,
        List.not_mem_nil, or_false] at hmem
      rcases hmem with (h | ⟨j1, _, h⟩) | h
      · exact Ev.noConfusion h
      · exact Ev.noConfusion h
      · exact Ev.noConfusion h
    have haP : Ev.seqSample j ∈
        Ev.beforeRun :: (List.range' 0 cfg.workerCount).map Ev.seqSample ++
          [Ev.initAssign (seqSeeds cfg.workerCount)] := by
      rcases List.mem_append.1 hj with hP | hL
      · exact hP
      · exfalso
        have hle := loop_events cfg cb fuel sampI 0 0 (seqSeeds cfg.workerCount) 0 _ hL
        rcases hle with h | ⟨j1, _, h⟩
        · exact Ev.noConfusion h
        · simp only [Ev.cycle?] at h
          exact Option.noConfusion h
    have hbL : Ev.weightedSample k i ∈
        (loop cfg cb fuel sampI 0 0 (seqSeeds cfg.workerCount) 0).trace := by
      rcases List.mem_append.1 hwk with hP | hL
      · exact absurd hP hbnotP
      · exact hL
    exact hb_here haP hbnotP hbL
  · obtain ⟨s2, h1, h2, h3⟩ := pipeline_seqRound cfg.workerCount hw
    refine ⟨(s2.endRound (seqSeeds cfg.workerCount)).updateWithRollouts
        (seqSeeds cfg.workerCount) (cb.potentials 0), ?_, ?_⟩
    · unfold stateAtFirstWeighted
      rw [h1]
    · intro i hi
      rw [LevelSampler.updateWithRollouts_visit, LevelSampler.endRound_visit, h2]
      exact replicate_append_getD cfg.workerCount i hi

theorem serial_plr_cold_start_witness :
    ((⟨8, 0, 0⟩ : Cfg).workerCount ≤ 500) ∧
    Ev.seqSample 3 ∈ (serial_pipeline_plr ⟨8, 0, 0⟩ cbStub 1).trace ∧
    happensBefore (serial_pipeline_plr ⟨8, 0, 0⟩ cbStub 1).trace
      (Ev.seqSample 3) (Ev.weightedSample 0 0) ∧
    (stateAtFirstWeighted ⟨8, 0, 0⟩ cbStub).map
      (fun s => s.visit_count.getD 3 0) = some 1 := by
  have h := serial_plr_cold_start ⟨8, 0, 0⟩ cbStub 1 (by decide)
  have hseq : Ev.seqSample 3 ∈ (serial_pipeline_plr ⟨8, 0, 0⟩ cbStub 1).trace :=
    (h.1 3).mpr (by decide)
  refine ⟨by decide, hseq, h.2.1 3 0 0 hseq (by decide), ?_⟩
  obtain ⟨s, hs, hv⟩ := h.2.2
  rw [hs, Option.map_some']
  rw [hv 3 (by decide)]
  decide

theorem foldl_max_nonneg (l : List ℚ) : ∀ a : ℚ, 0 ≤ a → 0 ≤ l.foldl max a := by
  induction l with
  | nil => intro a ha; exact ha
  | cons b t ih => intro a ha; exact ih (max a b) (le_trans ha (le_max_left a b))

theorem stackMax_nonneg (l : List ℚ) (h : ∀ x ∈ l, 0 ≤ x) : 0 ≤ stackMax l := by
  cases l with
  | nil => exact le_refl 0
  | cons a rest => exact foldl_max_nonneg rest a (h a (List.mem_cons_self a rest))

/-- Counterexample to the exact max/mean mixture: already for a single
timestep with TD-error 1 the priority computed by `_forward_learn` differs
from `0.9 * max + 0.1 * mean`, because the mean's denominator in the code
is `len(td_error) + 1e-8`, not `len(td_error)`. -/
theorem r2d2_gtrxl_priority_cex : priorityOfSeq [1] ≠ specPriority [1] := by
  simp only [priorityOfSeq, specPriority, td_error_per_sample, stackMax,
    List.map, List.sum_cons, List.sum_nil, List.length, List.foldl,
    abs_one]
  rw [abs_of_nonneg (by norm_num)]
  norm_num

/-- C8 (amended): the per-sequence priority is `0.9` times the maximum of
the absolute TD-errors plus `0.1` times their mean damped by the factor
`T / (T + 1e-8)` where `T` is the number of timesteps — the epsilon that
guards the division also biases the mean low by that factor, so the claim's
exact `0.9 * max + 0.1 * mean` is off by `0.1 * mean * 1e-8 / (T + 1e-8)`.
The outer `.abs()` of line 329 is redundant: the mixture of nonnegative
statistics is nonnegative. -/
theorem r2d2_gtrxl_priority (e : List ℚ) (he : e ≠ []) :
    priorityOfSeq e =
      9 / 10 * stackMax (e.map (fun x => |x|)) +
      1 / 10 * ((e.map (fun x => |x|)).sum / (e.length : ℚ)) *
        ((e.length : ℚ) / ((e.length : ℚ) + 1 / 100000000)) := by
  have habs : ∀ x ∈ e.map (fun x => |x|), 0 ≤ x := by
    intro x hx
    obtain ⟨y, _, rfl⟩ := List.mem_map.1 hx
    exact abs_nonneg y
  have h1 : 0 ≤ stackMax (e.map (fun x => |x|)) := stackMax_nonneg _ habs
  have h2 : 0 ≤ (e.map (fun x => |x|)).sum := List.sum_nonneg habs
  have hlenpos : (0 : ℚ) < (e.length : ℚ) := by
    have hl : 0 < e.length := List.length_pos.2 he
    exact_mod_cast hl
  have hnn : 0 ≤ td_error_per_sample (e.map (fun x => |x|)) := by
    unfold td_error_per_sample
    refine add_nonneg (mul_nonneg (by norm_num) h1) (mul_nonneg (by norm_num) ?_)
    exact div_nonneg h2 (by positivity)
  unfold priorityOfSeq
  rw [abs_of_nonneg hnn]
  unfold td_error_per_sample
  rw [List.length_map]
  have hT : ((e.length : ℚ)) ≠ 0 := ne_of_gt hlenpos
  have hTe : ((e.length : ℚ)) + 1 / 100000000 ≠ 0 := by positivity
  field_simp
  ring

theorem r2d2_gtrxl_priority_witness :
    ([(3 : ℚ), -1] ≠ []) ∧
    priorityOfSeq [(3 : ℚ), -1] =
      9 / 10 * stackMax ([(3 : ℚ), -1].map (fun x => |x|)) +
      1 / 10 * (([(3 : ℚ), -1].map (fun x => |x|)).sum / (([(3 : ℚ), -1].length : ℚ))) *
        ((([(3 : ℚ), -1].length : ℚ)) / (([(3 : ℚ), -1].length : ℚ) + 1 / 100000000)) :=
  ⟨by decide, r2d2_gtrxl_priority [(3 : ℚ), -1] (by decide)⟩
